import Mathlib

/-!
# Safe velocity region for a car: the numeric core of `safecar.cpp`

A shallow embedding of `SafeCar` (src/cpp/src/safecar.cpp, src/cpp/include/safecar.hpp)
over an arbitrary linearly ordered field `K` (exact arithmetic), with the tangent
taken as a parameter `tan : K → K`; the theorems instantiate `K := ℝ` and
`tan := Real.tan`.

* The instance member `_polynomial` is mutable scratch state: every operation returns
  the instance it leaves behind next to its result.
* The three `for (;;)` loops carry a fuel argument, one unit per loop iteration;
  `none` stands for a call that does not return.
* A Newton step whose derivative is zero divides by zero: the quotient is undefined
  over the reals and is an infinity or a NaN in IEEE arithmetic, from which the loop
  test `abs(next - v) < tolerance` never succeeds again; such a run is `none`.
* Every sum, difference, product and quotient is exact. The code computes in binary64 and
  rounds each of them: the steering angle accumulated by `newNextDelta += dt * omega` and
  the probes `midV ± width` of the refinement walk can differ from their exact values by a
  unit in the last place. Statements that compare such values hold of the exact arithmetic
  only and say so; statements about which branch is taken and what it returns do not
  depend on it.
-/

/-- The macro `DANGER` of safecar.hpp: the sentinel `-1.0`. -/
def DANGER {K : Type} [LinearOrderedField K] : K := -1

/-- The struct `veloBound` of safecar.hpp. -/
structure veloBound (K : Type) where
  isSafe : Bool
  vMax : K
  vMin : K

/-- The coefficient state `_a4, _a2, _a1, _a0` of `SafeCar::Polynomial`. -/
structure SafeCar.Polynomial (K : Type) where
  a4 : K
  a2 : K
  a1 : K
  a0 : K

/-- The class `SafeCar`: five constant parameters and the scratch polynomial. -/
structure SafeCar (K : Type) where
  omega : K
  maxDelta : K
  dt : K
  L : K
  c : K
  polynomial : SafeCar.Polynomial K

namespace SafeCar

variable {K : Type} [LinearOrderedField K]

/-- `SafeCar::Polynomial::setCoefficients`: overwrites all four coefficients of `self`. -/
def Polynomial.setCoefficients (tan : K → K) (_self : Polynomial K)
    (currentVelocity nextDelta L dt c : K) : Polynomial K :=
  let alpha := tan |nextDelta| / L
  let pdt := dt ^ 2
  { a4 := alpha ^ 2
    a2 := 1 / pdt
    a1 := -2 * currentVelocity / pdt
    a0 := currentVelocity ^ 2 / pdt - (c ^ 2 / L) ^ 2 }

/-- The constructor `SafeCar::Polynomial::Polynomial(currentVelocity, nextDelta, L, dt, c)`. -/
def Polynomial.new (tan : K → K) (currentVelocity nextDelta L dt c : K) : Polynomial K :=
  Polynomial.setCoefficients tan ⟨0, 0, 0, 0⟩ currentVelocity nextDelta L dt c

/-- The constructor `SafeCar::SafeCar(omega, maxDelta, dt, L, c)`. -/
def new (tan : K → K) (omega maxDelta dt L c : K) : SafeCar K :=
  { omega := omega, maxDelta := maxDelta, dt := dt, L := L, c := c
    polynomial := Polynomial.new tan 0 0 L dt c }

/-- The instance built with the default arguments of safecar.hpp:
`omega = 3.2, maxDelta = 1.1, dt = 0.05, L = 0.325, c = 2.0`. -/
def defaultCar (tan : K → K) : SafeCar K :=
  new tan (32 / 10) (11 / 10) (5 / 100) (325 / 1000) 2

/-- `SafeCar::Polynomial::getValue`. -/
def Polynomial.getValue (self : Polynomial K) (v : K) : K :=
  let v1 := v
  let v2 := v * v1
  let v4 := v2 * v2
  self.a4 * v4 + self.a2 * v2 + self.a1 * v1 + self.a0

/-- `SafeCar::Polynomial::getDerivativeValue`. -/
def Polynomial.getDerivativeValue (self : Polynomial K) (v : K) : K :=
  let v1 := v
  let v2 := v * v1
  let v3 := v * v2
  4 * self.a4 * v3 + 2 * self.a2 * v1 + self.a1

/-- The default argument `tolerance = 1e-9` of safecar.hpp. -/
def defaultTolerance : K := 1 / 1000000000

/-- One Newton-Raphson loop of `makeVeloBoundNextStep` (lines 65-79 and 83-97), started at
`v`: `fuel` bounds the number of iterations. -/
def newtonLoop (p : Polynomial K) (tolerance : K) : Nat → K → Option K
  | 0, _ => none
  | fuel + 1, v =>
    let f := p.getValue v
    let dF := p.getDerivativeValue v
    if dF = 0 then none
    else
      let vNext := v - f / dF
      if |vNext - v| < tolerance then some vNext
      else newtonLoop p tolerance fuel vNext

/-- `SafeCar::makeVeloBoundNextStep`; `nfuel` is the iteration budget of each Newton loop. -/
def makeVeloBoundNextStep (tan : K → K) (self : SafeCar K)
    (currentVelocity nextDelta tolerance : K) (nfuel : Nat) : Option (veloBound K × SafeCar K) :=
  let self1 : SafeCar K :=
    { self with
      polynomial :=
        self.polynomial.setCoefficients tan currentVelocity nextDelta self.L self.dt self.c }
  if self1.polynomial.getValue currentVelocity > 0 ∨ |nextDelta| > self1.maxDelta then
    some ({ isSafe := false, vMax := DANGER, vMin := DANGER }, self1)
  else
    let searchRange := self1.dt * self1.c ^ 2 / self1.L
    match newtonLoop self1.polynomial tolerance nfuel (currentVelocity + searchRange) with
    | none => none
    | some vMax =>
      match newtonLoop self1.polynomial tolerance nfuel (currentVelocity - searchRange) with
      | none => none
      | some vMin => some ({ isSafe := true, vMax := vMax, vMin := vMin }, self1)

/-- The loop of `SafeCar::isPassWorstCase` (lines 110-142) from the state
`(minV, newNextDelta, endFlag)`: `fuel` bounds the number of iterations, each of which
calls `makeVeloBoundNextStep` once, with the default tolerance. -/
def isPassWorstCaseLoop (tan : K → K) (nfuel : Nat) :
    Nat → SafeCar K → K → K → Bool → Option (Bool × SafeCar K)
  | 0, _, _, _, _ => none
  | fuel + 1, self, minV, newNextDelta, endFlag =>
    match makeVeloBoundNextStep tan self minV newNextDelta defaultTolerance nfuel with
    | none => none
    | some (result, self1) =>
      if !result.isSafe then some (false, self1)
      else if result.vMax * result.vMin < 0 then some (true, self1)
      else
        let minSpeed := min |result.vMax| |result.vMin|
        let minV1 := minSpeed * (if minV < 0 then -1 else 1)
        if endFlag then some (true, self1)
        else
          let newNextDelta1 := newNextDelta + self1.dt * self1.omega
          if newNextDelta1 ≥ self1.maxDelta then
            isPassWorstCaseLoop tan nfuel fuel self1 minV1 self1.maxDelta true
          else
            isPassWorstCaseLoop tan nfuel fuel self1 minV1 newNextDelta1 false

/-- `SafeCar::isPassWorstCase`; `pfuel` is the iteration budget of its loop. -/
def isPassWorstCase (tan : K → K) (self : SafeCar K) (currentVelocity nextDelta : K)
    (nfuel pfuel : Nat) : Option (Bool × SafeCar K) :=
  isPassWorstCaseLoop tan nfuel pfuel self currentVelocity |nextDelta| false

/-- The refinement walk of `SafeCar::makeVeloBoundWithWorstCase` (lines 176-194) from the
state `(width, midV)`: `fuel` bounds the number of iterations. -/
def worstCaseWalk (tan : K → K) (nfuel pfuel : Nat) (result : veloBound K)
    (nextDelta tolerance : K) : Nat → SafeCar K → K → K → Option (veloBound K × SafeCar K)
  | 0, _, _, _ => none
  | fuel + 1, self, width, midV =>
    match isPassWorstCase tan self midV nextDelta nfuel pfuel with
    | none => none
    | some (isMidSafe, self1) =>
      if isMidSafe then
        if width < tolerance then some ({ result with vMax := midV }, self1)
        else worstCaseWalk tan nfuel pfuel result nextDelta tolerance fuel self1 (width / 2)
          (midV + width)
      else
        worstCaseWalk tan nfuel pfuel result nextDelta tolerance fuel self1 (width / 2)
          (midV - width)

/-- `SafeCar::makeVeloBoundWithWorstCase`; `wfuel` is the iteration budget of the walk. -/
def makeVeloBoundWithWorstCase (tan : K → K) (self : SafeCar K)
    (currentVelocity nextDelta tolerance : K) (nfuel pfuel wfuel : Nat) :
    Option (veloBound K × SafeCar K) :=
  match makeVeloBoundNextStep tan self currentVelocity nextDelta tolerance nfuel with
  | none => none
  | some (result, self1) =>
    if !result.isSafe then some (result, self1)
    else
      match isPassWorstCase tan self1 result.vMax nextDelta nfuel pfuel with
      | none => none
      | some (passMax, self2) =>
        if passMax then some (result, self2)
        else
          match isPassWorstCase tan self2 result.vMin nextDelta nfuel pfuel with
          | none => none
          | some (passMin, self3) =>
            if !passMin then
              some ({ isSafe := false, vMax := DANGER, vMin := DANGER }, self3)
            else
              let width := (result.vMax - result.vMin) / 2
              let midV := result.vMin + width
              worstCaseWalk tan nfuel pfuel result nextDelta tolerance wfuel self3 width midV

/-- The mirror image `v ↦ P(-v)` of a coefficient state. -/
def Polynomial.mirror (p : Polynomial K) : Polynomial K :=
  { p with a1 := -p.a1 }

/-- The coefficient state `makeVeloBoundNextStep(currentVelocity, nextDelta, _)` computes
with (line 49). -/
def stepPolynomial (tan : K → K) (self : SafeCar K) (currentVelocity nextDelta : K) :
    Polynomial K :=
  self.polynomial.setCoefficients tan currentVelocity nextDelta self.L self.dt self.c

/-- The instance `makeVeloBoundNextStep(currentVelocity, nextDelta, _)` leaves behind. -/
def afterStep (tan : K → K) (self : SafeCar K) (currentVelocity nextDelta : K) : SafeCar K :=
  { self with polynomial := stepPolynomial tan self currentVelocity nextDelta }

/-- The local `searchRange` of `makeVeloBoundNextStep` (line 63). -/
def searchRange (self : SafeCar K) : K :=
  self.dt * self.c ^ 2 / self.L

/-- The result of the two early returns of the unsafe paths: `isSafe = false` and both
bounds `DANGER`. -/
def dangerBound : veloBound K :=
  { isSafe := false, vMax := DANGER, vMin := DANGER }

/-- The boolean `isPassWorstCase` returns, without the instance it leaves behind. -/
def isPassWorstCaseResult (tan : K → K) (self : SafeCar K) (currentVelocity nextDelta : K)
    (nfuel pfuel : Nat) : Option Bool :=
  (isPassWorstCase tan self currentVelocity nextDelta nfuel pfuel).map Prod.fst

/-- One Newton-Raphson update `v - f / dF` of `makeVeloBoundNextStep` (lines 67-70 and
85-88). -/
def newtonNext (p : Polynomial K) (v : K) : K :=
  v - p.getValue v / p.getDerivativeValue v

/-- The value of the loop variable `vMax` (or `vMin`) of a Newton loop started at `v`, at the
head of its iteration number `n` (counted from zero). -/
def newtonIter (p : Polynomial K) (v : K) : Nat → K
  | 0 => v
  | n + 1 => newtonNext p (newtonIter p v n)

/-- The velocities `midV` at which the refinement walk of `makeVeloBoundWithWorstCase`
(lines 176-194) calls `isPassWorstCase`, in the order of the calls: the walk of
`worstCaseWalk` with every probe recorded. -/
def worstCaseWalkProbes (tan : K → K) (nfuel pfuel : Nat) (nextDelta tolerance : K) :
    Nat → SafeCar K → K → K → List K
  | 0, _, _, _ => []
  | fuel + 1, self, width, midV =>
    midV ::
      match isPassWorstCase tan self midV nextDelta nfuel pfuel with
      | none => []
      | some (isMidSafe, self1) =>
        if isMidSafe then
          if width < tolerance then []
          else worstCaseWalkProbes tan nfuel pfuel nextDelta tolerance fuel self1 (width / 2)
            (midV + width)
        else
          worstCaseWalkProbes tan nfuel pfuel nextDelta tolerance fuel self1 (width / 2)
            (midV - width)

/-- A call of one of the three public member functions of `SafeCar`, with its arguments and
the iteration budgets of its loops. -/
inductive Call (K : Type) where
  | nextStep (currentVelocity nextDelta tolerance : K) (nfuel : Nat)
  | passWorstCase (currentVelocity nextDelta : K) (nfuel pfuel : Nat)
  | withWorstCase (currentVelocity nextDelta tolerance : K) (nfuel pfuel wfuel : Nat)

/-- The instance a call leaves behind, `none` when the call does not return. -/
def Call.run (tan : K → K) (self : SafeCar K) : Call K → Option (SafeCar K)
  | Call.nextStep cv d tol nfuel =>
    (makeVeloBoundNextStep tan self cv d tol nfuel).map Prod.snd
  | Call.passWorstCase v d nfuel pfuel =>
    (isPassWorstCase tan self v d nfuel pfuel).map Prod.snd
  | Call.withWorstCase cv d tol nfuel pfuel wfuel =>
    (makeVeloBoundWithWorstCase tan self cv d tol nfuel pfuel wfuel).map Prod.snd

/-- The instance a sequence of calls leaves behind, `none` when one of them does not
return. -/
def runCalls (tan : K → K) : List (Call K) → SafeCar K → Option (SafeCar K)
  | [], self => some self
  | call :: calls, self =>
    match call.run tan self with
    | none => none
    | some self1 => runCalls tan calls self1

/-- The constraint polynomial in normal form, `A·y⁴ + (y − g)² − 1`: the polynomial of
`setCoefficients` with the velocity measured in units of `searchRange` and the value in units
of `searchRange² / dt²`. -/
def normPoly (A g : K) : Polynomial K :=
  { a4 := A, a2 := 1, a1 := -2 * g, a0 := g ^ 2 - 1 }

end SafeCar

namespace SafeCar

variable {K : Type} [LinearOrderedField K]

/-! ## The constraint polynomial -/

theorem Polynomial.getValue_eq (p : Polynomial K) (v : K) :
    p.getValue v = p.a4 * v ^ 4 + p.a2 * v ^ 2 + p.a1 * v + p.a0 := by
  simp only [Polynomial.getValue]; ring

theorem Polynomial.getDerivativeValue_eq (p : Polynomial K) (v : K) :
    p.getDerivativeValue v = 4 * p.a4 * v ^ 3 + 2 * p.a2 * v + p.a1 := by
  simp only [Polynomial.getDerivativeValue]; ring

/-- The gap between the polynomial and its tangent line at `x`. -/
theorem Polynomial.getValue_sub_tangent (p : Polynomial K) (x y : K) :
    p.getValue y - (p.getValue x + p.getDerivativeValue x * (y - x))
      = (y - x) ^ 2 * (p.a4 * ((y + x) ^ 2 + 2 * x ^ 2) + p.a2) := by
  rw [Polynomial.getValue_eq, Polynomial.getValue_eq, Polynomial.getDerivativeValue_eq]; ring

/-- Strict convexity: away from `x` the polynomial lies strictly above its tangent at `x`. -/
theorem Polynomial.tangent_lt (p : Polynomial K) (h4 : 0 ≤ p.a4) (h2 : 0 < p.a2) {x y : K}
    (hxy : y ≠ x) :
    p.getValue x + p.getDerivativeValue x * (y - x) < p.getValue y := by
  have h := p.getValue_sub_tangent x y
  have h1 : 0 < (y - x) ^ 2 := by
    have : y - x ≠ 0 := sub_ne_zero.mpr hxy
    positivity
  have h3 : 0 < p.a4 * ((y + x) ^ 2 + 2 * x ^ 2) + p.a2 := by positivity
  have h5 : 0 < (y - x) ^ 2 * (p.a4 * ((y + x) ^ 2 + 2 * x ^ 2) + p.a2) := mul_pos h1 h3
  linarith

/-- Convexity: the polynomial lies above each of its tangent lines. -/
theorem Polynomial.tangent_le (p : Polynomial K) (h4 : 0 ≤ p.a4) (h2 : 0 < p.a2) (x y : K) :
    p.getValue x + p.getDerivativeValue x * (y - x) ≤ p.getValue y := by
  rcases eq_or_ne y x with h | h
  · subst h; simp
  · exact (p.tangent_lt h4 h2 h).le

theorem Polynomial.mirror_getValue (p : Polynomial K) (v : K) :
    p.mirror.getValue (-v) = p.getValue v := by
  simp only [Polynomial.getValue_eq, Polynomial.mirror]; ring

theorem Polynomial.mirror_getDerivativeValue (p : Polynomial K) (v : K) :
    p.mirror.getDerivativeValue (-v) = -p.getDerivativeValue v := by
  simp only [Polynomial.getDerivativeValue_eq, Polynomial.mirror]; ring

/-- The Newton loop on the mirrored polynomial from `-v` is the mirror image of the loop
from `v`. -/
theorem newtonLoop_mirror (p : Polynomial K) (tol : K) (n : Nat) (v : K) :
    newtonLoop p.mirror tol n (-v) = (newtonLoop p tol n v).map (fun r => -r) := by
  induction n generalizing v with
  | zero => simp [newtonLoop]
  | succ n ih =>
    simp only [newtonLoop, Polynomial.mirror_getValue, Polynomial.mirror_getDerivativeValue,
      neg_eq_zero]
    by_cases hd : p.getDerivativeValue v = 0
    · rw [if_pos hd, if_pos hd]; rfl
    · have e1 : -v - p.getValue v / -p.getDerivativeValue v
          = -(v - p.getValue v / p.getDerivativeValue v) := by
        rw [div_neg]; ring
      have e2 : |(-(v - p.getValue v / p.getDerivativeValue v)) - -v|
          = |v - p.getValue v / p.getDerivativeValue v - v| := by
        rw [← abs_neg]; congr 1; ring
      rw [if_neg hd, if_neg hd, e1, e2]
      by_cases ht : |v - p.getValue v / p.getDerivativeValue v - v| < tol
      · rw [if_pos ht, if_pos ht]; rfl
      · rw [if_neg ht, if_neg ht]; exact ih _

/-- Upper Newton search, one step: from a point `x` right of `cv` with `P(cv) ≤ 0 ≤ P(x)` the
derivative is positive and the next iterate stays right of `cv`, does not exceed `x`, and has
a nonnegative value. -/
theorem newton_step_upper (p : Polynomial K) (h4 : 0 ≤ p.a4) (h2 : 0 < p.a2) {cv x : K}
    (hcv : p.getValue cv ≤ 0) (hx : cv < x) (hPx : 0 ≤ p.getValue x) :
    0 < p.getDerivativeValue x ∧
      cv < x - p.getValue x / p.getDerivativeValue x ∧
      x - p.getValue x / p.getDerivativeValue x ≤ x ∧
      0 ≤ p.getValue (x - p.getValue x / p.getDerivativeValue x) := by
  have ht := p.tangent_lt h4 h2 (ne_of_lt hx)
  have hd : 0 < p.getDerivativeValue x := by
    by_contra hneg
    push_neg at hneg
    have : 0 ≤ p.getDerivativeValue x * (cv - x) :=
      mul_nonneg_of_nonpos_of_nonpos hneg (by linarith)
    linarith
  have hq : 0 ≤ p.getValue x / p.getDerivativeValue x := div_nonneg hPx hd.le
  have hmul : p.getDerivativeValue x * (p.getValue x / p.getDerivativeValue x) = p.getValue x :=
    mul_div_cancel₀ _ (ne_of_gt hd)
  refine ⟨hd, ?_, by linarith, ?_⟩
  · by_contra hle
    push_neg at hle
    have h1 : p.getDerivativeValue x * (x - p.getValue x / p.getDerivativeValue x - cv) ≤ 0 :=
      mul_nonpos_of_nonneg_of_nonpos hd.le (by linarith)
    have h2 : p.getDerivativeValue x * (x - p.getValue x / p.getDerivativeValue x - cv)
        = p.getDerivativeValue x * (x - cv) - p.getValue x := by
      have e : p.getDerivativeValue x * (x - p.getValue x / p.getDerivativeValue x - cv)
          = p.getDerivativeValue x * (x - cv)
            - p.getDerivativeValue x * (p.getValue x / p.getDerivativeValue x) := by ring
      rw [e, hmul]
    have h3 : p.getDerivativeValue x * (cv - x) = -(p.getDerivativeValue x * (x - cv)) := by ring
    linarith
  · have h := p.tangent_le h4 h2 x (x - p.getValue x / p.getDerivativeValue x)
    have e : p.getDerivativeValue x * (x - p.getValue x / p.getDerivativeValue x - x)
        = -p.getValue x := by
      have : x - p.getValue x / p.getDerivativeValue x - x
          = -(p.getValue x / p.getDerivativeValue x) := by ring
      rw [this, mul_neg, hmul]
    linarith

/-- More fuel does not change a result of the Newton loop. -/
theorem newtonLoop_fuel_mono (p : Polynomial K) (tol : K) (n k : Nat) (v r : K)
    (h : newtonLoop p tol n v = some r) : newtonLoop p tol (n + k) v = some r := by
  induction n generalizing v with
  | zero => simp [newtonLoop] at h
  | succ n ih =>
    rw [Nat.succ_add]
    simp only [newtonLoop] at h ⊢
    by_cases hd : p.getDerivativeValue v = 0
    · rw [if_pos hd] at h; exact absurd h (by simp)
    · rw [if_neg hd] at h ⊢
      by_cases ht : |v - p.getValue v / p.getDerivativeValue v - v| < tol
      · rw [if_pos ht] at h ⊢; exact h
      · rw [if_neg ht] at h ⊢; exact ih _ h

/-- Two returning runs of the Newton loop from the same start agree, whatever their fuel. -/
theorem newtonLoop_fuel_det (p : Polynomial K) (tol : K) (n m : Nat) (v r r' : K)
    (h : newtonLoop p tol n v = some r) (h' : newtonLoop p tol m v = some r') : r = r' := by
  have h1 := newtonLoop_fuel_mono p tol n m v r h
  have h2 := newtonLoop_fuel_mono p tol m n v r' h'
  rw [Nat.add_comm] at h2
  rw [h1] at h2
  exact Option.some.inj h2

/-- Upper Newton search: a returned value lies in `(cv, x]` and has a nonnegative value. -/
theorem newtonLoop_upper (p : Polynomial K) (h4 : 0 ≤ p.a4) (h2 : 0 < p.a2) (tol cv : K)
    (hcv : p.getValue cv ≤ 0) (n : Nat) (x r : K) (hx : cv < x) (hPx : 0 ≤ p.getValue x)
    (h : newtonLoop p tol n x = some r) : cv < r ∧ r ≤ x ∧ 0 ≤ p.getValue r := by
  induction n generalizing x with
  | zero => simp [newtonLoop] at h
  | succ n ih =>
    obtain ⟨hd, hlo, hhi, hP⟩ := newton_step_upper p h4 h2 hcv hx hPx
    simp only [newtonLoop] at h
    rw [if_neg (ne_of_gt hd)] at h
    by_cases ht : |x - p.getValue x / p.getDerivativeValue x - x| < tol
    · rw [if_pos ht] at h
      obtain rfl := Option.some.inj h
      exact ⟨hlo, hhi, hP⟩
    · rw [if_neg ht] at h
      obtain ⟨a, b, c⟩ := ih _ hlo hP h
      exact ⟨a, le_trans b hhi, c⟩

/-- Upper Newton search: every iteration that does not stop moves left by at least
`tol`, and no iterate passes `cv`, so `n` iterations suffice once `x - cv < n * tol`. -/
theorem newtonLoop_upper_returns (p : Polynomial K) (h4 : 0 ≤ p.a4) (h2 : 0 < p.a2)
    (tol cv : K) (hcv : p.getValue cv ≤ 0) (n : Nat) (x : K) (hx : cv < x)
    (hPx : 0 ≤ p.getValue x) (hn : x - cv < n * tol) :
    ∃ r, newtonLoop p tol n x = some r := by
  induction n generalizing x with
  | zero => simp at hn; linarith
  | succ n ih =>
    obtain ⟨hd, hlo, hhi, hP⟩ := newton_step_upper p h4 h2 hcv hx hPx
    simp only [newtonLoop]
    rw [if_neg (ne_of_gt hd)]
    by_cases ht : |x - p.getValue x / p.getDerivativeValue x - x| < tol
    · rw [if_pos ht]; exact ⟨_, rfl⟩
    · rw [if_neg ht]
      apply ih _ hlo hP
      push_neg at ht
      have habs : |x - p.getValue x / p.getDerivativeValue x - x|
          = x - (x - p.getValue x / p.getDerivativeValue x) := by
        rw [abs_of_nonpos (by linarith)]; ring
      rw [habs] at ht
      push_cast at hn
      linarith

/-- Lower Newton search: a returned value lies in `[x, cv)` and has a nonnegative value. -/
theorem newtonLoop_lower (p : Polynomial K) (h4 : 0 ≤ p.a4) (h2 : 0 < p.a2) (tol cv : K)
    (hcv : p.getValue cv ≤ 0) (n : Nat) (x r : K) (hx : x < cv) (hPx : 0 ≤ p.getValue x)
    (h : newtonLoop p tol n x = some r) : r < cv ∧ x ≤ r ∧ 0 ≤ p.getValue r := by
  have hm : newtonLoop p.mirror tol n (-x) = some (-r) := by
    rw [newtonLoop_mirror, h]; rfl
  have := newtonLoop_upper p.mirror h4 h2 tol (-cv)
    (by rw [Polynomial.mirror_getValue]; exact hcv) n (-x) (-r) (by linarith)
    (by rw [Polynomial.mirror_getValue]; exact hPx) hm
  rw [Polynomial.mirror_getValue] at this
  exact ⟨by linarith [this.1], by linarith [this.2.1], this.2.2⟩

/-- Lower Newton search: `n` iterations suffice once `cv - x < n * tol`. -/
theorem newtonLoop_lower_returns (p : Polynomial K) (h4 : 0 ≤ p.a4) (h2 : 0 < p.a2)
    (tol cv : K) (hcv : p.getValue cv ≤ 0) (n : Nat) (x : K) (hx : x < cv)
    (hPx : 0 ≤ p.getValue x) (hn : cv - x < n * tol) :
    ∃ r, newtonLoop p tol n x = some r := by
  obtain ⟨r, hr⟩ := newtonLoop_upper_returns p.mirror h4 h2 tol (-cv)
    (by rw [Polynomial.mirror_getValue]; exact hcv) n (-x) (by linarith)
    (by rw [Polynomial.mirror_getValue]; exact hPx) (by linarith)
  rw [newtonLoop_mirror] at hr
  cases hq : newtonLoop p tol n x with
  | none => rw [hq] at hr; simp at hr
  | some r' => exact ⟨r', rfl⟩

/-! ## The single-step bound -/

theorem makeVeloBoundNextStep_eq (tan : K → K) (self : SafeCar K) (cv d tol : K) (n : Nat) :
    makeVeloBoundNextStep tan self cv d tol n =
      if (stepPolynomial tan self cv d).getValue cv > 0 ∨ |d| > self.maxDelta then
        some (dangerBound, afterStep tan self cv d)
      else
        match newtonLoop (stepPolynomial tan self cv d) tol n (cv + searchRange self) with
        | none => none
        | some vMax =>
          match newtonLoop (stepPolynomial tan self cv d) tol n (cv - searchRange self) with
          | none => none
          | some vMin =>
            some ({ isSafe := true, vMax := vMax, vMin := vMin }, afterStep tan self cv d) :=
  rfl

theorem stepPolynomial_a4_nonneg (tan : K → K) (self : SafeCar K) (cv d : K) :
    0 ≤ (stepPolynomial tan self cv d).a4 := by
  simp only [stepPolynomial, Polynomial.setCoefficients]; positivity

theorem stepPolynomial_a2_pos (tan : K → K) (self : SafeCar K) (cv d : K) (hdt : self.dt ≠ 0) :
    0 < (stepPolynomial tan self cv d).a2 := by
  simp only [stepPolynomial, Polynomial.setCoefficients]; positivity

/-- At the current velocity the constraint polynomial is
`(tan |d| / L)² · cv⁴ − (c² / L)²`. -/
theorem stepPolynomial_getValue_self (tan : K → K) (self : SafeCar K) (cv d : K)
    (hdt : self.dt ≠ 0) :
    (stepPolynomial tan self cv d).getValue cv
      = (tan |d| / self.L) ^ 2 * cv ^ 4 - (self.c ^ 2 / self.L) ^ 2 := by
  simp only [stepPolynomial, Polynomial.setCoefficients, Polynomial.getValue_eq]
  field_simp
  ring

/-- At both Newton seeds `cv ± searchRange` the quadratic part of the polynomial vanishes. -/
theorem stepPolynomial_getValue_seed (tan : K → K) (self : SafeCar K) (cv d : K)
    (hdt : self.dt ≠ 0) (hL : self.L ≠ 0) :
    (stepPolynomial tan self cv d).getValue (cv + searchRange self)
        = (stepPolynomial tan self cv d).a4 * (cv + searchRange self) ^ 4 ∧
      (stepPolynomial tan self cv d).getValue (cv - searchRange self)
        = (stepPolynomial tan self cv d).a4 * (cv - searchRange self) ^ 4 := by
  simp only [stepPolynomial, Polynomial.setCoefficients, Polynomial.getValue_eq, searchRange]
  constructor <;> · field_simp; ring

theorem searchRange_pos (self : SafeCar K) (hdt : 0 < self.dt) (hL : 0 < self.L)
    (hc : 0 < self.c) : 0 < searchRange self := by
  simp only [searchRange]; positivity

/-- On the unsafe path the call returns at once, whatever the fuel. -/
theorem makeVeloBoundNextStep_danger (tan : K → K) (self : SafeCar K) (cv d tol : K) (n : Nat)
    (h : (stepPolynomial tan self cv d).getValue cv > 0 ∨ |d| > self.maxDelta) :
    makeVeloBoundNextStep tan self cv d tol n = some (dangerBound, afterStep tan self cv d) := by
  rw [makeVeloBoundNextStep_eq, if_pos h]

/-- Every returned result leaves the instance `afterStep`, and is either the danger bound of
the unsafe path or a safe pair of Newton results. -/
theorem makeVeloBoundNextStep_cases (tan : K → K) (self : SafeCar K) (cv d tol : K) (n : Nat)
    (r : veloBound K) (self1 : SafeCar K)
    (h : makeVeloBoundNextStep tan self cv d tol n = some (r, self1)) :
    self1 = afterStep tan self cv d ∧
      ((((stepPolynomial tan self cv d).getValue cv > 0 ∨ |d| > self.maxDelta) ∧
          r = dangerBound) ∨
        (¬ ((stepPolynomial tan self cv d).getValue cv > 0 ∨ |d| > self.maxDelta) ∧
          r.isSafe = true ∧
          newtonLoop (stepPolynomial tan self cv d) tol n (cv + searchRange self) = some r.vMax ∧
          newtonLoop (stepPolynomial tan self cv d) tol n (cv - searchRange self)
            = some r.vMin)) := by
  rw [makeVeloBoundNextStep_eq] at h
  by_cases hc : (stepPolynomial tan self cv d).getValue cv > 0 ∨ |d| > self.maxDelta
  · rw [if_pos hc] at h
    simp only [Option.some.injEq, Prod.mk.injEq] at h
    exact ⟨h.2.symm, Or.inl ⟨hc, h.1.symm⟩⟩
  · rw [if_neg hc] at h
    cases h1 : newtonLoop (stepPolynomial tan self cv d) tol n (cv + searchRange self) with
    | none => rw [h1] at h; simp at h
    | some a =>
      cases h2 : newtonLoop (stepPolynomial tan self cv d) tol n (cv - searchRange self) with
      | none => rw [h1, h2] at h; simp at h
      | some b =>
        rw [h1, h2] at h
        simp only [Option.some.injEq, Prod.mk.injEq] at h
        obtain ⟨hr, hs⟩ := h
        subst hr
        exact ⟨hs.symm, Or.inr ⟨hc, rfl, rfl, rfl⟩⟩

/-- A safe single-step result brackets the current velocity strictly, stays within the
seeds, and both ends have a nonnegative polynomial value. -/
theorem makeVeloBoundNextStep_safe_bounds (tan : K → K) (self : SafeCar K) (cv d tol : K)
    (n : Nat) (hdt : 0 < self.dt) (hL : 0 < self.L) (hc : 0 < self.c)
    (r : veloBound K) (self1 : SafeCar K)
    (h : makeVeloBoundNextStep tan self cv d tol n = some (r, self1))
    (hs : r.isSafe = true) :
    (cv < r.vMax ∧ r.vMax ≤ cv + searchRange self) ∧
      (cv - searchRange self ≤ r.vMin ∧ r.vMin < cv) ∧
      0 ≤ (stepPolynomial tan self cv d).getValue r.vMax ∧
      0 ≤ (stepPolynomial tan self cv d).getValue r.vMin := by
  obtain ⟨-, hcase⟩ := makeVeloBoundNextStep_cases tan self cv d tol n r self1 h
  rcases hcase with ⟨-, hr⟩ | ⟨hcond, -, hmax, hmin⟩
  · rw [hr] at hs; simp [dangerBound] at hs
  · push_neg at hcond
    have h4 := stepPolynomial_a4_nonneg tan self cv d
    have h2 := stepPolynomial_a2_pos tan self cv d (ne_of_gt hdt)
    have hseed := stepPolynomial_getValue_seed tan self cv d (ne_of_gt hdt) (ne_of_gt hL)
    have hsr := searchRange_pos self hdt hL hc
    have hup := newtonLoop_upper _ h4 h2 tol cv hcond.1 n _ _ (by linarith)
      (by rw [hseed.1]; positivity) hmax
    have hlo := newtonLoop_lower _ h4 h2 tol cv hcond.1 n _ _ (by linarith)
      (by rw [hseed.2]; positivity) hmin
    exact ⟨⟨hup.1, hup.2.1⟩, ⟨hlo.2.1, hlo.1⟩, hup.2.2, hlo.2.2⟩

/-- With positive `dt`, `L`, `c` and a Newton budget `n` with `searchRange < n * tol`, the
single-step bound returns. -/
theorem makeVeloBoundNextStep_returns (tan : K → K) (self : SafeCar K) (cv d tol : K)
    (n : Nat) (hdt : 0 < self.dt) (hL : 0 < self.L) (hc : 0 < self.c)
    (hn : searchRange self < n * tol) :
    ∃ r, makeVeloBoundNextStep tan self cv d tol n = some (r, afterStep tan self cv d) := by
  by_cases hcond : (stepPolynomial tan self cv d).getValue cv > 0 ∨ |d| > self.maxDelta
  · exact ⟨_, makeVeloBoundNextStep_danger tan self cv d tol n hcond⟩
  · rw [makeVeloBoundNextStep_eq, if_neg hcond]
    push_neg at hcond
    have h4 := stepPolynomial_a4_nonneg tan self cv d
    have h2 := stepPolynomial_a2_pos tan self cv d (ne_of_gt hdt)
    have hseed := stepPolynomial_getValue_seed tan self cv d (ne_of_gt hdt) (ne_of_gt hL)
    have hsr := searchRange_pos self hdt hL hc
    obtain ⟨a, ha⟩ := newtonLoop_upper_returns _ h4 h2 tol cv hcond.1 n (cv + searchRange self)
      (by linarith) (by rw [hseed.1]; positivity) (by linarith)
    obtain ⟨b, hb⟩ := newtonLoop_lower_returns _ h4 h2 tol cv hcond.1 n (cv - searchRange self)
      (by linarith) (by rw [hseed.2]; positivity) (by linarith)
    rw [ha, hb]
    exact ⟨_, rfl⟩

/-- Two returning runs of the single-step bound with the same arguments agree, whatever the
Newton budgets and whatever the scratch polynomial of the instance. -/
theorem makeVeloBoundNextStep_det (tan : K → K) (self : SafeCar K) (q : Polynomial K)
    (cv d tol : K) (n m : Nat) (x y : veloBound K × SafeCar K)
    (h : makeVeloBoundNextStep tan self cv d tol n = some x)
    (h' : makeVeloBoundNextStep tan { self with polynomial := q } cv d tol m = some y) :
    x = y := by
  obtain ⟨r, s1⟩ := x
  obtain ⟨r', s2⟩ := y
  obtain ⟨e1, c1⟩ := makeVeloBoundNextStep_cases tan self cv d tol n r s1 h
  obtain ⟨e2, c2⟩ := makeVeloBoundNextStep_cases tan _ cv d tol m r' s2 h'
  have es : s1 = s2 := by rw [e1, e2]; rfl
  have ep : stepPolynomial tan { self with polynomial := q } cv d = stepPolynomial tan self cv d :=
    rfl
  have esr : searchRange { self with polynomial := q } = searchRange self := rfl
  rw [ep, esr] at c2
  have em : ({ self with polynomial := q } : SafeCar K).maxDelta = self.maxDelta := rfl
  rw [em] at c2
  rcases c1 with ⟨hc1, hr1⟩ | ⟨hc1, hs1, hx1, hn1⟩ <;>
    rcases c2 with ⟨hc2, hr2⟩ | ⟨hc2, hs2, hx2, hn2⟩
  · rw [hr1, hr2, es]
  · exact absurd hc1 hc2
  · exact absurd hc2 hc1
  · have e1 := newtonLoop_fuel_det _ _ _ _ _ _ _ hx1 hx2
    have e2 := newtonLoop_fuel_det _ _ _ _ _ _ _ hn1 hn2
    obtain ⟨i, a, b⟩ := r
    obtain ⟨i', a', b'⟩ := r'
    simp only at hs1 hs2 e1 e2
    subst hs1 hs2 e1 e2 es
    rfl

/-- Started at an exact simple root, the Newton loop returns it after one iteration. -/
theorem newtonLoop_at_root (p : Polynomial K) (tol : K) (htol : 0 < tol) (n : Nat) (x : K)
    (h0 : p.getValue x = 0) (hd : p.getDerivativeValue x ≠ 0) :
    newtonLoop p tol (n + 1) x = some x := by
  simp only [newtonLoop]
  rw [if_neg hd, h0, zero_div, sub_zero, sub_self, abs_zero, if_pos htol]

/-- Zero steering: when `tan 0 = 0` the quartic degenerates to a quadratic whose roots are
the two Newton seeds, so the call returns them after one iteration of each loop. -/
theorem makeVeloBoundNextStep_zero_steer (tan : K → K) (htan : tan 0 = 0) (self : SafeCar K)
    (cv tol : K) (n : Nat) (hdt : self.dt ≠ 0) (hL : self.L ≠ 0) (hc : self.c ≠ 0)
    (hmax : 0 ≤ self.maxDelta) (htol : 0 < tol) :
    makeVeloBoundNextStep tan self cv 0 tol (n + 1)
      = some ({ isSafe := true, vMax := cv + searchRange self, vMin := cv - searchRange self },
          afterStep tan self cv 0) := by
  have ha4 : (stepPolynomial tan self cv 0).a4 = 0 := by
    simp [stepPolynomial, Polynomial.setCoefficients, htan]
  have hself := stepPolynomial_getValue_self tan self cv 0 hdt
  have hseed := stepPolynomial_getValue_seed tan self cv 0 hdt hL
  rw [ha4, zero_mul, zero_mul] at hseed
  have hsr : searchRange self ≠ 0 := by
    simp only [searchRange]
    exact div_ne_zero (mul_ne_zero hdt (pow_ne_zero 2 hc)) hL
  have hcond : ¬ ((stepPolynomial tan self cv 0).getValue cv > 0 ∨ |(0 : K)| > self.maxDelta) := by
    rw [hself, abs_zero, htan, zero_div]
    have : 0 ≤ (self.c ^ 2 / self.L) ^ 2 := by positivity
    rintro (h | h)
    · have e : (0 : K) ^ 2 * cv ^ 4 = 0 := by ring
      rw [e] at h; linarith
    · exact absurd h (not_lt.mpr hmax)
  have hd : ∀ x, (stepPolynomial tan self cv 0).getDerivativeValue x
      = 2 * (x - cv) / self.dt ^ 2 := by
    intro x
    rw [Polynomial.getDerivativeValue_eq, ha4]
    simp only [stepPolynomial, Polynomial.setCoefficients]
    field_simp
    ring
  have hdt2 : self.dt ^ 2 ≠ 0 := pow_ne_zero 2 hdt
  have hd1 : (stepPolynomial tan self cv 0).getDerivativeValue (cv + searchRange self) ≠ 0 := by
    rw [hd]
    apply div_ne_zero _ hdt2
    have : cv + searchRange self - cv = searchRange self := by ring
    rw [this]
    exact mul_ne_zero two_ne_zero hsr
  have hd2 : (stepPolynomial tan self cv 0).getDerivativeValue (cv - searchRange self) ≠ 0 := by
    rw [hd]
    apply div_ne_zero _ hdt2
    have : cv - searchRange self - cv = -searchRange self := by ring
    rw [this]
    exact mul_ne_zero two_ne_zero (neg_ne_zero.mpr hsr)
  rw [makeVeloBoundNextStep_eq, if_neg hcond,
    newtonLoop_at_root _ tol htol n _ hseed.1 hd1, newtonLoop_at_root _ tol htol n _ hseed.2 hd2]

/-! ## The default instance -/

theorem defaultCar_omega (tan : K → K) : (defaultCar tan).omega = 32 / 10 := rfl

theorem defaultCar_maxDelta (tan : K → K) : (defaultCar tan).maxDelta = 11 / 10 := rfl

theorem defaultCar_dt (tan : K → K) : (defaultCar tan).dt = 5 / 100 := rfl

theorem defaultCar_L (tan : K → K) : (defaultCar tan).L = 325 / 1000 := rfl

theorem defaultCar_c (tan : K → K) : (defaultCar tan).c = 2 := rfl

theorem defaultCar_dt_pos (tan : K → K) : 0 < (defaultCar tan).dt := by
  rw [defaultCar_dt]; norm_num

theorem defaultCar_L_pos (tan : K → K) : 0 < (defaultCar tan).L := by
  rw [defaultCar_L]; norm_num

theorem defaultCar_c_pos (tan : K → K) : 0 < (defaultCar tan).c := by
  rw [defaultCar_c]; norm_num

theorem defaultCar_maxDelta_pos (tan : K → K) : 0 < (defaultCar tan).maxDelta := by
  rw [defaultCar_maxDelta]; norm_num

theorem defaultCar_omega_pos (tan : K → K) : 0 < (defaultCar tan).omega := by
  rw [defaultCar_omega]; norm_num

theorem defaultCar_searchRange (tan : K → K) : searchRange (defaultCar tan) = 8 / 13 := by
  rw [searchRange, defaultCar_dt, defaultCar_L, defaultCar_c]; norm_num

theorem defaultTolerance_pos : (0 : K) < defaultTolerance := by
  rw [defaultTolerance]; norm_num

/-- With the defaults and zero steering the single-step bound is `[v − 8/13, v + 8/13]`. -/
theorem defaultCar_zero_steer (v : ℝ) (n : Nat) :
    makeVeloBoundNextStep Real.tan (defaultCar Real.tan) v 0 defaultTolerance (n + 1)
      = some ({ isSafe := true, vMax := v + 8 / 13, vMin := v - 8 / 13 },
          afterStep Real.tan (defaultCar Real.tan) v 0) := by
  have h := makeVeloBoundNextStep_zero_steer Real.tan Real.tan_zero (defaultCar Real.tan) v
    defaultTolerance n (defaultCar_dt_pos _).ne.symm (defaultCar_L_pos _).ne.symm
    (defaultCar_c_pos _).ne.symm (defaultCar_maxDelta_pos _).le defaultTolerance_pos
  rw [defaultCar_searchRange] at h
  exact h

/-! ## Claims about the single-step bound -/

/-- C1: over the reals, for an instance with `dt, L, c > 0`, every result of
`makeVeloBoundNextStep` with `isSafe = true` satisfies `vMin ≤ currentVelocity ≤ vMax`
(for every tolerance, positive or not). -/
theorem makeVeloBoundNextStep_contains_currentVelocity (self : SafeCar ℝ)
    (currentVelocity nextDelta tolerance : ℝ) (nfuel : Nat)
    (hdt : 0 < self.dt) (hL : 0 < self.L) (hc : 0 < self.c)
    (result : veloBound ℝ) (self1 : SafeCar ℝ)
    (h : makeVeloBoundNextStep Real.tan self currentVelocity nextDelta tolerance nfuel
      = some (result, self1))
    (hs : result.isSafe = true) :
    result.vMin ≤ currentVelocity ∧ currentVelocity ≤ result.vMax := by
  have hb := makeVeloBoundNextStep_safe_bounds Real.tan self currentVelocity nextDelta tolerance
    nfuel hdt hL hc result self1 h hs
  exact ⟨hb.2.1.2.le, hb.1.1.le⟩

theorem makeVeloBoundNextStep_contains_currentVelocity_witness :
    makeVeloBoundNextStep Real.tan (defaultCar Real.tan) 0 0 defaultTolerance 1
        = some ({ isSafe := true, vMax := 0 + 8 / 13, vMin := 0 - 8 / 13 },
            afterStep Real.tan (defaultCar Real.tan) 0 0) ∧
      ((0 : ℝ) - 8 / 13 ≤ 0 ∧ (0 : ℝ) ≤ 0 + 8 / 13) :=
  ⟨defaultCar_zero_steer 0 0,
    makeVeloBoundNextStep_contains_currentVelocity (defaultCar Real.tan) 0 0 defaultTolerance 1
      (defaultCar_dt_pos _) (defaultCar_L_pos _) (defaultCar_c_pos _) _ _
      (defaultCar_zero_steer 0 0) rfl⟩

/-- C2: a returned result of `makeVeloBoundNextStep` has `isSafe = false` exactly when
`P(currentVelocity) > 0` or `|nextDelta| > maxDelta`, for the polynomial `P` set by
`setCoefficients(currentVelocity, nextDelta, L, dt, c)`; under that condition the call does
return, with `isSafe = false` and both bounds `-1`; in particular it does so for every
`nextDelta` with `|nextDelta| > maxDelta`, whatever the velocity. -/
theorem makeVeloBoundNextStep_notSafe_iff (self : SafeCar ℝ)
    (currentVelocity nextDelta tolerance : ℝ) (nfuel : Nat) :
    (∀ result self1,
        makeVeloBoundNextStep Real.tan self currentVelocity nextDelta tolerance nfuel
            = some (result, self1) →
          (result.isSafe = false ↔
            ((self.polynomial.setCoefficients Real.tan currentVelocity nextDelta self.L self.dt
                self.c).getValue currentVelocity > 0 ∨ |nextDelta| > self.maxDelta))) ∧
      (((self.polynomial.setCoefficients Real.tan currentVelocity nextDelta self.L self.dt
              self.c).getValue currentVelocity > 0 ∨ |nextDelta| > self.maxDelta) →
        ∃ self1, makeVeloBoundNextStep Real.tan self currentVelocity nextDelta tolerance nfuel
          = some ({ isSafe := false, vMax := -1, vMin := -1 }, self1)) ∧
      (|nextDelta| > self.maxDelta →
        ∃ self1, makeVeloBoundNextStep Real.tan self currentVelocity nextDelta tolerance nfuel
          = some ({ isSafe := false, vMax := -1, vMin := -1 }, self1)) := by
  refine ⟨?_, ?_, ?_⟩
  · intro result self1 h
    obtain ⟨-, hcase⟩ := makeVeloBoundNextStep_cases Real.tan self currentVelocity nextDelta
      tolerance nfuel result self1 h
    rcases hcase with ⟨hc, hr⟩ | ⟨hc, hs, -, -⟩
    · constructor
      · intro _; exact hc
      · intro _; rw [hr]; rfl
    · constructor
      · intro hf; rw [hs] at hf; exact absurd hf (by simp)
      · intro hc2; exact absurd hc2 hc
  · intro hc
    exact ⟨_, makeVeloBoundNextStep_danger Real.tan self currentVelocity nextDelta tolerance
      nfuel hc⟩
  · intro hc
    exact ⟨_, makeVeloBoundNextStep_danger Real.tan self currentVelocity nextDelta tolerance
      nfuel (Or.inr hc)⟩

/-- The scenario of C2 on the default instance: `nextDelta = 1.5` exceeds `maxDelta = 1.1`,
so every velocity gets `isSafe = false` and both bounds `-1`. -/
theorem makeVeloBoundNextStep_notSafe_iff_witness :
    ∃ self1, makeVeloBoundNextStep Real.tan (defaultCar Real.tan) 3 (15 / 10)
      defaultTolerance 0 = some ({ isSafe := false, vMax := -1, vMin := -1 }, self1) :=
  (makeVeloBoundNextStep_notSafe_iff (defaultCar Real.tan) 3 (15 / 10) defaultTolerance 0).2.2
    (by rw [defaultCar_maxDelta]; norm_num [abs_of_pos])

/-- C4: over the reals, for an instance with `dt, L, c, maxDelta > 0`, every velocity `v`
and every tolerance `> 0`, `makeVeloBoundNextStep(v, 0, tolerance)` returns (after one
iteration of each Newton loop) `isSafe = true`, `vMax = v + dt·c²/L` and
`vMin = v − dt·c²/L`, so that `vMax − vMin = 2·dt·c²/L`. -/
theorem makeVeloBoundNextStep_zero_steering (self : SafeCar ℝ) (v tolerance : ℝ) (nfuel : Nat)
    (hdt : 0 < self.dt) (hL : 0 < self.L) (hc : 0 < self.c) (hmax : 0 < self.maxDelta)
    (htol : 0 < tolerance) :
    ∃ result self1,
      makeVeloBoundNextStep Real.tan self v 0 tolerance (nfuel + 1) = some (result, self1) ∧
        result.isSafe = true ∧
        result.vMax = v + self.dt * self.c ^ 2 / self.L ∧
        result.vMin = v - self.dt * self.c ^ 2 / self.L ∧
        result.vMax - result.vMin = 2 * self.dt * self.c ^ 2 / self.L := by
  refine ⟨_, _, makeVeloBoundNextStep_zero_steer Real.tan Real.tan_zero self v tolerance nfuel
    hdt.ne.symm hL.ne.symm hc.ne.symm hmax.le htol, rfl, rfl, rfl, ?_⟩
  simp only [searchRange]
  ring

/-- The scenario of C4: with the defaults and `v = 0` the call returns a safe interval of
width `2·0.05·4/0.325`, centred at `0`. -/
theorem makeVeloBoundNextStep_zero_steering_witness :
    ∃ result self1,
      makeVeloBoundNextStep Real.tan (defaultCar Real.tan) 0 0 defaultTolerance 1
          = some (result, self1) ∧
        result.isSafe = true ∧
        result.vMax - result.vMin = 2 * (5 / 100) * 4 / (325 / 1000) ∧
        result.vMax + result.vMin = 0 := by
  obtain ⟨result, self1, h, hs, hmx, hmn, -⟩ :=
    makeVeloBoundNextStep_zero_steering (defaultCar Real.tan) 0 defaultTolerance 0
      (defaultCar_dt_pos _) (defaultCar_L_pos _) (defaultCar_c_pos _)
      (defaultCar_maxDelta_pos _) defaultTolerance_pos
  refine ⟨result, self1, h, hs, ?_, ?_⟩
  · rw [hmx, hmn, defaultCar_dt, defaultCar_L, defaultCar_c]; norm_num
  · rw [hmx, hmn]; ring

/-! ## The worst-case simulation -/

/-- The single-step bound never reads the scratch polynomial it finds in the instance. -/
theorem makeVeloBoundNextStep_poly (tan : K → K) (self : SafeCar K) (q : Polynomial K)
    (cv d tol : K) (n : Nat) :
    makeVeloBoundNextStep tan { self with polynomial := q } cv d tol n
      = makeVeloBoundNextStep tan self cv d tol n :=
  rfl

/-- The single-step bound computes the same from the instance an earlier call left behind. -/
theorem makeVeloBoundNextStep_afterStep (tan : K → K) (self : SafeCar K) (v d cv nd tol : K)
    (n : Nat) :
    makeVeloBoundNextStep tan (afterStep tan self v d) cv nd tol n
      = makeVeloBoundNextStep tan self cv nd tol n :=
  rfl

theorem isPassWorstCaseLoop_poly (tan : K → K) (nf k : Nat) (self : SafeCar K)
    (q : Polynomial K) (minV nd : K) (flag : Bool) :
    isPassWorstCaseLoop tan nf k { self with polynomial := q } minV nd flag
      = isPassWorstCaseLoop tan nf k self minV nd flag := by
  cases k with
  | zero => rfl
  | succ k => simp only [isPassWorstCaseLoop, makeVeloBoundNextStep_poly]

/-- The worst-case simulation changes nothing but the scratch polynomial. -/
theorem isPassWorstCaseLoop_state (tan : K → K) (nf k : Nat) (self : SafeCar K)
    (minV nd : K) (flag : Bool) (b : Bool) (s1 : SafeCar K)
    (h : isPassWorstCaseLoop tan nf k self minV nd flag = some (b, s1)) :
    ∃ q, s1 = { self with polynomial := q } := by
  induction k generalizing self minV nd flag with
  | zero => simp [isPassWorstCaseLoop] at h
  | succ k ih =>
    simp only [isPassWorstCaseLoop] at h
    cases hc : makeVeloBoundNextStep tan self minV nd defaultTolerance nf with
    | none => rw [hc] at h; simp at h
    | some x =>
      obtain ⟨r, s2⟩ := x
      obtain ⟨hs2, -⟩ := makeVeloBoundNextStep_cases tan self minV nd defaultTolerance nf r s2 hc
      rw [hc] at h
      simp only at h
      have key : ∀ y, some (y, s2) = some (b, s1) → ∃ q, s1 = { self with polynomial := q } := by
        intro y hy
        simp only [Option.some.injEq, Prod.mk.injEq] at hy
        exact ⟨_, by rw [← hy.2, hs2]; rfl⟩
      have rec : ∀ mv ndx fl, isPassWorstCaseLoop tan nf k s2 mv ndx fl = some (b, s1) →
          ∃ q, s1 = { self with polynomial := q } := by
        intro mv ndx fl hrec
        obtain ⟨q, hq⟩ := ih s2 mv ndx fl hrec
        exact ⟨q, by rw [hq, hs2]; rfl⟩
      split_ifs at h
      all_goals first | exact key _ h | exact rec _ _ _ h

/-- More loop fuel does not change a result of the worst-case simulation. -/
theorem isPassWorstCaseLoop_fuel_mono (tan : K → K) (nf k j : Nat) (self : SafeCar K)
    (minV nd : K) (flag : Bool) (x : Bool × SafeCar K)
    (h : isPassWorstCaseLoop tan nf k self minV nd flag = some x) :
    isPassWorstCaseLoop tan nf (k + j) self minV nd flag = some x := by
  induction k generalizing self minV nd flag with
  | zero => simp [isPassWorstCaseLoop] at h
  | succ k ih =>
    rw [Nat.succ_add]
    simp only [isPassWorstCaseLoop] at h ⊢
    cases hc : makeVeloBoundNextStep tan self minV nd defaultTolerance nf with
    | none => rw [hc] at h; simp at h
    | some y =>
      obtain ⟨r, s2⟩ := y
      rw [hc] at h
      simp only at h ⊢
      split_ifs at h ⊢
      all_goals first | exact h | exact ih _ _ _ _ h

theorem isPassWorstCaseResult_poly (tan : K → K) (self : SafeCar K) (q : Polynomial K)
    (v d : K) (nf pf : Nat) :
    isPassWorstCaseResult tan { self with polynomial := q } v d nf pf
      = isPassWorstCaseResult tan self v d nf pf := by
  simp only [isPassWorstCaseResult, isPassWorstCase, isPassWorstCaseLoop_poly]

theorem isPassWorstCase_result (tan : K → K) (self : SafeCar K) (v d : K) (nf pf : Nat)
    (b : Bool) (s1 : SafeCar K) (h : isPassWorstCase tan self v d nf pf = some (b, s1)) :
    isPassWorstCaseResult tan self v d nf pf = some b ∧ ∃ q, s1 = { self with polynomial := q } := by
  refine ⟨by rw [isPassWorstCaseResult, h]; rfl, ?_⟩
  exact isPassWorstCaseLoop_state tan nf pf self v |d| false b s1 h

/-! ## The refinement walk -/

/-- The walk only ever replaces `vMax`: `isSafe` and `vMin` are those of the bound it was
started with. -/
theorem worstCaseWalk_frame (tan : K → K) (nf pf : Nat) (base : veloBound K) (d tol : K)
    (k : Nat) (self : SafeCar K) (w mid : K) (r : veloBound K) (s1 : SafeCar K)
    (h : worstCaseWalk tan nf pf base d tol k self w mid = some (r, s1)) :
    r.isSafe = base.isSafe ∧ r.vMin = base.vMin := by
  induction k generalizing self w mid with
  | zero => simp [worstCaseWalk] at h
  | succ k ih =>
    simp only [worstCaseWalk] at h
    cases hc : isPassWorstCase tan self mid d nf pf with
    | none => rw [hc] at h; simp at h
    | some x =>
      obtain ⟨b, s2⟩ := x
      rw [hc] at h
      simp only at h
      split_ifs at h
      · simp only [Option.some.injEq, Prod.mk.injEq] at h
        rw [← h.1]
        exact ⟨rfl, rfl⟩
      · exact ih _ _ _ h
      · exact ih _ _ _ h

/-- The walk keeps a bracket: a velocity `S` that passes the worst-case simulation and a
velocity `U` that fails it, with the probe `mid` between them in one of three positions.
Whatever it returns passes the simulation and lies in `[S, U)`. -/
theorem worstCaseWalk_bracket (tan : K → K) (nf pf : Nat) (base : veloBound K) (d tol : K)
    (car : SafeCar K) (lo hi : K) (k : Nat) :
    ∀ (q : Polynomial K) (w mid S U : K) (r : veloBound K) (s1 : SafeCar K),
      0 < w → lo ≤ S → U ≤ hi →
      isPassWorstCaseResult tan car S d nf pf = some true →
      isPassWorstCaseResult tan car U d nf pf = some false →
      (mid + 2 * w ≤ U ∨ mid + w = U ∨ mid = U) →
      (S ≤ mid - 2 * w ∨ mid - w = S ∨ mid = S) →
      worstCaseWalk tan nf pf base d tol k { car with polynomial := q } w mid = some (r, s1) →
      lo ≤ r.vMax ∧ r.vMax < hi ∧ isPassWorstCaseResult tan car r.vMax d nf pf = some true := by
  induction k with
  | zero => intro q w mid S U r s1 _ _ _ _ _ _ _ h; simp [worstCaseWalk] at h
  | succ k ih =>
    intro q w mid S U r s1 hw hS hU hpS hpU hup hlow h
    simp only [worstCaseWalk] at h
    cases hc : isPassWorstCase tan { car with polynomial := q } mid d nf pf with
    | none => rw [hc] at h; simp at h
    | some x =>
      obtain ⟨b, s2⟩ := x
      rw [hc] at h
      obtain ⟨hres, q2, hq2⟩ := isPassWorstCase_result tan _ mid d nf pf b s2 hc
      rw [isPassWorstCaseResult_poly] at hres
      have hs2 : s2 = { car with polynomial := q2 } := hq2
      have hSmid : S ≤ mid := by
        rcases hlow with h1 | h1 | h1 <;> linarith
      have hmidU : mid ≤ U := by
        rcases hup with h1 | h1 | h1 <;> linarith
      cases b with
      | true =>
        have hne : mid ≠ U := by
          intro e; rw [e, hpU] at hres; simp at hres
        simp only [if_true] at h
        by_cases ht : w < tol
        · rw [if_pos ht] at h
          simp only [Option.some.injEq, Prod.mk.injEq] at h
          rw [← h.1]
          refine ⟨le_trans hS hSmid, ?_, hres⟩
          have : mid < U := lt_of_le_of_ne hmidU hne
          exact lt_of_lt_of_le this hU
        · rw [if_neg ht, hs2] at h
          refine ih q2 (w / 2) (mid + w) mid U r s1 (by positivity) (le_trans hS hSmid) hU
            hres hpU ?_ ?_ h
          · rcases hup with h1 | h1 | h1
            · left; linarith
            · right; right; exact h1
            · exact absurd h1 hne
          · left; linarith
      | false =>
        have hne : mid ≠ S := by
          intro e; rw [e, hpS] at hres; simp at hres
        simp only [Bool.false_eq_true, if_false] at h
        rw [hs2] at h
        refine ih q2 (w / 2) (mid - w) S mid r s1 (by positivity) hS (le_trans hmidU hU)
          hpS hres ?_ ?_ h
        · left; linarith
        · rcases hlow with h1 | h1 | h1
          · left; linarith
          · right; right; exact h1
          · exact absurd h1 hne

/-! ## The worst-case bound -/

/-- The four ways in which `makeVeloBoundWithWorstCase` returns. -/
theorem makeVeloBoundWithWorstCase_cases (tan : K → K) (self : SafeCar K) (cv d tol : K)
    (nf pf wf : Nat) (r : veloBound K) (s : SafeCar K)
    (h : makeVeloBoundWithWorstCase tan self cv d tol nf pf wf = some (r, s)) :
    ∃ base s1, makeVeloBoundNextStep tan self cv d tol nf = some (base, s1) ∧
      ((base.isSafe = false ∧ r = base ∧ s = s1) ∨
        (base.isSafe = true ∧
          ∃ passMax s2, isPassWorstCase tan s1 base.vMax d nf pf = some (passMax, s2) ∧
            ((passMax = true ∧ r = base ∧ s = s2) ∨
              (passMax = false ∧
                ∃ passMin s3, isPassWorstCase tan s2 base.vMin d nf pf = some (passMin, s3) ∧
                  ((passMin = false ∧ r = dangerBound ∧ s = s3) ∨
                    (passMin = true ∧
                      worstCaseWalk tan nf pf base d tol wf s3 ((base.vMax - base.vMin) / 2)
                        (base.vMin + (base.vMax - base.vMin) / 2) = some (r, s))))))) := by
  simp only [makeVeloBoundWithWorstCase] at h
  cases h1 : makeVeloBoundNextStep tan self cv d tol nf with
  | none => rw [h1] at h; simp at h
  | some x =>
    obtain ⟨base, s1⟩ := x
    rw [h1] at h
    simp only at h
    refine ⟨base, s1, rfl, ?_⟩
    cases hb : base.isSafe with
    | false =>
      rw [hb] at h
      simp only [Bool.not_false, if_true, Option.some.injEq, Prod.mk.injEq] at h
      exact Or.inl ⟨rfl, h.1.symm, h.2.symm⟩
    | true =>
      rw [hb] at h
      simp only [Bool.not_true, Bool.false_eq_true, if_false] at h
      right
      refine ⟨rfl, ?_⟩
      cases h2 : isPassWorstCase tan s1 base.vMax d nf pf with
      | none => rw [h2] at h; simp at h
      | some y =>
        obtain ⟨passMax, s2⟩ := y
        rw [h2] at h
        simp only at h
        refine ⟨passMax, s2, rfl, ?_⟩
        cases passMax with
        | true =>
          simp only [if_true, Option.some.injEq, Prod.mk.injEq] at h
          exact Or.inl ⟨rfl, h.1.symm, h.2.symm⟩
        | false =>
          simp only [Bool.false_eq_true, if_false] at h
          right
          refine ⟨rfl, ?_⟩
          cases h3 : isPassWorstCase tan s2 base.vMin d nf pf with
          | none => rw [h3] at h; simp at h
          | some z =>
            obtain ⟨passMin, s3⟩ := z
            rw [h3] at h
            simp only at h
            refine ⟨passMin, s3, rfl, ?_⟩
            cases passMin with
            | false =>
              simp only [Bool.not_false, if_true, Option.some.injEq, Prod.mk.injEq] at h
              exact Or.inl ⟨rfl, h.1.symm, h.2.symm⟩
            | true =>
              simp only [Bool.not_true, Bool.false_eq_true, if_false] at h
              exact Or.inr ⟨rfl, h⟩

/-! ## Evaluating the loops -/

/-- An iteration of the worst-case simulation whose single-step bound is unsafe returns
`false`. -/
theorem isPassWorstCaseLoop_danger (tan : K → K) (nf k : Nat) (self : SafeCar K) (minV nd : K)
    (flag : Bool)
    (h : (stepPolynomial tan self minV nd).getValue minV > 0 ∨ |nd| > self.maxDelta) :
    isPassWorstCaseLoop tan nf (k + 1) self minV nd flag
      = some (false, afterStep tan self minV nd) := by
  simp only [isPassWorstCaseLoop]
  rw [makeVeloBoundNextStep_danger tan self minV nd defaultTolerance nf h]
  simp [dangerBound]

/-- An iteration of the worst-case simulation whose single-step bound is safe and straddles
zero returns `true`. -/
theorem isPassWorstCaseLoop_straddle (tan : K → K) (nf k : Nat) (self : SafeCar K)
    (minV nd : K) (flag : Bool) (r : veloBound K) (s1 : SafeCar K)
    (h : makeVeloBoundNextStep tan self minV nd defaultTolerance nf = some (r, s1))
    (hs : r.isSafe = true) (hneg : r.vMax * r.vMin < 0) :
    isPassWorstCaseLoop tan nf (k + 1) self minV nd flag = some (true, s1) := by
  simp only [isPassWorstCaseLoop]
  rw [h]
  simp [hs, hneg]

/-- The last iteration of the worst-case simulation (`endFlag` set) returns the `isSafe` of
its single-step bound. -/
theorem isPassWorstCaseLoop_last (tan : K → K) (nf k : Nat) (self : SafeCar K)
    (minV nd : K) (r : veloBound K) (s1 : SafeCar K)
    (h : makeVeloBoundNextStep tan self minV nd defaultTolerance nf = some (r, s1)) :
    isPassWorstCaseLoop tan nf (k + 1) self minV nd true = some (r.isSafe, s1) := by
  simp only [isPassWorstCaseLoop]
  rw [h]
  cases hs : r.isSafe with
  | false => simp [hs]
  | true =>
    by_cases hneg : r.vMax * r.vMin < 0
    · simp [hs, hneg]
    · simp [hs, hneg]

/-- An iteration of the worst-case simulation whose single-step bound is safe and does not
straddle zero, before `endFlag` is set, goes on from the contracted velocity at the advanced
(and clamped) steering angle. -/
theorem isPassWorstCaseLoop_continue (tan : K → K) (nf k : Nat) (self : SafeCar K)
    (minV nd : K) (r : veloBound K) (s1 : SafeCar K)
    (h : makeVeloBoundNextStep tan self minV nd defaultTolerance nf = some (r, s1))
    (hs : r.isSafe = true) (hneg : ¬ r.vMax * r.vMin < 0) :
    isPassWorstCaseLoop tan nf (k + 1) self minV nd false
      = if nd + self.dt * self.omega ≥ self.maxDelta then
          isPassWorstCaseLoop tan nf k s1 (min |r.vMax| |r.vMin| * (if minV < 0 then -1 else 1))
            self.maxDelta true
        else
          isPassWorstCaseLoop tan nf k s1 (min |r.vMax| |r.vMin| * (if minV < 0 then -1 else 1))
            (nd + self.dt * self.omega) false := by
  obtain ⟨hs1, -⟩ := makeVeloBoundNextStep_cases tan self minV nd defaultTolerance nf r s1 h
  have e1 : s1.dt = self.dt := by rw [hs1]; rfl
  have e2 : s1.omega = self.omega := by rw [hs1]; rfl
  have e3 : s1.maxDelta = self.maxDelta := by rw [hs1]; rfl
  simp only [isPassWorstCaseLoop]
  rw [h]
  simp only [hs, Bool.not_true, Bool.false_eq_true, if_false, hneg, e1, e2, e3]

/-- The boolean of the worst-case simulation determines the call from every instance that
differs only in the scratch polynomial. -/
theorem isPassWorstCase_of_result (tan : K → K) (self : SafeCar K) (v d : K) (nf pf : Nat)
    (b : Bool) (h : isPassWorstCaseResult tan self v d nf pf = some b) (q : Polynomial K) :
    ∃ q1, isPassWorstCase tan { self with polynomial := q } v d nf pf
      = some (b, { self with polynomial := q1 }) := by
  rw [← isPassWorstCaseResult_poly tan self q] at h
  cases hc : isPassWorstCase tan { self with polynomial := q } v d nf pf with
  | none => rw [isPassWorstCaseResult, hc] at h; simp at h
  | some x =>
    obtain ⟨b1, s1⟩ := x
    obtain ⟨hres, q1, hq1⟩ := isPassWorstCase_result tan _ v d nf pf b1 s1 hc
    rw [h] at hres
    obtain rfl := Option.some.inj hres
    exact ⟨q1, by rw [hq1]⟩

/-- The worst-case bound returns the single-step bound when that is unsafe. -/
theorem makeVeloBoundWithWorstCase_base_danger (tan : K → K) (self : SafeCar K) (cv d tol : K)
    (nf pf wf : Nat)
    (h : (stepPolynomial tan self cv d).getValue cv > 0 ∨ |d| > self.maxDelta) :
    makeVeloBoundWithWorstCase tan self cv d tol nf pf wf
      = some (dangerBound, afterStep tan self cv d) := by
  simp only [makeVeloBoundWithWorstCase]
  rw [makeVeloBoundNextStep_danger tan self cv d tol nf h]
  simp [dangerBound]

/-- The worst-case bound returns the single-step bound when its upper end passes the
worst-case simulation. -/
theorem makeVeloBoundWithWorstCase_pass_max (tan : K → K) (self : SafeCar K) (cv d tol : K)
    (nf pf wf : Nat) (base : veloBound K) (s1 : SafeCar K)
    (h : makeVeloBoundNextStep tan self cv d tol nf = some (base, s1))
    (hs : base.isSafe = true)
    (hmax : isPassWorstCaseResult tan self base.vMax d nf pf = some true) :
    ∃ s, makeVeloBoundWithWorstCase tan self cv d tol nf pf wf = some (base, s) := by
  obtain ⟨hs1, -⟩ := makeVeloBoundNextStep_cases tan self cv d tol nf base s1 h
  obtain ⟨q1, h1⟩ := isPassWorstCase_of_result tan self base.vMax d nf pf true hmax
    (stepPolynomial tan self cv d)
  simp only [makeVeloBoundWithWorstCase]
  rw [h]
  simp only [hs, Bool.not_true, Bool.false_eq_true, if_false]
  rw [hs1]
  simp only [afterStep]
  rw [h1]
  exact ⟨_, rfl⟩

/-- The worst-case bound returns the danger bound when both ends of the single-step bound
fail the worst-case simulation. -/
theorem makeVeloBoundWithWorstCase_danger (tan : K → K) (self : SafeCar K) (cv d tol : K)
    (nf pf wf : Nat) (base : veloBound K) (s1 : SafeCar K)
    (h : makeVeloBoundNextStep tan self cv d tol nf = some (base, s1))
    (hs : base.isSafe = true)
    (hmax : isPassWorstCaseResult tan self base.vMax d nf pf = some false)
    (hmin : isPassWorstCaseResult tan self base.vMin d nf pf = some false) :
    ∃ s, makeVeloBoundWithWorstCase tan self cv d tol nf pf wf = some (dangerBound, s) := by
  obtain ⟨hs1, -⟩ := makeVeloBoundNextStep_cases tan self cv d tol nf base s1 h
  obtain ⟨q1, h1⟩ := isPassWorstCase_of_result tan self base.vMax d nf pf false hmax
    (stepPolynomial tan self cv d)
  obtain ⟨q2, h2⟩ := isPassWorstCase_of_result tan self base.vMin d nf pf false hmin q1
  simp only [makeVeloBoundWithWorstCase]
  rw [h]
  simp only [hs, Bool.not_true, Bool.false_eq_true, if_false]
  rw [hs1]
  simp only [afterStep]
  rw [h1]
  simp only [Bool.false_eq_true, if_false]
  rw [h2]
  exact ⟨_, rfl⟩

/-- The worst-case bound returns the midpoint of the single-step bound when the walk is
reached, the midpoint passes the worst-case simulation and the half-width is already below
the tolerance. -/
theorem makeVeloBoundWithWorstCase_walk_first (tan : K → K) (self : SafeCar K) (cv d tol : K)
    (nf pf wf : Nat) (base : veloBound K) (s1 : SafeCar K)
    (h : makeVeloBoundNextStep tan self cv d tol nf = some (base, s1))
    (hs : base.isSafe = true)
    (hmax : isPassWorstCaseResult tan self base.vMax d nf pf = some false)
    (hmin : isPassWorstCaseResult tan self base.vMin d nf pf = some true)
    (hmid : isPassWorstCaseResult tan self (base.vMin + (base.vMax - base.vMin) / 2) d nf pf
      = some true)
    (hw : (base.vMax - base.vMin) / 2 < tol) :
    ∃ s2 s3 s, isPassWorstCase tan s1 base.vMax d nf pf = some (false, s2) ∧
      isPassWorstCase tan s2 base.vMin d nf pf = some (true, s3) ∧
      makeVeloBoundWithWorstCase tan self cv d tol nf pf (wf + 1)
        = some ({ base with vMax := base.vMin + (base.vMax - base.vMin) / 2 }, s) := by
  obtain ⟨hs1, -⟩ := makeVeloBoundNextStep_cases tan self cv d tol nf base s1 h
  obtain ⟨q1, h1⟩ := isPassWorstCase_of_result tan self base.vMax d nf pf false hmax
    (stepPolynomial tan self cv d)
  obtain ⟨q2, h2⟩ := isPassWorstCase_of_result tan self base.vMin d nf pf true hmin q1
  obtain ⟨q3, h3⟩ := isPassWorstCase_of_result tan self _ d nf pf true hmid q2
  have hn : (!base.isSafe) = false := by rw [hs]; rfl
  refine ⟨{ self with polynomial := q1 }, { self with polynomial := q2 },
    { self with polynomial := q3 }, ?_, h2, ?_⟩
  · rw [hs1]; exact h1
  simp only [makeVeloBoundWithWorstCase]
  rw [h]
  simp only [hn, Bool.false_eq_true, if_false]
  rw [hs1]
  simp only [afterStep]
  rw [h1]
  simp only [Bool.false_eq_true, if_false]
  rw [h2]
  simp only [Bool.not_true, Bool.false_eq_true, if_false, worstCaseWalk]
  rw [h3]
  simp only [if_true, if_pos hw]

/-- An unsafe result of the single-step bound is the danger bound. -/
theorem makeVeloBoundNextStep_notSafe_result (tan : K → K) (self : SafeCar K) (cv d tol : K)
    (n : Nat) (r : veloBound K) (s1 : SafeCar K)
    (h : makeVeloBoundNextStep tan self cv d tol n = some (r, s1)) (hs : r.isSafe = false) :
    r = dangerBound := by
  obtain ⟨-, hcase⟩ := makeVeloBoundNextStep_cases tan self cv d tol n r s1 h
  rcases hcase with ⟨-, hr⟩ | ⟨-, hs1, -, -⟩
  · exact hr
  · rw [hs] at hs1; exact absurd hs1 (by simp)

/-- With the current velocity zero, any steering within `maxDelta` and a Newton budget `n`
with `searchRange < n * tol`, the single-step bound returns a safe interval that straddles
zero. -/
theorem makeVeloBoundNextStep_at_zero (tan : K → K) (self : SafeCar K) (d tol : K) (n : Nat)
    (hdt : 0 < self.dt) (hL : 0 < self.L) (hc : 0 < self.c) (hd : |d| ≤ self.maxDelta)
    (hn : searchRange self < n * tol) :
    ∃ r, makeVeloBoundNextStep tan self 0 d tol n = some (r, afterStep tan self 0 d) ∧
      r.isSafe = true ∧ r.vMax * r.vMin < 0 := by
  obtain ⟨r, hr⟩ := makeVeloBoundNextStep_returns tan self 0 d tol n hdt hL hc hn
  have hcond : ¬ ((stepPolynomial tan self 0 d).getValue 0 > 0 ∨ |d| > self.maxDelta) := by
    rw [stepPolynomial_getValue_self tan self 0 d (ne_of_gt hdt)]
    have : 0 ≤ (self.c ^ 2 / self.L) ^ 2 := by positivity
    rintro (h | h)
    · have e : (tan |d| / self.L) ^ 2 * (0 : K) ^ 4 = 0 := by ring
      rw [e] at h; linarith
    · exact absurd h (not_lt.mpr hd)
  obtain ⟨-, hcase⟩ := makeVeloBoundNextStep_cases tan self 0 d tol n r _ hr
  have hs : r.isSafe = true := by
    rcases hcase with ⟨hc1, -⟩ | ⟨-, hs, -, -⟩
    · exact absurd hc1 hcond
    · exact hs
  have hb := makeVeloBoundNextStep_safe_bounds tan self 0 d tol n hdt hL hc r _ hr hs
  exact ⟨r, hr, hs, mul_neg_of_pos_of_neg hb.1.1 hb.2.1.2⟩

/-- Zero steering, interval straddling zero: the worst-case simulation returns `true` in its
first iteration. -/
theorem isPassWorstCaseResult_zero_straddle (tan : K → K) (htan : tan 0 = 0) (self : SafeCar K)
    (v : K) (nf pf : Nat) (hdt : self.dt ≠ 0) (hL : self.L ≠ 0) (hc : self.c ≠ 0)
    (hmax : 0 ≤ self.maxDelta) (hneg : (v + searchRange self) * (v - searchRange self) < 0) :
    isPassWorstCaseResult tan self v 0 (nf + 1) (pf + 1) = some true := by
  have h := makeVeloBoundNextStep_zero_steer tan htan self v defaultTolerance nf hdt hL hc hmax
    defaultTolerance_pos
  rw [isPassWorstCaseResult, isPassWorstCase, abs_zero,
    isPassWorstCaseLoop_straddle tan (nf + 1) pf self v 0 false _ _ h rfl hneg]
  rfl

/-- Zero steering, interval not straddling zero: the worst-case simulation goes on from the
contracted velocity `minV1` at the next steering angle `nd1`. -/
theorem isPassWorstCaseResult_zero_continue (tan : K → K) (htan : tan 0 = 0) (self : SafeCar K)
    (v minV1 nd1 : K) (flag1 : Bool) (nf pf : Nat) (hdt : self.dt ≠ 0) (hL : self.L ≠ 0)
    (hc : self.c ≠ 0) (hmax : 0 ≤ self.maxDelta)
    (hneg : ¬ (v + searchRange self) * (v - searchRange self) < 0)
    (hmv : minV1 = min |v + searchRange self| |v - searchRange self| * (if v < 0 then -1 else 1))
    (hnd : (nd1, flag1) = if 0 + self.dt * self.omega ≥ self.maxDelta then (self.maxDelta, true)
      else (0 + self.dt * self.omega, false)) :
    isPassWorstCaseResult tan self v 0 (nf + 1) (pf + 1)
      = (isPassWorstCaseLoop tan (nf + 1) pf self minV1 nd1 flag1).map Prod.fst := by
  have h := makeVeloBoundNextStep_zero_steer tan htan self v defaultTolerance nf hdt hL hc hmax
    defaultTolerance_pos
  rw [isPassWorstCaseResult, isPassWorstCase, abs_zero,
    isPassWorstCaseLoop_continue tan (nf + 1) pf self v 0 _ _ h rfl hneg, ← hmv]
  have e : ∀ x y (fl : Bool), isPassWorstCaseLoop tan (nf + 1) pf (afterStep tan self v 0) x y fl
      = isPassWorstCaseLoop tan (nf + 1) pf self x y fl :=
    fun x y fl => isPassWorstCaseLoop_poly tan (nf + 1) pf self _ x y fl
  simp only [e]
  split_ifs at hnd ⊢ with hge
  · simp only [Prod.mk.injEq] at hnd
    rw [hnd.1, hnd.2]
  · simp only [Prod.mk.injEq] at hnd
    rw [hnd.1, hnd.2]

/-- At the current velocity the constraint polynomial is positive when
`c² < tan |d| · cv²`. -/
theorem stepPolynomial_getValue_self_pos (tan : K → K) (self : SafeCar K) (cv d : K)
    (hdt : self.dt ≠ 0) (hL : 0 < self.L) (h : self.c ^ 2 < tan |d| * cv ^ 2) :
    (stepPolynomial tan self cv d).getValue cv > 0 := by
  rw [stepPolynomial_getValue_self tan self cv d hdt]
  have h0 : 0 ≤ self.c ^ 2 := by positivity
  have h1 : self.c ^ 2 / self.L < tan |d| * cv ^ 2 / self.L := div_lt_div_of_pos_right h hL
  have h2 : 0 ≤ self.c ^ 2 / self.L := by positivity
  have h3 : (self.c ^ 2 / self.L) ^ 2 < (tan |d| * cv ^ 2 / self.L) ^ 2 :=
    pow_lt_pow_left₀ h1 h2 two_ne_zero
  have e : (tan |d| / self.L) ^ 2 * cv ^ 4 = (tan |d| * cv ^ 2 / self.L) ^ 2 := by ring
  rw [e]
  linarith

/-- At the current velocity the constraint polynomial is nonpositive when
`0 ≤ tan |d|` and `tan |d| · cv² ≤ c²`. -/
theorem stepPolynomial_getValue_self_nonpos (tan : K → K) (self : SafeCar K) (cv d : K)
    (hdt : self.dt ≠ 0) (hL : 0 < self.L) (ht : 0 ≤ tan |d|) (h : tan |d| * cv ^ 2 ≤ self.c ^ 2) :
    (stepPolynomial tan self cv d).getValue cv ≤ 0 := by
  rw [stepPolynomial_getValue_self tan self cv d hdt]
  have h0 : 0 ≤ tan |d| * cv ^ 2 := by positivity
  have h1 : tan |d| * cv ^ 2 / self.L ≤ self.c ^ 2 / self.L := div_le_div_of_nonneg_right h hL.le
  have h2 : 0 ≤ tan |d| * cv ^ 2 / self.L := by positivity
  have h3 : (tan |d| * cv ^ 2 / self.L) ^ 2 ≤ (self.c ^ 2 / self.L) ^ 2 :=
    pow_le_pow_left₀ h2 h1 2
  have e : (tan |d| / self.L) ^ 2 * cv ^ 4 = (tan |d| * cv ^ 2 / self.L) ^ 2 := by ring
  rw [e]
  linarith

theorem isPassWorstCase_result_of (tan : K → K) (self : SafeCar K) (q : Polynomial K)
    (v d : K) (nf pf : Nat) (b : Bool) (s2 : SafeCar K)
    (h : isPassWorstCase tan { self with polynomial := q } v d nf pf = some (b, s2)) :
    isPassWorstCaseResult tan self v d nf pf = some b ∧
      ∃ q2, s2 = { self with polynomial := q2 } := by
  obtain ⟨h1, q2, h2⟩ := isPassWorstCase_result tan _ v d nf pf b s2 h
  rw [isPassWorstCaseResult_poly] at h1
  exact ⟨h1, q2, h2⟩

/-- What `makeVeloBoundWithWorstCase` returns, on an instance with `dt, L, c > 0`, in terms
of the single-step bound `base` and of the booleans of the worst-case simulation: `base` if
it is unsafe or its upper end passes; the danger bound if both ends fail; otherwise `base`
with its `vMax` replaced by a velocity in `[base.vMin, base.vMax)` that passes. -/
theorem makeVeloBoundWithWorstCase_spec (tan : K → K) (self : SafeCar K) (cv d tol : K)
    (nf pf wf : Nat) (hdt : 0 < self.dt) (hL : 0 < self.L) (hc : 0 < self.c)
    (r : veloBound K) (s : SafeCar K)
    (h : makeVeloBoundWithWorstCase tan self cv d tol nf pf wf = some (r, s)) :
    ∃ base s1, makeVeloBoundNextStep tan self cv d tol nf = some (base, s1) ∧
      ((base.isSafe = false ∧ r = base) ∨
        (base.isSafe = true ∧ r = base ∧
          isPassWorstCaseResult tan self base.vMax d nf pf = some true) ∨
        (base.isSafe = true ∧ r = dangerBound ∧
          isPassWorstCaseResult tan self base.vMax d nf pf = some false ∧
          isPassWorstCaseResult tan self base.vMin d nf pf = some false) ∨
        (base.isSafe = true ∧
          isPassWorstCaseResult tan self base.vMax d nf pf = some false ∧
          isPassWorstCaseResult tan self base.vMin d nf pf = some true ∧
          r.isSafe = true ∧ r.vMin = base.vMin ∧ base.vMin ≤ r.vMax ∧ r.vMax < base.vMax ∧
          isPassWorstCaseResult tan self r.vMax d nf pf = some true)) := by
  obtain ⟨base, s1, hb, hcase⟩ := makeVeloBoundWithWorstCase_cases tan self cv d tol nf pf wf r s h
  refine ⟨base, s1, hb, ?_⟩
  obtain ⟨hs1, -⟩ := makeVeloBoundNextStep_cases tan self cv d tol nf base s1 hb
  rcases hcase with ⟨hbs, hr, -⟩ | ⟨hbs, passMax, s2, hmax, hcase⟩
  · exact Or.inl ⟨hbs, hr⟩
  · rw [hs1] at hmax
    obtain ⟨hpmax, q2, hq2⟩ := isPassWorstCase_result_of tan self _ _ d nf pf _ _ hmax
    rcases hcase with ⟨hp, hr, -⟩ | ⟨hp, passMin, s3, hmin, hcase⟩
    · rw [hp] at hpmax
      exact Or.inr (Or.inl ⟨hbs, hr, hpmax⟩)
    · rw [hp] at hpmax
      rw [hq2] at hmin
      obtain ⟨hpmin, q3, hq3⟩ := isPassWorstCase_result_of tan self _ _ d nf pf _ _ hmin
      rcases hcase with ⟨hp2, hr, -⟩ | ⟨hp2, hw⟩
      · rw [hp2] at hpmin
        exact Or.inr (Or.inr (Or.inl ⟨hbs, hr, hpmax, hpmin⟩))
      · rw [hp2] at hpmin
        have hbd := makeVeloBoundNextStep_safe_bounds tan self cv d tol nf hdt hL hc base s1 hb hbs
        have hlt : base.vMin < base.vMax := lt_trans hbd.2.1.2 hbd.1.1
        have hfr := worstCaseWalk_frame tan nf pf base d tol wf s3 _ _ r s hw
        rw [hq3] at hw
        have hbr := worstCaseWalk_bracket tan nf pf base d tol self base.vMin base.vMax wf q3
          ((base.vMax - base.vMin) / 2) (base.vMin + (base.vMax - base.vMin) / 2)
          base.vMin base.vMax r s (by linarith) le_rfl le_rfl hpmin hpmax
          (Or.inr (Or.inl (by ring))) (Or.inr (Or.inl (by ring))) hw
        exact Or.inr (Or.inr (Or.inr ⟨hbs, hpmax, hpmin, by rw [hfr.1, hbs], hfr.2, hbr.1,
          hbr.2.1, hbr.2.2⟩))

/-- An unsafe result of the worst-case bound is the danger bound. -/
theorem makeVeloBoundWithWorstCase_notSafe_result (tan : K → K) (self : SafeCar K)
    (cv d tol : K) (nf pf wf : Nat) (r : veloBound K) (s : SafeCar K)
    (h : makeVeloBoundWithWorstCase tan self cv d tol nf pf wf = some (r, s))
    (hs : r.isSafe = false) : r = dangerBound := by
  obtain ⟨base, s1, hb, hcase⟩ := makeVeloBoundWithWorstCase_cases _ _ _ _ _ _ _ _ _ _ h
  rcases hcase with ⟨hbs, hr, -⟩ | ⟨hbs, passMax, s2, -, hcase⟩
  · rw [hr]
    exact makeVeloBoundNextStep_notSafe_result _ _ _ _ _ _ _ _ hb hbs
  · rcases hcase with ⟨-, hr, -⟩ | ⟨-, passMin, s3, -, hcase⟩
    · rw [hr, hbs] at hs; exact absurd hs (by simp)
    · rcases hcase with ⟨-, hr, -⟩ | ⟨-, hw⟩
      · exact hr
      · have hf := (worstCaseWalk_frame _ _ _ _ _ _ _ _ _ _ _ _ hw).1
        rw [hs, hbs] at hf; exact absurd hf (by simp)

/-! ## Claims about the worst-case simulation and the worst-case bound -/

/-- C3: every result with `isSafe = false` returned by `makeVeloBoundNextStep` or by
`makeVeloBoundWithWorstCase` has `vMax = -1` and `vMin = -1`. -/
theorem notSafe_result_carries_sentinel (self : SafeCar ℝ)
    (currentVelocity nextDelta tolerance : ℝ) (nfuel pfuel wfuel : Nat)
    (result : veloBound ℝ) (self1 : SafeCar ℝ)
    (h : makeVeloBoundNextStep Real.tan self currentVelocity nextDelta tolerance nfuel
          = some (result, self1) ∨
        makeVeloBoundWithWorstCase Real.tan self currentVelocity nextDelta tolerance nfuel pfuel
          wfuel = some (result, self1))
    (hs : result.isSafe = false) :
    result.vMax = -1 ∧ result.vMin = -1 := by
  have key : result = dangerBound := by
    rcases h with h | h
    · exact makeVeloBoundNextStep_notSafe_result _ _ _ _ _ _ _ _ h hs
    · exact makeVeloBoundWithWorstCase_notSafe_result _ _ _ _ _ _ _ _ _ _ h hs
  rw [key]
  exact ⟨rfl, rfl⟩

theorem notSafe_result_carries_sentinel_witness :
    makeVeloBoundWithWorstCase Real.tan (defaultCar Real.tan) 3 (15 / 10) defaultTolerance 0 0 0
        = some (dangerBound, afterStep Real.tan (defaultCar Real.tan) 3 (15 / 10)) ∧
      ((dangerBound : veloBound ℝ).vMax = -1 ∧ (dangerBound : veloBound ℝ).vMin = -1) :=
  have h := makeVeloBoundWithWorstCase_base_danger Real.tan (defaultCar Real.tan) 3 (15 / 10)
    defaultTolerance 0 0 0 (Or.inr (by rw [defaultCar_maxDelta]; norm_num [abs_of_pos]))
  ⟨h, notSafe_result_carries_sentinel (defaultCar Real.tan) 3 (15 / 10) defaultTolerance 0 0 0
    dangerBound _ (Or.inr h) rfl⟩

/-- C7: if `makeVeloBoundNextStep(v, |nextDelta|)` with the default tolerance returns
`isSafe = true` with `vMax · vMin < 0`, then `isPassWorstCase(v, nextDelta)` returns `true`
within one loop iteration, that is after exactly one single-step bound computation (with no
iteration it has not returned), and leaves the instance as that one computation left it:
the steering angle is not advanced. -/
theorem isPassWorstCase_straddling_zero (self : SafeCar ℝ) (v nextDelta : ℝ)
    (nfuel pfuel : Nat) (bound : veloBound ℝ) (self1 : SafeCar ℝ)
    (h : makeVeloBoundNextStep Real.tan self v |nextDelta| defaultTolerance nfuel
      = some (bound, self1))
    (hs : bound.isSafe = true) (hneg : bound.vMax * bound.vMin < 0) :
    isPassWorstCase Real.tan self v nextDelta nfuel 1 = some (true, self1) ∧
      isPassWorstCase Real.tan self v nextDelta nfuel 0 = none ∧
      isPassWorstCase Real.tan self v nextDelta nfuel (pfuel + 1) = some (true, self1) :=
  ⟨isPassWorstCaseLoop_straddle Real.tan nfuel 0 self v |nextDelta| false bound self1 h hs hneg,
    rfl,
    isPassWorstCaseLoop_straddle Real.tan nfuel pfuel self v |nextDelta| false bound self1 h hs
      hneg⟩

theorem isPassWorstCase_straddling_zero_witness :
    isPassWorstCase Real.tan (defaultCar Real.tan) 0 0 1 1
      = some (true, afterStep Real.tan (defaultCar Real.tan) 0 0) :=
  (isPassWorstCase_straddling_zero (defaultCar Real.tan) 0 0 1 0
    { isSafe := true, vMax := 0 + 8 / 13, vMin := 0 - 8 / 13 } _
    (by rw [abs_zero]; exact defaultCar_zero_steer 0 0) rfl (by norm_num)).1

/-- C9: when `makeVeloBoundWithWorstCase` returns, it returns the single-step bound `base`
unchanged if that is unsafe, and a result with `isSafe = true` has the `vMin` of `base`. -/
theorem makeVeloBoundWithWorstCase_frame (self : SafeCar ℝ)
    (currentVelocity nextDelta tolerance : ℝ) (nfuel nfuel1 pfuel wfuel : Nat)
    (result base : veloBound ℝ) (self1 self2 : SafeCar ℝ)
    (h : makeVeloBoundWithWorstCase Real.tan self currentVelocity nextDelta tolerance nfuel
      pfuel wfuel = some (result, self1))
    (hb : makeVeloBoundNextStep Real.tan self currentVelocity nextDelta tolerance nfuel1
      = some (base, self2)) :
    (base.isSafe = false → result = base) ∧
      (result.isSafe = true → result.vMin = base.vMin) := by
  obtain ⟨base1, s1, hb1, hcase⟩ := makeVeloBoundWithWorstCase_cases _ _ _ _ _ _ _ _ _ _ h
  have e := makeVeloBoundNextStep_det Real.tan self self.polynomial currentVelocity nextDelta
    tolerance nfuel nfuel1 _ _ hb1 hb
  simp only [Prod.mk.injEq] at e
  obtain ⟨e, -⟩ := e
  subst e
  rcases hcase with ⟨hbs, hr, -⟩ | ⟨hbs, passMax, s2, -, hcase⟩
  · exact ⟨fun _ => hr, fun _ => by rw [hr]⟩
  · refine ⟨fun hf => by rw [hbs] at hf; exact absurd hf (by simp), fun hrs => ?_⟩
    rcases hcase with ⟨-, hr, -⟩ | ⟨-, passMin, s3, -, hcase⟩
    · rw [hr]
    · rcases hcase with ⟨-, hr, -⟩ | ⟨-, hw⟩
      · rw [hr] at hrs; exact absurd hrs (by simp [dangerBound])
      · exact (worstCaseWalk_frame _ _ _ _ _ _ _ _ _ _ _ _ hw).2

/-- On the default instance a velocity `u ≤ -5 - 8/13` fails the worst-case simulation at
zero steering: the second iteration, at steering `0.16`, finds the contracted velocity
already violating the constraint. -/
theorem defaultCar_pass_fails (u : ℝ) (hu : u ≤ -5 - 8 / 13) :
    isPassWorstCaseResult Real.tan (defaultCar Real.tan) u 0 1 2 = some false := by
  have hpi := Real.pi_gt_three
  have htan : (16 / 100 : ℝ) < Real.tan (16 / 100) := Real.lt_tan (by norm_num) (by linarith)
  have hs := defaultCar_searchRange Real.tan
  rw [isPassWorstCaseResult_zero_continue Real.tan Real.tan_zero (defaultCar Real.tan) u
    (u + 8 / 13) (16 / 100) false 0 1 (defaultCar_dt_pos _).ne.symm (defaultCar_L_pos _).ne.symm
    (defaultCar_c_pos _).ne.symm (defaultCar_maxDelta_pos _).le]
  · rw [isPassWorstCaseLoop_danger]
    · rfl
    · left
      apply stepPolynomial_getValue_self_pos _ _ _ _ (defaultCar_dt_pos _).ne.symm
        (defaultCar_L_pos _)
      rw [defaultCar_c, abs_of_pos (by norm_num : (0 : ℝ) < 16 / 100)]
      have h5 : (25 : ℝ) ≤ (u + 8 / 13) ^ 2 := by nlinarith
      nlinarith
  · rw [hs]
    have h1 : 0 < -(u + 8 / 13) := by linarith
    have h2 : 0 < -(u - 8 / 13) := by linarith
    nlinarith
  · rw [hs, if_pos (by linarith), abs_of_neg (by linarith), abs_of_neg (by linarith),
      min_eq_left (by linarith)]
    ring
  · rw [defaultCar_dt, defaultCar_omega, defaultCar_maxDelta, if_neg (by norm_num)]
    norm_num

/-- On the default instance, at zero velocity and zero steering, the worst-case bound is the
single-step bound `[-8/13, 8/13]`: its upper end contracts to velocity zero, whose interval
at steering `0.16` straddles zero. -/
theorem defaultCar_worstCase_zero :
    ∃ s, makeVeloBoundWithWorstCase Real.tan (defaultCar Real.tan) 0 0 defaultTolerance
      1000000000 2 0 = some ({ isSafe := true, vMax := 0 + 8 / 13, vMin := 0 - 8 / 13 }, s) := by
  have e : (1000000000 : ℕ) = 999999999 + 1 := rfl
  have hpass : isPassWorstCaseResult Real.tan (defaultCar Real.tan) (0 + 8 / 13) 0
      (999999999 + 1) (1 + 1) = some true := by
    rw [isPassWorstCaseResult_zero_continue Real.tan Real.tan_zero (defaultCar Real.tan)
      (0 + 8 / 13) 0 (16 / 100) false 999999999 1 (defaultCar_dt_pos _).ne.symm
      (defaultCar_L_pos _).ne.symm (defaultCar_c_pos _).ne.symm (defaultCar_maxDelta_pos _).le]
    · obtain ⟨r, hr, hs, hneg⟩ := makeVeloBoundNextStep_at_zero Real.tan (defaultCar Real.tan)
        (16 / 100) defaultTolerance (999999999 + 1) (defaultCar_dt_pos _) (defaultCar_L_pos _)
        (defaultCar_c_pos _)
        (by rw [defaultCar_maxDelta, abs_of_pos (by norm_num : (0 : ℝ) < 16 / 100)]; norm_num)
        (by rw [defaultCar_searchRange, defaultTolerance]; norm_num)
      rw [isPassWorstCaseLoop_straddle Real.tan _ 0 _ _ _ _ r _ hr hs hneg]
      rfl
    · rw [defaultCar_searchRange]; norm_num
    · rw [defaultCar_searchRange]; norm_num
    · rw [defaultCar_dt, defaultCar_omega, defaultCar_maxDelta, if_neg (by norm_num)]
      norm_num
  rw [e]
  exact makeVeloBoundWithWorstCase_pass_max Real.tan (defaultCar Real.tan) 0 0 defaultTolerance
    (999999999 + 1) 2 0 _ _ (defaultCar_zero_steer 0 999999999) rfl hpass

/-- C5, as stated, fails: on the default instance at velocity `-10` and zero steering both
ends of the single-step bound `[-10 - 8/13, -10 + 8/13]` fail the worst-case simulation, so
the worst-case result is unsafe and its `vMax` is the sentinel `-1`, above the single-step
`vMax = -10 + 8/13`. -/
theorem worstCase_vMax_le_counterexample :
    ∃ result s base s1,
      makeVeloBoundWithWorstCase Real.tan (defaultCar Real.tan) (-10) 0 defaultTolerance 1 2 0
          = some (result, s) ∧
        makeVeloBoundNextStep Real.tan (defaultCar Real.tan) (-10) 0 defaultTolerance 1
          = some (base, s1) ∧
        ¬ result.vMax ≤ base.vMax := by
  have hb := defaultCar_zero_steer (-10) 0
  obtain ⟨s, hs⟩ := makeVeloBoundWithWorstCase_danger Real.tan (defaultCar Real.tan) (-10) 0
    defaultTolerance 1 2 0 _ _ hb rfl (defaultCar_pass_fails _ (by norm_num))
    (defaultCar_pass_fails _ (by norm_num))
  refine ⟨_, _, _, _, hs, hb, ?_⟩
  simp only [dangerBound, DANGER]
  norm_num

/-- C5, amended: over exact real arithmetic, on an instance with `dt, L, c > 0`, whenever
both calls return, a safe worst-case result has a `vMax` less than or equal to the `vMax` of
the single-step bound; an unsafe worst-case result has the sentinel `-1` as its `vMax`. -/
theorem worstCase_vMax_le (self : SafeCar ℝ) (currentVelocity nextDelta tolerance : ℝ)
    (nfuel nfuel1 pfuel wfuel : Nat) (hdt : 0 < self.dt) (hL : 0 < self.L) (hc : 0 < self.c)
    (result base : veloBound ℝ) (self1 self2 : SafeCar ℝ)
    (h : makeVeloBoundWithWorstCase Real.tan self currentVelocity nextDelta tolerance nfuel
      pfuel wfuel = some (result, self1))
    (hb : makeVeloBoundNextStep Real.tan self currentVelocity nextDelta tolerance nfuel1
      = some (base, self2)) :
    (result.isSafe = true → result.vMax ≤ base.vMax) ∧
      (result.isSafe = false → result.vMax = -1) := by
  refine ⟨fun hrs => ?_, fun hrs => ?_⟩
  · obtain ⟨base1, s1, hb1, hcase⟩ := makeVeloBoundWithWorstCase_spec Real.tan self
      currentVelocity nextDelta tolerance nfuel pfuel wfuel hdt hL hc result self1 h
    have e := makeVeloBoundNextStep_det Real.tan self self.polynomial currentVelocity nextDelta
      tolerance nfuel nfuel1 _ _ hb1 hb
    simp only [Prod.mk.injEq] at e
    obtain ⟨e, -⟩ := e
    subst e
    rcases hcase with ⟨-, hr⟩ | ⟨-, hr, -⟩ | ⟨-, hr, -, -⟩ | ⟨-, -, -, -, -, -, hlt, -⟩
    · rw [hr]
    · rw [hr]
    · rw [hr] at hrs; exact absurd hrs (by simp [dangerBound])
    · exact hlt.le
  · rw [makeVeloBoundWithWorstCase_notSafe_result Real.tan self currentVelocity nextDelta
      tolerance nfuel pfuel wfuel result self1 h hrs]
    rfl

theorem worstCase_vMax_le_witness :
    ∃ s, makeVeloBoundWithWorstCase Real.tan (defaultCar Real.tan) 0 0 defaultTolerance
        1000000000 2 0 = some ({ isSafe := true, vMax := 0 + 8 / 13, vMin := 0 - 8 / 13 }, s) ∧
      (0 + 8 / 13 : ℝ) ≤ 0 + 8 / 13 := by
  obtain ⟨s, hs⟩ := defaultCar_worstCase_zero
  exact ⟨s, hs, (worstCase_vMax_le (defaultCar Real.tan) 0 0 defaultTolerance 1000000000 1 2 0
    (defaultCar_dt_pos _) (defaultCar_L_pos _) (defaultCar_c_pos _) _ _ _ _ hs
    (defaultCar_zero_steer 0 0)).1 rfl⟩

theorem makeVeloBoundWithWorstCase_frame_witness :
    ∃ s, makeVeloBoundWithWorstCase Real.tan (defaultCar Real.tan) 0 0 defaultTolerance
        1000000000 2 0 = some ({ isSafe := true, vMax := 0 + 8 / 13, vMin := 0 - 8 / 13 }, s) ∧
      (0 - 8 / 13 : ℝ) = 0 - 8 / 13 := by
  obtain ⟨s, hs⟩ := defaultCar_worstCase_zero
  exact ⟨s, hs, (makeVeloBoundWithWorstCase_frame (defaultCar Real.tan) 0 0 defaultTolerance
    1000000000 1 2 0 _ _ _ _ hs (defaultCar_zero_steer 0 0)).2 rfl⟩

/-- The instance with the default `omega = 3.2`, `maxDelta = 1.1`, `L = 0.325`, `c = 2` and a
negative control period `dt = -1`: its `searchRange` is `-160/13`. -/
theorem negativePeriodCar_searchRange :
    searchRange (new Real.tan (32 / 10) (11 / 10) (-1) (325 / 1000) 2) = -(160 / 13) := by
  simp only [searchRange, new]; norm_num

/-- C6, as stated, fails on an instance with a negative control period (`dt = -1`, the other
parameters the defaults): at velocity `-1` and zero steering the single-step bound has
`vMax = -173/13` below `vMin = 147/13`, the walk is reached, and it returns at its first
probe with `vMax = -1`, which is above the single-step `vMax`. -/
theorem worstCaseWalk_result_counterexample :
    ∃ base s1 s2 s3 result s,
      makeVeloBoundNextStep Real.tan (new Real.tan (32 / 10) (11 / 10) (-1) (325 / 1000) 2)
          (-1) 0 defaultTolerance 1 = some (base, s1) ∧
        base.isSafe = true ∧
        isPassWorstCase Real.tan s1 base.vMax 0 1 2 = some (false, s2) ∧
        isPassWorstCase Real.tan s2 base.vMin 0 1 2 = some (true, s3) ∧
        makeVeloBoundWithWorstCase Real.tan
          (new Real.tan (32 / 10) (11 / 10) (-1) (325 / 1000) 2) (-1) 0 defaultTolerance 1 2 1
          = some (result, s) ∧
        ¬ (result.isSafe = true ∧ result.vMax < base.vMax ∧ base.vMin ≤ result.vMax) := by
  have hsr := negativePeriodCar_searchRange
  have hdt : (new Real.tan (32 / 10) (11 / 10) (-1) (325 / 1000) 2).dt ≠ 0 := by
    simp [new]
  have hL : (new Real.tan (32 / 10) (11 / 10) (-1) (325 / 1000) 2).L ≠ 0 := by
    simp only [new]; norm_num
  have hc : (new Real.tan (32 / 10) (11 / 10) (-1) (325 / 1000) 2).c ≠ 0 := by
    simp [new]
  have hmx : 0 ≤ (new Real.tan (32 / 10) (11 / 10) (-1) (325 / 1000) 2).maxDelta := by
    simp only [new]; norm_num
  have hb := makeVeloBoundNextStep_zero_steer Real.tan Real.tan_zero
    (new Real.tan (32 / 10) (11 / 10) (-1) (325 / 1000) 2) (-1) defaultTolerance 0 hdt hL hc hmx
    defaultTolerance_pos
  rw [hsr] at hb
  have hmax : isPassWorstCaseResult Real.tan
      (new Real.tan (32 / 10) (11 / 10) (-1) (325 / 1000) 2) (-1 + -(160 / 13)) 0 (0 + 1) (1 + 1)
      = some false := by
    rw [isPassWorstCaseResult_zero_continue Real.tan Real.tan_zero _ _ (-1) (-(32 / 10)) false 0
      1 hdt hL hc hmx]
    · rw [isPassWorstCaseLoop_danger]
      · rfl
      · right
        simp only [new]
        rw [abs_neg, abs_of_pos (by norm_num : (0 : ℝ) < 32 / 10)]
        norm_num
    · rw [hsr]; norm_num
    · rw [hsr, if_pos (by norm_num)]
      norm_num [abs_of_neg, abs_of_pos, min_def]
    · simp only [new]
      rw [if_neg (by norm_num)]
      norm_num
  have hmin : isPassWorstCaseResult Real.tan
      (new Real.tan (32 / 10) (11 / 10) (-1) (325 / 1000) 2) (-1 - -(160 / 13)) 0 (0 + 1) (1 + 1)
      = some true :=
    isPassWorstCaseResult_zero_straddle Real.tan Real.tan_zero _ _ 0 1 hdt hL hc hmx
      (by rw [hsr]; norm_num)
  have hmid : isPassWorstCaseResult Real.tan
      (new Real.tan (32 / 10) (11 / 10) (-1) (325 / 1000) 2)
      ((-1 - -(160 / 13)) + ((-1 + -(160 / 13)) - (-1 - -(160 / 13))) / 2) 0 (0 + 1) (1 + 1)
      = some true :=
    isPassWorstCaseResult_zero_straddle Real.tan Real.tan_zero _ _ 0 1 hdt hL hc hmx
      (by rw [hsr]; norm_num)
  obtain ⟨s2, s3, s, h2, h3, hw⟩ := makeVeloBoundWithWorstCase_walk_first Real.tan
    (new Real.tan (32 / 10) (11 / 10) (-1) (325 / 1000) 2) (-1) 0 defaultTolerance 1 2 0 _ _ hb
    rfl hmax hmin hmid (by rw [defaultTolerance]; norm_num)
  refine ⟨_, _, s2, s3, _, s, hb, rfl, h2, h3, hw, ?_⟩
  rintro ⟨-, hlt, -⟩
  norm_num at hlt

/-- C6, amended: over exact real arithmetic, on an instance with `dt, L, c > 0`, for every
input that reaches the refinement walk of `makeVeloBoundWithWorstCase` (`base` is safe,
`isPassWorstCase(base.vMax, nextDelta)` is false and `isPassWorstCase(base.vMin, nextDelta)`
is true) and for which the walk returns, the result has `isSafe = true` and a `vMax`
strictly less than `base.vMax` and not less than `base.vMin`. -/
theorem worstCaseWalk_result (self : SafeCar ℝ) (currentVelocity nextDelta tolerance : ℝ)
    (nfuel pfuel wfuel : Nat) (hdt : 0 < self.dt) (hL : 0 < self.L) (hc : 0 < self.c)
    (base result : veloBound ℝ) (self1 self2 self3 self4 : SafeCar ℝ)
    (hb : makeVeloBoundNextStep Real.tan self currentVelocity nextDelta tolerance nfuel
      = some (base, self1))
    (hs : base.isSafe = true)
    (hmax : isPassWorstCase Real.tan self1 base.vMax nextDelta nfuel pfuel = some (false, self2))
    (hmin : isPassWorstCase Real.tan self2 base.vMin nextDelta nfuel pfuel = some (true, self3))
    (h : makeVeloBoundWithWorstCase Real.tan self currentVelocity nextDelta tolerance nfuel
      pfuel wfuel = some (result, self4)) :
    result.isSafe = true ∧ result.vMax < base.vMax ∧ base.vMin ≤ result.vMax := by
  obtain ⟨base1, s1, hb1, hcase⟩ := makeVeloBoundWithWorstCase_spec Real.tan self
    currentVelocity nextDelta tolerance nfuel pfuel wfuel hdt hL hc result self4 h
  rw [hb] at hb1
  simp only [Option.some.injEq, Prod.mk.injEq] at hb1
  obtain ⟨e1, e2⟩ := hb1
  subst e1 e2
  obtain ⟨hs1, -⟩ := makeVeloBoundNextStep_cases _ _ _ _ _ _ _ _ hb
  rw [hs1] at hmax
  obtain ⟨hpmax, q2, hq2⟩ := isPassWorstCase_result_of Real.tan self _ _ _ _ _ _ _ hmax
  rw [hq2] at hmin
  obtain ⟨hpmin, -⟩ := isPassWorstCase_result_of Real.tan self _ _ _ _ _ _ _ hmin
  rcases hcase with ⟨hf, -⟩ | ⟨-, -, hp⟩ | ⟨-, -, -, hp⟩ | ⟨-, -, -, hsafe, -, hlo, hhi, -⟩
  · rw [hs] at hf; exact absurd hf (by simp)
  · rw [hpmax] at hp; exact absurd hp (by simp)
  · rw [hpmin] at hp; exact absurd hp (by simp)
  · exact ⟨hsafe, hhi, hlo⟩

/-- An input that reaches the walk: the instance `omega = 3.2, maxDelta = 1.1, dt = 1,
L = 1, c = 2` (so `searchRange = 4`) at velocity `2`, zero steering and tolerance `5`. The
single-step bound is `[-2, 6]`; `6` fails the worst-case simulation (it contracts to `2`,
unsafe at steering `1.1` since `tan 1.1 > 1`), `-2` and the midpoint `2` pass (their
intervals straddle zero), and the walk returns `vMax = 2` at its first probe. -/
theorem worstCaseWalk_result_witness :
    ∃ result s,
      makeVeloBoundWithWorstCase Real.tan (new Real.tan (32 / 10) (11 / 10) 1 1 2) 2 0 5 1 2 1
          = some (result, s) ∧
        (result.isSafe = true ∧ result.vMax < 2 + 4 ∧ 2 - 4 ≤ result.vMax) := by
  have hsr : searchRange (new Real.tan (32 / 10) (11 / 10) 1 1 2) = 4 := by
    simp only [searchRange, new]; norm_num
  have hdt : (0 : ℝ) < (new Real.tan (32 / 10) (11 / 10) 1 1 2).dt := by simp [new]
  have hL : (0 : ℝ) < (new Real.tan (32 / 10) (11 / 10) 1 1 2).L := by simp [new]
  have hc : (0 : ℝ) < (new Real.tan (32 / 10) (11 / 10) 1 1 2).c := by simp [new]
  have hmx : 0 ≤ (new Real.tan (32 / 10) (11 / 10) 1 1 2).maxDelta := by
    simp only [new]; norm_num
  have hpi := Real.pi_gt_three
  have htan : (11 / 10 : ℝ) < Real.tan (11 / 10) := Real.lt_tan (by norm_num) (by linarith)
  have hb := makeVeloBoundNextStep_zero_steer Real.tan Real.tan_zero
    (new Real.tan (32 / 10) (11 / 10) 1 1 2) 2 5 0 hdt.ne.symm hL.ne.symm hc.ne.symm hmx
    (by norm_num)
  rw [hsr] at hb
  have hmax : isPassWorstCaseResult Real.tan (new Real.tan (32 / 10) (11 / 10) 1 1 2) (2 + 4) 0
      (0 + 1) (1 + 1) = some false := by
    rw [isPassWorstCaseResult_zero_continue Real.tan Real.tan_zero _ _ 2 (11 / 10) true 0
      1 hdt.ne.symm hL.ne.symm hc.ne.symm hmx]
    · rw [isPassWorstCaseLoop_danger]
      · rfl
      · left
        apply stepPolynomial_getValue_self_pos _ _ _ _ hdt.ne.symm hL
        rw [abs_of_pos (by norm_num : (0 : ℝ) < 11 / 10)]
        simp only [new]
        nlinarith
    · rw [hsr]; norm_num
    · rw [hsr, if_neg (by norm_num)]
      norm_num [abs_of_pos, min_def]
    · simp only [new]
      rw [if_pos (by norm_num)]
  have hmin : isPassWorstCaseResult Real.tan (new Real.tan (32 / 10) (11 / 10) 1 1 2) (2 - 4) 0
      (0 + 1) (1 + 1) = some true :=
    isPassWorstCaseResult_zero_straddle Real.tan Real.tan_zero _ _ 0 1 hdt.ne.symm hL.ne.symm
      hc.ne.symm hmx (by rw [hsr]; norm_num)
  have hmid : isPassWorstCaseResult Real.tan (new Real.tan (32 / 10) (11 / 10) 1 1 2)
      ((2 - 4) + ((2 + 4) - (2 - 4)) / 2) 0 (0 + 1) (1 + 1) = some true :=
    isPassWorstCaseResult_zero_straddle Real.tan Real.tan_zero _ _ 0 1 hdt.ne.symm hL.ne.symm
      hc.ne.symm hmx (by rw [hsr]; norm_num)
  obtain ⟨s2, s3, s, h2, h3, hw⟩ := makeVeloBoundWithWorstCase_walk_first Real.tan
    (new Real.tan (32 / 10) (11 / 10) 1 1 2) 2 0 5 1 2 0 _ _ hb rfl hmax hmin hmid
    (by norm_num)
  exact ⟨_, s, hw, worstCaseWalk_result (new Real.tan (32 / 10) (11 / 10) 1 1 2) 2 0 5 1 2 1
    hdt hL hc _ _ _ s2 s3 s hb rfl h2 h3 hw⟩

/-! ## The number of iterations of the worst-case simulation -/

/-- Once `endFlag` is set the loop returns in the current iteration: its result does not
depend on the remaining budget. -/
theorem isPassWorstCaseLoop_flag (tan : K → K) (nf k : Nat) (self : SafeCar K) (minV nd : K) :
    isPassWorstCaseLoop tan nf (k + 1) self minV nd true
      = isPassWorstCaseLoop tan nf 1 self minV nd true := by
  simp only [isPassWorstCaseLoop]
  cases makeVeloBoundNextStep tan self minV nd defaultTolerance nf with
  | none => rfl
  | some y => simp

theorem isPassWorstCaseLoop_none (tan : K → K) (nf k : Nat) (self : SafeCar K) (minV nd : K)
    (flag : Bool) (h : makeVeloBoundNextStep tan self minV nd defaultTolerance nf = none) :
    isPassWorstCaseLoop tan nf (k + 1) self minV nd flag = none := by
  rw [isPassWorstCaseLoop, h]

theorem isPassWorstCaseLoop_notSafe (tan : K → K) (nf k : Nat) (self : SafeCar K) (minV nd : K)
    (flag : Bool) (r : veloBound K) (s1 : SafeCar K)
    (h : makeVeloBoundNextStep tan self minV nd defaultTolerance nf = some (r, s1))
    (hs : r.isSafe = false) :
    isPassWorstCaseLoop tan nf (k + 1) self minV nd flag = some (false, s1) := by
  rw [isPassWorstCaseLoop, h]
  simp [hs]

/-- If `m + 1` increments of `dt * omega` take the steering angle to `maxDelta`, a returning
run of the loop returns within `m + 2` iterations. -/
theorem isPassWorstCaseLoop_bound (tan : K → K) (nf : Nat) (car : SafeCar K) (m : Nat) :
    ∀ (q : Polynomial K) (minV nd : K) (k : Nat) (x : Bool × SafeCar K),
      nd + (m + 1) * (car.dt * car.omega) ≥ car.maxDelta →
      isPassWorstCaseLoop tan nf k { car with polynomial := q } minV nd false = some x →
      isPassWorstCaseLoop tan nf (m + 2) { car with polynomial := q } minV nd false = some x := by
  induction m with
  | zero =>
    intro q minV nd k x hm h
    cases k with
    | zero => simp [isPassWorstCaseLoop] at h
    | succ k =>
      cases hc : makeVeloBoundNextStep tan { car with polynomial := q } minV nd defaultTolerance
          nf with
      | none => rw [isPassWorstCaseLoop_none _ _ _ _ _ _ _ hc] at h; simp at h
      | some y =>
        obtain ⟨r, s1⟩ := y
        have hge : nd + car.dt * car.omega ≥ car.maxDelta := by
          have : nd + ((0 : ℕ) + 1 : K) * (car.dt * car.omega) = nd + car.dt * car.omega := by
            push_cast; ring
          rw [← this]; exact hm
        cases hs : r.isSafe with
        | false =>
          rw [isPassWorstCaseLoop_notSafe _ _ _ _ _ _ _ _ _ hc hs] at h
          rw [isPassWorstCaseLoop_notSafe _ _ _ _ _ _ _ _ _ hc hs]
          exact h
        | true =>
          by_cases hneg : r.vMax * r.vMin < 0
          · rw [isPassWorstCaseLoop_straddle _ _ _ _ _ _ _ _ _ hc hs hneg] at h
            rw [isPassWorstCaseLoop_straddle _ _ _ _ _ _ _ _ _ hc hs hneg]
            exact h
          · rw [isPassWorstCaseLoop_continue _ _ _ _ _ _ _ _ hc hs hneg, if_pos hge] at h
            rw [isPassWorstCaseLoop_continue _ _ _ _ _ _ _ _ hc hs hneg, if_pos hge]
            cases k with
            | zero => simp [isPassWorstCaseLoop] at h
            | succ k => rw [isPassWorstCaseLoop_flag] at h; exact h
  | succ m ih =>
    intro q minV nd k x hm h
    cases k with
    | zero => simp [isPassWorstCaseLoop] at h
    | succ k =>
      have hfuel : m + 1 + 2 = (m + 2) + 1 := rfl
      rw [hfuel]
      cases hc : makeVeloBoundNextStep tan { car with polynomial := q } minV nd defaultTolerance
          nf with
      | none => rw [isPassWorstCaseLoop_none _ _ _ _ _ _ _ hc] at h; simp at h
      | some y =>
        obtain ⟨r, s1⟩ := y
        obtain ⟨hs1, -⟩ := makeVeloBoundNextStep_cases tan _ minV nd defaultTolerance nf r s1 hc
        have es : s1 = { car with polynomial := stepPolynomial tan car minV nd } := by
          rw [hs1]; rfl
        cases hs : r.isSafe with
        | false =>
          rw [isPassWorstCaseLoop_notSafe _ _ _ _ _ _ _ _ _ hc hs] at h
          rw [isPassWorstCaseLoop_notSafe _ _ _ _ _ _ _ _ _ hc hs]
          exact h
        | true =>
          by_cases hneg : r.vMax * r.vMin < 0
          · rw [isPassWorstCaseLoop_straddle _ _ _ _ _ _ _ _ _ hc hs hneg] at h
            rw [isPassWorstCaseLoop_straddle _ _ _ _ _ _ _ _ _ hc hs hneg]
            exact h
          · rw [isPassWorstCaseLoop_continue _ _ _ _ _ _ _ _ hc hs hneg] at h
            rw [isPassWorstCaseLoop_continue _ _ _ _ _ _ _ _ hc hs hneg]
            by_cases hge : nd + car.dt * car.omega ≥ car.maxDelta
            · have hge1 : nd + ({ car with polynomial := q } : SafeCar K).dt
                  * ({ car with polynomial := q } : SafeCar K).omega
                  ≥ ({ car with polynomial := q } : SafeCar K).maxDelta := hge
              rw [if_pos hge1] at h ⊢
              cases k with
              | zero => simp [isPassWorstCaseLoop] at h
              | succ k =>
                rw [isPassWorstCaseLoop_flag] at h
                rw [isPassWorstCaseLoop_flag]
                exact h
            · have hge1 : ¬ nd + ({ car with polynomial := q } : SafeCar K).dt
                  * ({ car with polynomial := q } : SafeCar K).omega
                  ≥ ({ car with polynomial := q } : SafeCar K).maxDelta := hge
              rw [if_neg hge1] at h ⊢
              rw [es] at h ⊢
              apply ih _ _ _ k x _ h
              have : nd + ((m + 1 : ℕ) + 1 : K) * (car.dt * car.omega)
                  = nd + car.dt * car.omega + ((m : K) + 1) * (car.dt * car.omega) := by
                push_cast; ring
              rw [← this]; exact hm

/-- Bounds on `tan 1.1`: it lies in `(1.1, 4]`. -/
theorem tan_default_maxDelta_bounds :
    (11 / 10 : ℝ) < Real.tan (11 / 10) ∧ Real.tan (11 / 10) ≤ 4 := by
  have hpi := Real.pi_gt_three
  refine ⟨Real.lt_tan (by norm_num) (by linarith), ?_⟩
  have hcos : (1 : ℝ) - (11 / 10) ^ 2 / 2 ≤ Real.cos (11 / 10) := Real.one_sub_sq_div_two_le_cos
  have hcpos : 0 < Real.cos (11 / 10) := by
    have : (0 : ℝ) < 1 - (11 / 10) ^ 2 / 2 := by norm_num
    linarith
  rw [Real.tan_eq_sin_div_cos, div_le_iff₀ hcpos]
  have hsin := Real.sin_le_one (11 / 10)
  have : (1 : ℝ) ≤ 4 * (1 - (11 / 10) ^ 2 / 2) := by norm_num
  linarith

/-- C10, as stated, fails at `|nextDelta| = maxDelta`: on the default instance at velocity
`1` and steering `1.1 = maxDelta` the formula gives `⌈0 / 0.16⌉ + 1 = 1` iteration, but the
first iteration (interval safe, both ends positive, `endFlag` not yet set) does not return;
the call returns in its second iteration. -/
theorem isPassWorstCase_iterations_counterexample :
    ∃ x, isPassWorstCase Real.tan (defaultCar Real.tan) 1 (11 / 10) 1000000000 2 = some x ∧
      isPassWorstCase Real.tan (defaultCar Real.tan) 1 (11 / 10) 1000000000
        (⌈((defaultCar Real.tan).maxDelta - |(11 / 10 : ℝ)|)
          / ((defaultCar Real.tan).dt * (defaultCar Real.tan).omega)⌉₊ + 1) = none := by
  have habs : |(11 / 10 : ℝ)| = 11 / 10 := abs_of_pos (by norm_num)
  have hN : ⌈((defaultCar Real.tan).maxDelta - |(11 / 10 : ℝ)|)
      / ((defaultCar Real.tan).dt * (defaultCar Real.tan).omega)⌉₊ + 1 = 0 + 1 := by
    rw [habs, defaultCar_maxDelta, sub_self, zero_div, Nat.ceil_zero]
  have hfuel : searchRange (defaultCar Real.tan) < (1000000000 : ℕ) * (defaultTolerance : ℝ) := by
    rw [defaultCar_searchRange, defaultTolerance]; norm_num
  obtain ⟨r, hr⟩ := makeVeloBoundNextStep_returns Real.tan (defaultCar Real.tan) 1 (11 / 10)
    defaultTolerance 1000000000 (defaultCar_dt_pos _) (defaultCar_L_pos _) (defaultCar_c_pos _)
    hfuel
  have hcond : ¬ ((stepPolynomial Real.tan (defaultCar Real.tan) 1 (11 / 10)).getValue 1 > 0 ∨
      |(11 / 10 : ℝ)| > (defaultCar Real.tan).maxDelta) := by
    rintro (h | h)
    · have := stepPolynomial_getValue_self_nonpos Real.tan (defaultCar Real.tan) 1 (11 / 10)
        (defaultCar_dt_pos _).ne.symm (defaultCar_L_pos _)
        (by rw [habs]; linarith [tan_default_maxDelta_bounds.1])
        (by rw [habs, defaultCar_c]; linarith [tan_default_maxDelta_bounds.2])
      linarith
    · rw [habs, defaultCar_maxDelta] at h; exact absurd h (lt_irrefl _)
  obtain ⟨-, hcase⟩ := makeVeloBoundNextStep_cases _ _ _ _ _ _ _ _ hr
  have hs : r.isSafe = true := by
    rcases hcase with ⟨hc1, -⟩ | ⟨-, hs, -, -⟩
    · exact absurd hc1 hcond
    · exact hs
  have hb := makeVeloBoundNextStep_safe_bounds Real.tan (defaultCar Real.tan) 1 (11 / 10)
    defaultTolerance 1000000000 (defaultCar_dt_pos _) (defaultCar_L_pos _) (defaultCar_c_pos _)
    r _ hr hs
  rw [defaultCar_searchRange] at hb
  have hneg : ¬ r.vMax * r.vMin < 0 := by
    have h1 : 0 < r.vMax := by linarith [hb.1.1]
    have h2 : 0 < r.vMin := by linarith [hb.2.1.1]
    exact not_lt.mpr (mul_pos h1 h2).le
  have hge : (11 / 10 : ℝ) + (defaultCar Real.tan).dt * (defaultCar Real.tan).omega
      ≥ (defaultCar Real.tan).maxDelta := by
    rw [defaultCar_dt, defaultCar_omega, defaultCar_maxDelta]; norm_num
  obtain ⟨r2, hr2⟩ := makeVeloBoundNextStep_returns Real.tan (defaultCar Real.tan)
    (min |r.vMax| |r.vMin| * (if (1 : ℝ) < 0 then -1 else 1)) (defaultCar Real.tan).maxDelta
    defaultTolerance 1000000000 (defaultCar_dt_pos _) (defaultCar_L_pos _) (defaultCar_c_pos _)
    hfuel
  have hr2a : makeVeloBoundNextStep Real.tan
      (afterStep Real.tan (defaultCar Real.tan) 1 (11 / 10))
      (min |r.vMax| |r.vMin| * (if (1 : ℝ) < 0 then -1 else 1)) (defaultCar Real.tan).maxDelta
      defaultTolerance 1000000000
      = some (r2, afterStep Real.tan (defaultCar Real.tan)
          (min |r.vMax| |r.vMin| * (if (1 : ℝ) < 0 then -1 else 1))
          (defaultCar Real.tan).maxDelta) :=
    (makeVeloBoundNextStep_afterStep Real.tan _ _ _ _ _ _ _).trans hr2
  refine ⟨(r2.isSafe, afterStep Real.tan (defaultCar Real.tan)
    (min |r.vMax| |r.vMin| * (if (1 : ℝ) < 0 then -1 else 1)) (defaultCar Real.tan).maxDelta),
    ?_, ?_⟩
  · rw [isPassWorstCase, habs,
      isPassWorstCaseLoop_continue Real.tan 1000000000 1 _ _ _ r _ hr hs hneg, if_pos hge,
      isPassWorstCaseLoop_last Real.tan 1000000000 0 _ _ _ r2 _ hr2a]
  · rw [hN, isPassWorstCase, habs,
      isPassWorstCaseLoop_continue Real.tan 1000000000 0 _ _ _ r _ hr hs hneg, if_pos hge]
    rfl

/-- If every single-step bound computation returns, and `m + 1` increments of `dt * omega`
take the steering angle to `maxDelta`, the loop of the worst-case simulation returns within
`m + 2` iterations. -/
theorem isPassWorstCaseLoop_total (tan : K → K) (nf : Nat) (car : SafeCar K)
    (hret : ∀ v d, makeVeloBoundNextStep tan car v d defaultTolerance nf ≠ none) (m : Nat) :
    ∀ (q : Polynomial K) (minV nd : K),
      nd + (m + 1) * (car.dt * car.omega) ≥ car.maxDelta →
      ∃ x, isPassWorstCaseLoop tan nf (m + 2) { car with polynomial := q } minV nd false
        = some x := by
  have hlast : ∀ (q : Polynomial K) (k : Nat) (minV nd : K),
      ∃ x, isPassWorstCaseLoop tan nf (k + 1) { car with polynomial := q } minV nd true
        = some x := by
    intro q k minV nd
    cases hc : makeVeloBoundNextStep tan { car with polynomial := q } minV nd defaultTolerance
        nf with
    | none =>
      exact absurd ((makeVeloBoundNextStep_poly tan car q minV nd _ nf).symm.trans hc)
        (hret minV nd)
    | some y =>
      obtain ⟨r, s1⟩ := y
      rw [isPassWorstCaseLoop_last _ _ _ _ _ _ _ _ hc]
      exact ⟨_, rfl⟩
  induction m with
  | zero =>
    intro q minV nd hm
    have hge : nd + car.dt * car.omega ≥ car.maxDelta := by
      have : nd + ((0 : ℕ) + 1 : K) * (car.dt * car.omega) = nd + car.dt * car.omega := by
        push_cast; ring
      rw [← this]; exact hm
    cases hc : makeVeloBoundNextStep tan { car with polynomial := q } minV nd defaultTolerance
        nf with
    | none =>
      exact absurd ((makeVeloBoundNextStep_poly tan car q minV nd _ nf).symm.trans hc)
        (hret minV nd)
    | some y =>
      obtain ⟨r, s1⟩ := y
      obtain ⟨hs1, -⟩ := makeVeloBoundNextStep_cases tan _ minV nd defaultTolerance nf r s1 hc
      have es : s1 = { car with polynomial := stepPolynomial tan car minV nd } := by
        rw [hs1]; rfl
      cases hs : r.isSafe with
      | false =>
        rw [isPassWorstCaseLoop_notSafe _ _ _ _ _ _ _ _ _ hc hs]
        exact ⟨_, rfl⟩
      | true =>
        by_cases hneg : r.vMax * r.vMin < 0
        · rw [isPassWorstCaseLoop_straddle _ _ _ _ _ _ _ _ _ hc hs hneg]
          exact ⟨_, rfl⟩
        · have hge1 : nd + ({ car with polynomial := q } : SafeCar K).dt
              * ({ car with polynomial := q } : SafeCar K).omega
              ≥ ({ car with polynomial := q } : SafeCar K).maxDelta := hge
          rw [isPassWorstCaseLoop_continue _ _ _ _ _ _ _ _ hc hs hneg, if_pos hge1, es]
          exact hlast _ 0 _ _
  | succ m ih =>
    intro q minV nd hm
    have hfuel : m + 1 + 2 = (m + 2) + 1 := rfl
    rw [hfuel]
    cases hc : makeVeloBoundNextStep tan { car with polynomial := q } minV nd defaultTolerance
        nf with
    | none =>
      exact absurd ((makeVeloBoundNextStep_poly tan car q minV nd _ nf).symm.trans hc)
        (hret minV nd)
    | some y =>
      obtain ⟨r, s1⟩ := y
      obtain ⟨hs1, -⟩ := makeVeloBoundNextStep_cases tan _ minV nd defaultTolerance nf r s1 hc
      have es : s1 = { car with polynomial := stepPolynomial tan car minV nd } := by
        rw [hs1]; rfl
      cases hs : r.isSafe with
      | false =>
        rw [isPassWorstCaseLoop_notSafe _ _ _ _ _ _ _ _ _ hc hs]
        exact ⟨_, rfl⟩
      | true =>
        by_cases hneg : r.vMax * r.vMin < 0
        · rw [isPassWorstCaseLoop_straddle _ _ _ _ _ _ _ _ _ hc hs hneg]
          exact ⟨_, rfl⟩
        · rw [isPassWorstCaseLoop_continue _ _ _ _ _ _ _ _ hc hs hneg]
          by_cases hge : nd + car.dt * car.omega ≥ car.maxDelta
          · have hge1 : nd + ({ car with polynomial := q } : SafeCar K).dt
                * ({ car with polynomial := q } : SafeCar K).omega
                ≥ ({ car with polynomial := q } : SafeCar K).maxDelta := hge
            rw [if_pos hge1, es]
            exact hlast _ (m + 1) _ _
          · have hge1 : ¬ nd + ({ car with polynomial := q } : SafeCar K).dt
                * ({ car with polynomial := q } : SafeCar K).omega
                ≥ ({ car with polynomial := q } : SafeCar K).maxDelta := hge
            rw [if_neg hge1, es]
            apply ih
            have : nd + ((m + 1 : ℕ) + 1 : K) * (car.dt * car.omega)
                = nd + car.dt * car.omega + ((m : K) + 1) * (car.dt * car.omega) := by
              push_cast; ring
            rw [← this]; exact hm

/-- Two returning runs of the worst-case simulation agree, whatever their loop budgets. -/
theorem isPassWorstCase_fuel_det (tan : K → K) (self : SafeCar K) (v d : K) (nf k j : Nat)
    (x y : Bool × SafeCar K) (hx : isPassWorstCase tan self v d nf k = some x)
    (hy : isPassWorstCase tan self v d nf j = some y) : y = x := by
  have h1 := isPassWorstCaseLoop_fuel_mono tan nf k j self v |d| false x hx
  have h2 := isPassWorstCaseLoop_fuel_mono tan nf j k self v |d| false y hy
  rw [Nat.add_comm] at h2
  rw [h1] at h2
  exact (Option.some.inj h2).symm

/-- C10, amended: over exact real arithmetic, on an instance with `omega, dt > 0` on which
every call of `makeVeloBoundNextStep` with the default tolerance returns,
`isPassWorstCase(currentVelocity, nextDelta)` returns, and it does so within
`max(1, ⌈(maxDelta − |nextDelta|)/(dt·omega)⌉) + 1` loop iterations (calls to
`makeVeloBoundNextStep`); when `|nextDelta| < maxDelta` that is the
`⌈(maxDelta − |nextDelta|)/(dt·omega)⌉ + 1` of the claim. Every other budget with which the
call returns gives the same result. -/
theorem isPassWorstCase_iterations (self : SafeCar ℝ) (currentVelocity nextDelta : ℝ)
    (nfuel : Nat) (homega : 0 < self.omega) (hdt : 0 < self.dt)
    (hcalls : ∀ v d, makeVeloBoundNextStep Real.tan self v d defaultTolerance nfuel ≠ none) :
    (∃ x, isPassWorstCase Real.tan self currentVelocity nextDelta nfuel
        (max 1 ⌈(self.maxDelta - |nextDelta|) / (self.dt * self.omega)⌉₊ + 1) = some x ∧
      ∀ pfuel y, isPassWorstCase Real.tan self currentVelocity nextDelta nfuel pfuel = some y →
        y = x) ∧
    (|nextDelta| < self.maxDelta →
      ∃ x, isPassWorstCase Real.tan self currentVelocity nextDelta nfuel
        (⌈(self.maxDelta - |nextDelta|) / (self.dt * self.omega)⌉₊ + 1) = some x) := by
  have hinc : 0 < self.dt * self.omega := mul_pos hdt homega
  have key : ∃ x, isPassWorstCase Real.tan self currentVelocity nextDelta nfuel
      (max 1 ⌈(self.maxDelta - |nextDelta|) / (self.dt * self.omega)⌉₊ + 1) = some x := by
    obtain ⟨m, hm⟩ : ∃ m, max 1 ⌈(self.maxDelta - |nextDelta|) / (self.dt * self.omega)⌉₊
        = m + 1 := ⟨_, (Nat.succ_pred_eq_of_pos (lt_of_lt_of_le Nat.one_pos
          (le_max_left _ _))).symm⟩
    rw [hm]
    have hceil : (self.maxDelta - |nextDelta|) / (self.dt * self.omega) ≤ ((m + 1 : ℕ) : ℝ) := by
      rw [← hm]
      exact le_trans (Nat.le_ceil _) (by exact_mod_cast le_max_right _ _)
    rw [div_le_iff₀ hinc] at hceil
    push_cast at hceil
    exact isPassWorstCaseLoop_total Real.tan nfuel self hcalls m self.polynomial currentVelocity
      |nextDelta| (by linarith)
  refine ⟨?_, fun hlt => ?_⟩
  · obtain ⟨x, hx⟩ := key
    exact ⟨x, hx, fun pfuel y hy =>
      isPassWorstCase_fuel_det Real.tan self currentVelocity nextDelta nfuel _ pfuel x y hx hy⟩
  · have hpos : 0 < (self.maxDelta - |nextDelta|) / (self.dt * self.omega) :=
      div_pos (by linarith) hinc
    have h1 : 1 ≤ ⌈(self.maxDelta - |nextDelta|) / (self.dt * self.omega)⌉₊ :=
      Nat.one_le_iff_ne_zero.mpr (by
        intro h0
        rw [Nat.ceil_eq_zero] at h0
        linarith)
    rw [max_eq_right h1] at key
    exact key

/-- On the default instance a Newton budget of `10⁹` iterations makes every single-step bound
computation with the default tolerance return. -/
theorem defaultCar_calls_return (v d : ℝ) :
    makeVeloBoundNextStep Real.tan (defaultCar Real.tan) v d defaultTolerance 1000000000
      ≠ none := by
  obtain ⟨r, hr⟩ := makeVeloBoundNextStep_returns Real.tan (defaultCar Real.tan) v d
    defaultTolerance 1000000000 (defaultCar_dt_pos _) (defaultCar_L_pos _) (defaultCar_c_pos _)
    (by rw [defaultCar_searchRange, defaultTolerance]; norm_num)
  rw [hr]; simp

theorem isPassWorstCase_iterations_witness :
    ∃ x, isPassWorstCase Real.tan (defaultCar Real.tan) 1 (1 / 2) 1000000000
      (max 1 ⌈((defaultCar Real.tan).maxDelta - |(1 / 2 : ℝ)|)
        / ((defaultCar Real.tan).dt * (defaultCar Real.tan).omega)⌉₊ + 1) = some x := by
  obtain ⟨x, hx, -⟩ := (isPassWorstCase_iterations (defaultCar Real.tan) 1 (1 / 2) 1000000000
    (defaultCar_omega_pos _) (defaultCar_dt_pos _) defaultCar_calls_return).1
  exact ⟨x, hx⟩

end SafeCar

namespace SafeCar

variable {K : Type} [LinearOrderedField K]

/-! ## The instance state across calls -/

/-- The refinement walk changes nothing but the scratch polynomial, and what it returns
passes the worst-case simulation. -/
theorem worstCaseWalk_state (tan : K → K) (nf pf : Nat) (base : veloBound K) (d tol : K)
    (car : SafeCar K) (k : Nat) :
    ∀ (q : Polynomial K) (w mid : K) (r : veloBound K) (s1 : SafeCar K),
      worstCaseWalk tan nf pf base d tol k { car with polynomial := q } w mid = some (r, s1) →
      (∃ q1, s1 = { car with polynomial := q1 }) ∧
        isPassWorstCaseResult tan car r.vMax d nf pf = some true := by
  induction k with
  | zero => intro q w mid r s1 h; simp [worstCaseWalk] at h
  | succ k ih =>
    intro q w mid r s1 h
    simp only [worstCaseWalk] at h
    cases hc : isPassWorstCase tan { car with polynomial := q } mid d nf pf with
    | none => rw [hc] at h; simp at h
    | some x =>
      obtain ⟨b, s2⟩ := x
      rw [hc] at h
      obtain ⟨hres, q2, hq2⟩ := isPassWorstCase_result_of tan car q mid d nf pf b s2 hc
      cases b with
      | true =>
        simp only [if_true] at h
        by_cases ht : w < tol
        · rw [if_pos ht] at h
          simp only [Option.some.injEq, Prod.mk.injEq] at h
          rw [← h.1, ← h.2]
          exact ⟨⟨q2, hq2⟩, hres⟩
        · rw [if_neg ht, hq2] at h
          exact ih q2 _ _ r s1 h
      | false =>
        simp only [Bool.false_eq_true, if_false] at h
        rw [hq2] at h
        exact ih q2 _ _ r s1 h

/-- The worst-case bound changes nothing but the scratch polynomial. -/
theorem makeVeloBoundWithWorstCase_state (tan : K → K) (self : SafeCar K) (cv d tol : K)
    (nf pf wf : Nat) (r : veloBound K) (s : SafeCar K)
    (h : makeVeloBoundWithWorstCase tan self cv d tol nf pf wf = some (r, s)) :
    ∃ q, s = { self with polynomial := q } := by
  obtain ⟨base, s1, hb, hcase⟩ := makeVeloBoundWithWorstCase_cases tan self cv d tol nf pf wf r s h
  obtain ⟨hs1, -⟩ := makeVeloBoundNextStep_cases tan self cv d tol nf base s1 hb
  rcases hcase with ⟨-, -, hs⟩ | ⟨-, passMax, s2, hmax, hcase⟩
  · exact ⟨_, by rw [hs, hs1]; rfl⟩
  · rw [hs1] at hmax
    obtain ⟨-, q2, hq2⟩ := isPassWorstCase_result_of tan self _ _ d nf pf _ _ hmax
    rcases hcase with ⟨-, -, hs⟩ | ⟨-, passMin, s3, hmin, hcase⟩
    · exact ⟨q2, by rw [hs, hq2]⟩
    · rw [hq2] at hmin
      obtain ⟨-, q3, hq3⟩ := isPassWorstCase_result_of tan self _ _ d nf pf _ _ hmin
      rcases hcase with ⟨-, -, hs⟩ | ⟨-, hw⟩
      · exact ⟨q3, by rw [hs, hq3]⟩
      · rw [hq3] at hw
        exact (worstCaseWalk_state tan nf pf base d tol self wf q3 _ _ r s hw).1

/-- Every public call changes nothing but the scratch polynomial. -/
theorem Call.run_state (tan : K → K) (self : SafeCar K) (call : Call K) (s : SafeCar K)
    (h : call.run tan self = some s) : ∃ q, s = { self with polynomial := q } := by
  cases call with
  | nextStep cv d tol nf =>
    simp only [Call.run] at h
    cases hc : makeVeloBoundNextStep tan self cv d tol nf with
    | none => rw [hc] at h; simp at h
    | some x =>
      obtain ⟨r, s1⟩ := x
      rw [hc] at h
      simp only [Option.map_some', Option.some.injEq] at h
      obtain ⟨hs1, -⟩ := makeVeloBoundNextStep_cases tan self cv d tol nf r s1 hc
      exact ⟨_, by rw [← h, hs1]; rfl⟩
  | passWorstCase v d nf pf =>
    simp only [Call.run] at h
    cases hc : isPassWorstCase tan self v d nf pf with
    | none => rw [hc] at h; simp at h
    | some x =>
      obtain ⟨b, s1⟩ := x
      rw [hc] at h
      simp only [Option.map_some', Option.some.injEq] at h
      obtain ⟨-, q, hq⟩ := isPassWorstCase_result tan self v d nf pf b s1 hc
      exact ⟨q, by rw [← h, hq]⟩
  | withWorstCase cv d tol nf pf wf =>
    simp only [Call.run] at h
    cases hc : makeVeloBoundWithWorstCase tan self cv d tol nf pf wf with
    | none => rw [hc] at h; simp at h
    | some x =>
      obtain ⟨r, s1⟩ := x
      rw [hc] at h
      simp only [Option.map_some', Option.some.injEq] at h
      obtain ⟨q, hq⟩ := makeVeloBoundWithWorstCase_state tan self cv d tol nf pf wf r s1 hc
      exact ⟨q, by rw [← h, hq]⟩

/-- Every sequence of public calls changes nothing but the scratch polynomial. -/
theorem runCalls_state (tan : K → K) (calls : List (Call K)) :
    ∀ (self s : SafeCar K), runCalls tan calls self = some s →
      ∃ q, s = { self with polynomial := q } := by
  induction calls with
  | nil =>
    intro self s h
    simp only [runCalls, Option.some.injEq] at h
    exact ⟨self.polynomial, by rw [← h]⟩
  | cons call calls ih =>
    intro self s h
    simp only [runCalls] at h
    cases hc : call.run tan self with
    | none => rw [hc] at h; simp at h
    | some s1 =>
      rw [hc] at h
      obtain ⟨q1, hq1⟩ := Call.run_state tan self call s1 hc
      obtain ⟨q, hq⟩ := ih s1 s h
      exact ⟨q, by rw [hq, hq1]⟩

/-- C11: the result of `makeVeloBoundNextStep(currentVelocity, nextDelta, tolerance)` does not
depend on the stored polynomial coefficients: from two instance states that differ only in
them the call computes the same (and leaves the same instance behind); hence a second call
with the same arguments, after any sequence of calls of the three public member functions in
between, returns what the first call returned. -/
theorem makeVeloBoundNextStep_state_independent (self : SafeCar ℝ) (q : Polynomial ℝ)
    (currentVelocity nextDelta tolerance : ℝ) (nfuel : Nat) :
    makeVeloBoundNextStep Real.tan { self with polynomial := q } currentVelocity nextDelta
        tolerance nfuel
      = makeVeloBoundNextStep Real.tan self currentVelocity nextDelta tolerance nfuel ∧
    ∀ (calls : List (Call ℝ)) (result : veloBound ℝ) (self1 self2 : SafeCar ℝ),
      makeVeloBoundNextStep Real.tan self currentVelocity nextDelta tolerance nfuel
        = some (result, self1) →
      runCalls Real.tan calls self1 = some self2 →
      makeVeloBoundNextStep Real.tan self2 currentVelocity nextDelta tolerance nfuel
        = some (result, self1) := by
  refine ⟨rfl, ?_⟩
  intro calls result self1 self2 h1 hrun
  obtain ⟨hs1, -⟩ := makeVeloBoundNextStep_cases _ _ _ _ _ _ _ _ h1
  obtain ⟨q2, hq2⟩ := runCalls_state Real.tan calls self1 self2 hrun
  subst hs1
  rw [hq2]
  exact (makeVeloBoundNextStep_poly Real.tan _ q2 _ _ _ _).trans
    ((makeVeloBoundNextStep_afterStep Real.tan self _ _ _ _ _ _).trans h1)

theorem makeVeloBoundNextStep_state_independent_witness :
    makeVeloBoundNextStep Real.tan (afterStep Real.tan (defaultCar Real.tan) 3 (15 / 10)) 0 0
        defaultTolerance 1
      = some ({ isSafe := true, vMax := 0 + 8 / 13, vMin := 0 - 8 / 13 },
          afterStep Real.tan (defaultCar Real.tan) 0 0) :=
  (makeVeloBoundNextStep_state_independent (defaultCar Real.tan)
      (defaultCar Real.tan).polynomial 0 0 defaultTolerance 1).2
    [Call.nextStep 3 (15 / 10) defaultTolerance 0] _ _ _ (defaultCar_zero_steer 0 0)
    (by
      simp only [runCalls, Call.run]
      rw [makeVeloBoundNextStep_afterStep,
        makeVeloBoundNextStep_danger Real.tan (defaultCar Real.tan) 3 (15 / 10)
          defaultTolerance 0
          (Or.inr (by rw [defaultCar_maxDelta]; norm_num [abs_of_pos]))]
      rfl)

/-- C12: `getValue(v) = a4·v⁴ + a2·v² + a1·v + a0`,
`getDerivativeValue(v) = 4·a4·v³ + 2·a2·v + a1`, and `getDerivativeValue(v)` is the
derivative of `getValue` at `v`. -/
theorem getDerivativeValue_is_derivative (p : Polynomial ℝ) (v : ℝ) :
    p.getValue v = p.a4 * v ^ 4 + p.a2 * v ^ 2 + p.a1 * v + p.a0 ∧
      p.getDerivativeValue v = 4 * p.a4 * v ^ 3 + 2 * p.a2 * v + p.a1 ∧
      HasDerivAt (fun x => p.getValue x) (p.getDerivativeValue v) v := by
  refine ⟨p.getValue_eq v, p.getDerivativeValue_eq v, ?_⟩
  have h := ((((hasDerivAt_id v).pow 4).const_mul p.a4).add
    (((hasDerivAt_id v).pow 2).const_mul p.a2)).add ((hasDerivAt_id v).const_mul p.a1)
  have h2 := h.add_const p.a0
  have e1 : (fun x => p.getValue x)
      = fun x => p.a4 * id x ^ 4 + p.a2 * id x ^ 2 + p.a1 * id x + p.a0 := by
    funext x; rw [p.getValue_eq]; rfl
  have e2 : p.getDerivativeValue v
      = p.a4 * (((4 : ℕ) : ℝ) * id v ^ (4 - 1) * 1) + p.a2 * (((2 : ℕ) : ℝ) * id v ^ (2 - 1) * 1)
        + p.a1 * 1 := by
    rw [p.getDerivativeValue_eq]; simp only [id]; push_cast; ring
  rw [e1, e2]
  exact h2

/-- A safe result of the worst-case bound has an upper end that passes the worst-case
simulation. -/
theorem makeVeloBoundWithWorstCase_safe_passes (tan : K → K) (self : SafeCar K) (cv d tol : K)
    (nf pf wf : Nat) (r : veloBound K) (s : SafeCar K)
    (h : makeVeloBoundWithWorstCase tan self cv d tol nf pf wf = some (r, s))
    (hs : r.isSafe = true) :
    isPassWorstCaseResult tan self r.vMax d nf pf = some true := by
  obtain ⟨base, s1, hb, hcase⟩ := makeVeloBoundWithWorstCase_cases tan self cv d tol nf pf wf r s h
  obtain ⟨hs1, -⟩ := makeVeloBoundNextStep_cases tan self cv d tol nf base s1 hb
  rcases hcase with ⟨hbs, hr, -⟩ | ⟨-, passMax, s2, hmax, hcase⟩
  · rw [hr, hbs] at hs; exact absurd hs (by simp)
  · rw [hs1] at hmax
    obtain ⟨hpmax, q2, hq2⟩ := isPassWorstCase_result_of tan self _ _ d nf pf _ _ hmax
    rcases hcase with ⟨hp, hr, -⟩ | ⟨-, passMin, s3, hmin, hcase⟩
    · rw [hr, ← hp]; exact hpmax
    · rw [hq2] at hmin
      obtain ⟨-, q3, hq3⟩ := isPassWorstCase_result_of tan self _ _ d nf pf _ _ hmin
      rcases hcase with ⟨-, hr, -⟩ | ⟨-, hw⟩
      · rw [hr] at hs; exact absurd hs (by simp [dangerBound])
      · rw [hq3] at hw
        exact (worstCaseWalk_state tan nf pf base d tol self wf q3 _ _ r s hw).2

/-- C13: whenever `makeVeloBoundWithWorstCase(currentVelocity, nextDelta, tolerance)` returns
a result with `isSafe = true`, `isPassWorstCase(result.vMax, nextDelta)`, called next on the
same instance, returns `true`. -/
theorem makeVeloBoundWithWorstCase_vMax_passes (self : SafeCar ℝ)
    (currentVelocity nextDelta tolerance : ℝ) (nfuel pfuel wfuel : Nat)
    (result : veloBound ℝ) (self1 : SafeCar ℝ)
    (h : makeVeloBoundWithWorstCase Real.tan self currentVelocity nextDelta tolerance nfuel
      pfuel wfuel = some (result, self1))
    (hs : result.isSafe = true) :
    ∃ self2, isPassWorstCase Real.tan self1 result.vMax nextDelta nfuel pfuel
      = some (true, self2) := by
  have hp := makeVeloBoundWithWorstCase_safe_passes Real.tan self currentVelocity nextDelta
    tolerance nfuel pfuel wfuel result self1 h hs
  obtain ⟨q, hq⟩ := makeVeloBoundWithWorstCase_state Real.tan self currentVelocity nextDelta
    tolerance nfuel pfuel wfuel result self1 h
  obtain ⟨q1, h1⟩ := isPassWorstCase_of_result Real.tan self result.vMax nextDelta nfuel pfuel
    true hp q
  exact ⟨_, by rw [hq]; exact h1⟩

theorem makeVeloBoundWithWorstCase_vMax_passes_witness :
    ∃ s s2, makeVeloBoundWithWorstCase Real.tan (defaultCar Real.tan) 0 0 defaultTolerance
        1000000000 2 0 = some ({ isSafe := true, vMax := 0 + 8 / 13, vMin := 0 - 8 / 13 }, s) ∧
      isPassWorstCase Real.tan s (0 + 8 / 13) 0 1000000000 2 = some (true, s2) := by
  obtain ⟨s, hs⟩ := defaultCar_worstCase_zero
  obtain ⟨s2, h2⟩ := makeVeloBoundWithWorstCase_vMax_passes (defaultCar Real.tan) 0 0
    defaultTolerance 1000000000 2 0 _ s hs rfl
  exact ⟨s, s2, hs, h2⟩

/-! ## The Newton searches and the constraint set -/

/-- Strict convexity: between two points of the set `P ≤ 0` the polynomial is negative. -/
theorem Polynomial.neg_between (p : Polynomial K) (h4 : 0 ≤ p.a4) (h2 : 0 < p.a2) {x y z : K}
    (hxy : x < y) (hyz : y < z) (hx : p.getValue x ≤ 0) (hz : p.getValue z ≤ 0) :
    p.getValue y < 0 := by
  by_contra hy
  push_neg at hy
  have t1 := p.tangent_lt h4 h2 (ne_of_lt hxy)
  have t2 := p.tangent_lt h4 h2 (ne_of_gt hyz)
  rcases le_or_lt (p.getDerivativeValue y) 0 with hd | hd
  · have : 0 ≤ p.getDerivativeValue y * (x - y) :=
      mul_nonneg_of_nonpos_of_nonpos hd (by linarith)
    linarith
  · have : 0 < p.getDerivativeValue y * (z - y) := mul_pos hd (by linarith)
    linarith

/-- The set `P ≤ 0` of the step polynomial lies within every safe single-step bound. -/
theorem makeVeloBoundNextStep_encloses (tan : K → K) (self : SafeCar K) (cv d tol : K)
    (n : Nat) (hdt : 0 < self.dt) (hL : 0 < self.L) (hc : 0 < self.c)
    (r : veloBound K) (self1 : SafeCar K)
    (h : makeVeloBoundNextStep tan self cv d tol n = some (r, self1))
    (hs : r.isSafe = true) (v : K) (hv : (stepPolynomial tan self cv d).getValue v ≤ 0) :
    r.vMin ≤ v ∧ v ≤ r.vMax := by
  obtain ⟨-, hcase⟩ := makeVeloBoundNextStep_cases tan self cv d tol n r self1 h
  have hb := makeVeloBoundNextStep_safe_bounds tan self cv d tol n hdt hL hc r self1 h hs
  have h4 := stepPolynomial_a4_nonneg tan self cv d
  have h2 := stepPolynomial_a2_pos tan self cv d (ne_of_gt hdt)
  have hcv : (stepPolynomial tan self cv d).getValue cv ≤ 0 := by
    rcases hcase with ⟨-, hr⟩ | ⟨hcond, -⟩
    · rw [hr] at hs; simp [dangerBound] at hs
    · push_neg at hcond; exact hcond.1
  constructor
  · by_contra hlt
    push_neg at hlt
    have := Polynomial.neg_between _ h4 h2 hlt hb.2.1.2 hv hcv
    linarith [hb.2.2.2]
  · by_contra hlt
    push_neg at hlt
    have := Polynomial.neg_between _ h4 h2 hb.1.1 hlt hcv hv
    linarith [hb.2.2.1]

/-- C15: on an instance with `dt, L, c > 0`, a safe result of
`makeVeloBoundNextStep(currentVelocity, nextDelta, tolerance)` has `P(vMax) ≥ 0` and
`P(vMin) ≥ 0` for the constraint polynomial `P` of `(currentVelocity, nextDelta)`, and the
interval `[vMin, vMax]` contains every `v` with `P(v) ≤ 0` (among them `currentVelocity`):
it encloses the exact constraint set and is never strictly inside it. -/
theorem makeVeloBoundNextStep_encloses_constraint_set (self : SafeCar ℝ)
    (currentVelocity nextDelta tolerance : ℝ) (nfuel : Nat)
    (hdt : 0 < self.dt) (hL : 0 < self.L) (hc : 0 < self.c)
    (result : veloBound ℝ) (self1 : SafeCar ℝ)
    (h : makeVeloBoundNextStep Real.tan self currentVelocity nextDelta tolerance nfuel
      = some (result, self1))
    (hs : result.isSafe = true) :
    0 ≤ (stepPolynomial Real.tan self currentVelocity nextDelta).getValue result.vMax ∧
      0 ≤ (stepPolynomial Real.tan self currentVelocity nextDelta).getValue result.vMin ∧
      (stepPolynomial Real.tan self currentVelocity nextDelta).getValue currentVelocity ≤ 0 ∧
      ∀ v, (stepPolynomial Real.tan self currentVelocity nextDelta).getValue v ≤ 0 →
        result.vMin ≤ v ∧ v ≤ result.vMax := by
  have hb := makeVeloBoundNextStep_safe_bounds Real.tan self currentVelocity nextDelta tolerance
    nfuel hdt hL hc result self1 h hs
  obtain ⟨-, hcase⟩ := makeVeloBoundNextStep_cases _ _ _ _ _ _ _ _ h
  refine ⟨hb.2.2.1, hb.2.2.2, ?_, fun v hv =>
    makeVeloBoundNextStep_encloses Real.tan self currentVelocity nextDelta tolerance nfuel hdt hL
      hc result self1 h hs v hv⟩
  rcases hcase with ⟨-, hr⟩ | ⟨hcond, -⟩
  · rw [hr] at hs; simp [dangerBound] at hs
  · push_neg at hcond; exact hcond.1

theorem makeVeloBoundNextStep_encloses_constraint_set_witness :
    makeVeloBoundNextStep Real.tan (defaultCar Real.tan) 0 0 defaultTolerance 1
        = some ({ isSafe := true, vMax := 0 + 8 / 13, vMin := 0 - 8 / 13 },
            afterStep Real.tan (defaultCar Real.tan) 0 0) ∧
      (0 ≤ (stepPolynomial Real.tan (defaultCar Real.tan) 0 0).getValue (0 + 8 / 13) ∧
        0 ≤ (stepPolynomial Real.tan (defaultCar Real.tan) 0 0).getValue (0 - 8 / 13) ∧
        (stepPolynomial Real.tan (defaultCar Real.tan) 0 0).getValue 0 ≤ 0 ∧
        ∀ v, (stepPolynomial Real.tan (defaultCar Real.tan) 0 0).getValue v ≤ 0 →
          (0 - 8 / 13 : ℝ) ≤ v ∧ v ≤ 0 + 8 / 13) :=
  ⟨defaultCar_zero_steer 0 0,
    makeVeloBoundNextStep_encloses_constraint_set (defaultCar Real.tan) 0 0 defaultTolerance 1
      (defaultCar_dt_pos _) (defaultCar_L_pos _) (defaultCar_c_pos _)
      { isSafe := true, vMax := 0 + 8 / 13, vMin := 0 - 8 / 13 }
      (afterStep Real.tan (defaultCar Real.tan) 0 0) (defaultCar_zero_steer 0 0) rfl⟩

/-! ## The iterates of the Newton loops -/

theorem newtonIter_shift (p : Polynomial K) (v : K) (n : Nat) :
    newtonIter p (newtonNext p v) n = newtonIter p v (n + 1) := by
  induction n with
  | zero => rfl
  | succ n ih => simp only [newtonIter, ih]

/-- A returned value of the Newton loop is the iterate after the first step shorter than the
tolerance. -/
theorem newtonLoop_eq_iter (p : Polynomial K) (tol : K) (n : Nat) (v r : K)
    (h : newtonLoop p tol n v = some r) :
    ∃ k, k < n ∧ r = newtonIter p v (k + 1) ∧
      |newtonIter p v (k + 1) - newtonIter p v k| < tol ∧
      ∀ j, j < k → ¬ |newtonIter p v (j + 1) - newtonIter p v j| < tol := by
  induction n generalizing v with
  | zero => simp [newtonLoop] at h
  | succ n ih =>
    simp only [newtonLoop] at h
    by_cases hd : p.getDerivativeValue v = 0
    · rw [if_pos hd] at h; exact absurd h (by simp)
    · rw [if_neg hd] at h
      by_cases ht : |v - p.getValue v / p.getDerivativeValue v - v| < tol
      · rw [if_pos ht] at h
        refine ⟨0, Nat.succ_pos n, (Option.some.inj h).symm, ht, ?_⟩
        intro j hj; exact absurd hj (Nat.not_lt_zero j)
      · rw [if_neg ht] at h
        obtain ⟨k, hkn, hr, hk, hlt⟩ := ih _ h
        have e : v - p.getValue v / p.getDerivativeValue v = newtonNext p v := rfl
        rw [e] at hr hk hlt ht
        refine ⟨k + 1, Nat.succ_lt_succ hkn, ?_, ?_, ?_⟩
        · rw [hr, newtonIter_shift]
        · rw [newtonIter_shift, newtonIter_shift] at hk; exact hk
        · intro j hj
          cases j with
          | zero => exact ht
          | succ j =>
            have := hlt j (Nat.lt_of_succ_lt_succ hj)
            rw [newtonIter_shift, newtonIter_shift] at this
            exact this

/-- A Newton loop whose iterates all have a non-zero derivative fails to return only by
exhausting its budget: none of the steps it made was shorter than the tolerance. -/
theorem newtonLoop_none_iter (p : Polynomial K) (tol : K) (n : Nat) (v : K)
    (hne : ∀ k, p.getDerivativeValue (newtonIter p v k) ≠ 0)
    (h : newtonLoop p tol n v = none) :
    ∀ k, k < n → ¬ |newtonIter p v (k + 1) - newtonIter p v k| < tol := by
  induction n generalizing v with
  | zero => intro k hk; exact absurd hk (Nat.not_lt_zero k)
  | succ n ih =>
    simp only [newtonLoop] at h
    have hd : p.getDerivativeValue v ≠ 0 := hne 0
    rw [if_neg hd] at h
    by_cases ht : |v - p.getValue v / p.getDerivativeValue v - v| < tol
    · rw [if_pos ht] at h; exact absurd h (by simp)
    · rw [if_neg ht] at h
      have hne1 : ∀ k, p.getDerivativeValue (newtonIter p (newtonNext p v) k) ≠ 0 := by
        intro k; rw [newtonIter_shift]; exact hne (k + 1)
      have hrec := ih (newtonNext p v) hne1 h
      intro k hk
      cases k with
      | zero => exact ht
      | succ k =>
        have := hrec k (Nat.lt_of_succ_lt_succ hk)
        rw [newtonIter_shift, newtonIter_shift] at this
        exact this

/-- The iterates of the mirrored polynomial from `-v` are the mirror images of the iterates
from `v`. -/
theorem newtonIter_mirror (p : Polynomial K) (v : K) (n : Nat) :
    newtonIter p.mirror (-v) n = -newtonIter p v n := by
  induction n with
  | zero => rfl
  | succ n ih =>
    simp only [newtonIter, ih, newtonNext, Polynomial.mirror_getValue,
      Polynomial.mirror_getDerivativeValue]
    rw [div_neg]; ring

/-- Upper Newton search: every iterate lies right of `cv`, has a nonnegative value and a
positive derivative, and is followed by an iterate that is not larger. -/
theorem newtonIter_upper (p : Polynomial K) (h4 : 0 ≤ p.a4) (h2 : 0 < p.a2) (cv x : K)
    (hcv : p.getValue cv ≤ 0) (hx : cv < x) (hPx : 0 ≤ p.getValue x) (k : Nat) :
    cv < newtonIter p x k ∧ 0 ≤ p.getValue (newtonIter p x k) ∧
      0 < p.getDerivativeValue (newtonIter p x k) ∧
      newtonIter p x (k + 1) ≤ newtonIter p x k := by
  induction k with
  | zero =>
    obtain ⟨hd, -, hhi, -⟩ := newton_step_upper p h4 h2 hcv hx hPx
    exact ⟨hx, hPx, hd, hhi⟩
  | succ k ih =>
    obtain ⟨hlo, hP, -, -⟩ := ih
    obtain ⟨-, hlo1, -, hP1⟩ := newton_step_upper p h4 h2 hcv hlo hP
    have e : newtonIter p x (k + 1)
        = newtonIter p x k - p.getValue (newtonIter p x k)
          / p.getDerivativeValue (newtonIter p x k) := rfl
    rw [← e] at hlo1 hP1
    obtain ⟨hd2, -, hhi2, -⟩ := newton_step_upper p h4 h2 hcv hlo1 hP1
    exact ⟨hlo1, hP1, hd2, hhi2⟩

/-- Lower Newton search: every iterate lies left of `cv`, has a nonnegative value and a
negative derivative, and is followed by an iterate that is not smaller. -/
theorem newtonIter_lower (p : Polynomial K) (h4 : 0 ≤ p.a4) (h2 : 0 < p.a2) (cv x : K)
    (hcv : p.getValue cv ≤ 0) (hx : x < cv) (hPx : 0 ≤ p.getValue x) (k : Nat) :
    newtonIter p x k < cv ∧ 0 ≤ p.getValue (newtonIter p x k) ∧
      p.getDerivativeValue (newtonIter p x k) < 0 ∧
      newtonIter p x k ≤ newtonIter p x (k + 1) := by
  have h := newtonIter_upper p.mirror h4 h2 (-cv) (-x)
    (by rw [Polynomial.mirror_getValue]; exact hcv) (by linarith)
    (by rw [Polynomial.mirror_getValue]; exact hPx) k
  rw [newtonIter_mirror, newtonIter_mirror, Polynomial.mirror_getValue,
    Polynomial.mirror_getDerivativeValue] at h
  exact ⟨by linarith [h.1], h.2.1, by linarith [h.2.2.1], by linarith [h.2.2.2]⟩

/-- The facts about the step polynomial and its two Newton seeds that the searches rest on,
on an instance with `dt, L, c > 0` at a velocity that passes the safety check. -/
theorem stepPolynomial_seeds (tan : K → K) (self : SafeCar K) (cv d : K)
    (hdt : 0 < self.dt) (hL : 0 < self.L) (hc : 0 < self.c) :
    0 ≤ (stepPolynomial tan self cv d).a4 ∧ 0 < (stepPolynomial tan self cv d).a2 ∧
      cv < cv + searchRange self ∧ cv - searchRange self < cv ∧
      0 ≤ (stepPolynomial tan self cv d).getValue (cv + searchRange self) ∧
      0 ≤ (stepPolynomial tan self cv d).getValue (cv - searchRange self) := by
  have hseed := stepPolynomial_getValue_seed tan self cv d (ne_of_gt hdt) (ne_of_gt hL)
  have hsr := searchRange_pos self hdt hL hc
  have h4 := stepPolynomial_a4_nonneg tan self cv d
  refine ⟨h4, stepPolynomial_a2_pos tan self cv d (ne_of_gt hdt), by linarith, by linarith,
    ?_, ?_⟩
  · rw [hseed.1]; positivity
  · rw [hseed.2]; positivity

/-- With positive `dt`, `L`, `c`, a velocity that passes the safety check and a Newton budget
`n` with `searchRange < n * tol`, both Newton loops return and the single-step bound is the
safe pair of their results. -/
theorem makeVeloBoundNextStep_returns_safe (tan : K → K) (self : SafeCar K) (cv d tol : K)
    (n : Nat) (hdt : 0 < self.dt) (hL : 0 < self.L) (hc : 0 < self.c)
    (hsafe : (stepPolynomial tan self cv d).getValue cv ≤ 0) (hd : |d| ≤ self.maxDelta)
    (hn : searchRange self < n * tol) :
    ∃ vMax vMin,
      newtonLoop (stepPolynomial tan self cv d) tol n (cv + searchRange self) = some vMax ∧
      newtonLoop (stepPolynomial tan self cv d) tol n (cv - searchRange self) = some vMin ∧
      makeVeloBoundNextStep tan self cv d tol n
        = some ({ isSafe := true, vMax := vMax, vMin := vMin }, afterStep tan self cv d) := by
  obtain ⟨h4, h2, hx1, hx2, hP1, hP2⟩ := stepPolynomial_seeds tan self cv d hdt hL hc
  obtain ⟨a, ha⟩ := newtonLoop_upper_returns _ h4 h2 tol cv hsafe n (cv + searchRange self)
    hx1 hP1 (by linarith)
  obtain ⟨b, hb⟩ := newtonLoop_lower_returns _ h4 h2 tol cv hsafe n (cv - searchRange self)
    hx2 hP2 (by linarith)
  refine ⟨a, b, ha, hb, ?_⟩
  have hcond : ¬ ((stepPolynomial tan self cv d).getValue cv > 0 ∨ |d| > self.maxDelta) := by
    rintro (h | h)
    · exact absurd h (not_lt.mpr hsafe)
    · exact absurd h (not_lt.mpr hd)
  rw [makeVeloBoundNextStep_eq, if_neg hcond, ha, hb]

/-- A real polynomial with `P(a) ≤ 0 ≤ P(b)` or `P(b) ≤ 0 ≤ P(a)` at `a ≤ b` has a root in
`[a, b]`. -/
theorem Polynomial.exists_root (p : Polynomial ℝ) (a b : ℝ) (hab : a ≤ b)
    (h : (p.getValue a ≤ 0 ∧ 0 ≤ p.getValue b) ∨ (p.getValue b ≤ 0 ∧ 0 ≤ p.getValue a)) :
    ∃ x, a ≤ x ∧ x ≤ b ∧ p.getValue x = 0 := by
  have hcont : Continuous (fun x => p.getValue x) := by
    have e : (fun x => p.getValue x) = fun x => p.a4 * x ^ 4 + p.a2 * x ^ 2 + p.a1 * x + p.a0 := by
      funext x; exact p.getValue_eq x
    rw [e]; fun_prop
  rcases h with ⟨h1, h2⟩ | ⟨h1, h2⟩
  · obtain ⟨x, hx, hx0⟩ := intermediate_value_Icc hab hcont.continuousOn ⟨h1, h2⟩
    exact ⟨x, hx.1, hx.2, hx0⟩
  · obtain ⟨x, hx, hx0⟩ := intermediate_value_Icc' hab hcont.continuousOn ⟨h1, h2⟩
    exact ⟨x, hx.1, hx.2, hx0⟩

/-- C16: on an instance with `dt, L, c > 0`, for every tolerance `> 0` and every
`currentVelocity`, `nextDelta` that pass the safety check, both Newton-Raphson loops of
`makeVeloBoundNextStep` terminate: there is a number `N` of iterations within which both
return, so that the call returns a safe bound. The `vMax` iterates are non-increasing and
not below any point of the set `P ≤ 0`, hence not below its upper root; the `vMin` iterates
are non-decreasing and not above any point of that set, hence not above its lower root. The
polynomial has a root on each side: one in `[currentVelocity, currentVelocity + searchRange]`
and one in `[currentVelocity - searchRange, currentVelocity]`. -/
theorem newton_loops_terminate (self : SafeCar ℝ) (currentVelocity nextDelta tolerance : ℝ)
    (hdt : 0 < self.dt) (hL : 0 < self.L) (hc : 0 < self.c) (htol : 0 < tolerance)
    (hsafe : (stepPolynomial Real.tan self currentVelocity nextDelta).getValue currentVelocity
      ≤ 0)
    (hd : |nextDelta| ≤ self.maxDelta) :
    (∃ N : Nat, ∀ n, N ≤ n → ∃ vMax vMin,
      newtonLoop (stepPolynomial Real.tan self currentVelocity nextDelta) tolerance n
        (currentVelocity + searchRange self) = some vMax ∧
      newtonLoop (stepPolynomial Real.tan self currentVelocity nextDelta) tolerance n
        (currentVelocity - searchRange self) = some vMin ∧
      makeVeloBoundNextStep Real.tan self currentVelocity nextDelta tolerance n
        = some ({ isSafe := true, vMax := vMax, vMin := vMin },
            afterStep Real.tan self currentVelocity nextDelta)) ∧
    (∀ k,
      newtonIter (stepPolynomial Real.tan self currentVelocity nextDelta)
          (currentVelocity + searchRange self) (k + 1)
        ≤ newtonIter (stepPolynomial Real.tan self currentVelocity nextDelta)
          (currentVelocity + searchRange self) k ∧
      ∀ v, (stepPolynomial Real.tan self currentVelocity nextDelta).getValue v ≤ 0 →
        v ≤ newtonIter (stepPolynomial Real.tan self currentVelocity nextDelta)
          (currentVelocity + searchRange self) k) ∧
    (∀ k,
      newtonIter (stepPolynomial Real.tan self currentVelocity nextDelta)
          (currentVelocity - searchRange self) k
        ≤ newtonIter (stepPolynomial Real.tan self currentVelocity nextDelta)
          (currentVelocity - searchRange self) (k + 1) ∧
      ∀ v, (stepPolynomial Real.tan self currentVelocity nextDelta).getValue v ≤ 0 →
        newtonIter (stepPolynomial Real.tan self currentVelocity nextDelta)
          (currentVelocity - searchRange self) k ≤ v) ∧
    (∃ root, currentVelocity ≤ root ∧ root ≤ currentVelocity + searchRange self ∧
      (stepPolynomial Real.tan self currentVelocity nextDelta).getValue root = 0) ∧
    (∃ root, currentVelocity - searchRange self ≤ root ∧ root ≤ currentVelocity ∧
      (stepPolynomial Real.tan self currentVelocity nextDelta).getValue root = 0) := by
  obtain ⟨h4, h2, hx1, hx2, hP1, hP2⟩ :=
    stepPolynomial_seeds Real.tan self currentVelocity nextDelta hdt hL hc
  refine ⟨?_, ?_, ?_, Polynomial.exists_root _ _ _ hx1.le (Or.inl ⟨hsafe, hP1⟩),
    Polynomial.exists_root _ _ _ hx2.le (Or.inr ⟨hsafe, hP2⟩)⟩
  · obtain ⟨N, hN⟩ := exists_nat_gt (searchRange self / tolerance)
    refine ⟨N, fun n hn => ?_⟩
    apply makeVeloBoundNextStep_returns_safe Real.tan self currentVelocity nextDelta tolerance n
      hdt hL hc hsafe hd
    rw [div_lt_iff₀ htol] at hN
    have hle : (N : ℝ) ≤ (n : ℝ) := by exact_mod_cast hn
    have := mul_le_mul_of_nonneg_right hle htol.le
    linarith
  · intro k
    obtain ⟨hlo, hP, -, hstep⟩ := newtonIter_upper _ h4 h2 currentVelocity _ hsafe hx1 hP1 k
    refine ⟨hstep, fun v hv => ?_⟩
    by_contra hlt
    push_neg at hlt
    have := Polynomial.neg_between _ h4 h2 hlo hlt hsafe hv
    linarith
  · intro k
    obtain ⟨hlo, hP, -, hstep⟩ := newtonIter_lower _ h4 h2 currentVelocity _ hsafe hx2 hP2 k
    refine ⟨hstep, fun v hv => ?_⟩
    by_contra hlt
    push_neg at hlt
    have := Polynomial.neg_between _ h4 h2 hlt hlo hv hsafe
    linarith

/-- C17: on an instance with `dt, L, c > 0`, for every `currentVelocity`, `nextDelta` that
pass the safety check, `getDerivativeValue` is strictly positive at every iterate of the
`vMax` search and strictly negative at every iterate of the `vMin` search, so that `f / dF`
never divides by zero: a Newton loop that has not returned within its budget has made every
iteration of the budget, each with a step not shorter than the tolerance. -/
theorem newton_derivative_nonzero (self : SafeCar ℝ) (currentVelocity nextDelta : ℝ)
    (hdt : 0 < self.dt) (hL : 0 < self.L) (hc : 0 < self.c)
    (hsafe : (stepPolynomial Real.tan self currentVelocity nextDelta).getValue currentVelocity
      ≤ 0) :
    (∀ k, 0 < (stepPolynomial Real.tan self currentVelocity nextDelta).getDerivativeValue
      (newtonIter (stepPolynomial Real.tan self currentVelocity nextDelta)
        (currentVelocity + searchRange self) k)) ∧
    (∀ k, (stepPolynomial Real.tan self currentVelocity nextDelta).getDerivativeValue
      (newtonIter (stepPolynomial Real.tan self currentVelocity nextDelta)
        (currentVelocity - searchRange self) k) < 0) ∧
    (∀ (tolerance : ℝ) (n : Nat),
      newtonLoop (stepPolynomial Real.tan self currentVelocity nextDelta) tolerance n
        (currentVelocity + searchRange self) = none →
      ∀ k, k < n →
        ¬ |newtonIter (stepPolynomial Real.tan self currentVelocity nextDelta)
            (currentVelocity + searchRange self) (k + 1)
          - newtonIter (stepPolynomial Real.tan self currentVelocity nextDelta)
            (currentVelocity + searchRange self) k| < tolerance) ∧
    (∀ (tolerance : ℝ) (n : Nat),
      newtonLoop (stepPolynomial Real.tan self currentVelocity nextDelta) tolerance n
        (currentVelocity - searchRange self) = none →
      ∀ k, k < n →
        ¬ |newtonIter (stepPolynomial Real.tan self currentVelocity nextDelta)
            (currentVelocity - searchRange self) (k + 1)
          - newtonIter (stepPolynomial Real.tan self currentVelocity nextDelta)
            (currentVelocity - searchRange self) k| < tolerance) := by
  obtain ⟨h4, h2, hx1, hx2, hP1, hP2⟩ :=
    stepPolynomial_seeds Real.tan self currentVelocity nextDelta hdt hL hc
  have hup : ∀ k, 0 < (stepPolynomial Real.tan self currentVelocity nextDelta).getDerivativeValue
      (newtonIter (stepPolynomial Real.tan self currentVelocity nextDelta)
        (currentVelocity + searchRange self) k) :=
    fun k => (newtonIter_upper _ h4 h2 currentVelocity _ hsafe hx1 hP1 k).2.2.1
  have hlo : ∀ k, (stepPolynomial Real.tan self currentVelocity nextDelta).getDerivativeValue
      (newtonIter (stepPolynomial Real.tan self currentVelocity nextDelta)
        (currentVelocity - searchRange self) k) < 0 :=
    fun k => (newtonIter_lower _ h4 h2 currentVelocity _ hsafe hx2 hP2 k).2.2.1
  exact ⟨hup, hlo,
    fun tol n h => newtonLoop_none_iter _ tol n _ (fun k => ne_of_gt (hup k)) h,
    fun tol n h => newtonLoop_none_iter _ tol n _ (fun k => ne_of_lt (hlo k)) h⟩

/-! ## Mirror symmetry -/

/-- The step polynomial of the opposite velocity is the mirror image. -/
theorem stepPolynomial_neg (tan : K → K) (self : SafeCar K) (cv d : K) :
    stepPolynomial tan self (-cv) d = (stepPolynomial tan self cv d).mirror := by
  simp only [stepPolynomial, Polynomial.setCoefficients, Polynomial.mirror]
  congr 1 <;> ring

/-- The single-step bound of the opposite velocity is the mirror image: the same `isSafe`,
and a safe bound has its two ends negated and swapped. -/
theorem makeVeloBoundNextStep_neg (tan : K → K) (self : SafeCar K) (cv d tol : K) (n : Nat) :
    makeVeloBoundNextStep tan self (-cv) d tol n
      = (makeVeloBoundNextStep tan self cv d tol n).map
          (fun x => (if x.1.isSafe then { isSafe := true, vMax := -x.1.vMin, vMin := -x.1.vMax }
            else x.1, afterStep tan self (-cv) d)) := by
  have hP : (stepPolynomial tan self (-cv) d).getValue (-cv)
      = (stepPolynomial tan self cv d).getValue cv := by
    rw [stepPolynomial_neg, Polynomial.mirror_getValue]
  have e1 : -cv + searchRange self = -(cv - searchRange self) := by ring
  have e2 : -cv - searchRange self = -(cv + searchRange self) := by ring
  rw [makeVeloBoundNextStep_eq, makeVeloBoundNextStep_eq, hP]
  by_cases hc : (stepPolynomial tan self cv d).getValue cv > 0 ∨ |d| > self.maxDelta
  · rw [if_pos hc, if_pos hc]
    simp [dangerBound]
  · rw [if_neg hc, if_neg hc, stepPolynomial_neg, e1, e2, newtonLoop_mirror, newtonLoop_mirror]
    cases newtonLoop (stepPolynomial tan self cv d) tol n (cv + searchRange self) with
    | none =>
      cases newtonLoop (stepPolynomial tan self cv d) tol n (cv - searchRange self) with
      | none => rfl
      | some b => rfl
    | some a =>
      cases newtonLoop (stepPolynomial tan self cv d) tol n (cv - searchRange self) with
      | none => rfl
      | some b => simp

/-- The worst-case simulation from the opposite velocity returns the same boolean. -/
theorem isPassWorstCaseLoop_neg (tan : K → K) (nf : Nat) (self : SafeCar K) (k : Nat) :
    ∀ (minV nd : K) (flag : Bool),
      (isPassWorstCaseLoop tan nf k self (-minV) nd flag).map Prod.fst
        = (isPassWorstCaseLoop tan nf k self minV nd flag).map Prod.fst := by
  induction k with
  | zero => intro minV nd flag; rfl
  | succ k ih =>
    intro minV nd flag
    rcases eq_or_ne minV 0 with h0 | h0
    · rw [h0, neg_zero]
    have hm := makeVeloBoundNextStep_neg tan self minV nd defaultTolerance nf
    cases hc : makeVeloBoundNextStep tan self minV nd defaultTolerance nf with
    | none =>
      rw [hc] at hm
      rw [isPassWorstCaseLoop_none _ _ _ _ _ _ _ hc, isPassWorstCaseLoop_none _ _ _ _ _ _ _ hm]
    | some x =>
      obtain ⟨r, s1⟩ := x
      rw [hc] at hm
      simp only [Option.map_some'] at hm
      obtain ⟨hs1, -⟩ := makeVeloBoundNextStep_cases tan self minV nd defaultTolerance nf r s1 hc
      cases hs : r.isSafe with
      | false =>
        rw [isPassWorstCaseLoop_notSafe _ _ _ _ _ _ _ _ _ hc hs,
          isPassWorstCaseLoop_notSafe _ _ _ _ _ _ _ _ _ hm (by simp [hs])]
        rfl
      | true =>
        rw [hs] at hm
        simp only [if_true] at hm
        have hprod : (-r.vMin) * (-r.vMax) = r.vMax * r.vMin := by ring
        by_cases hneg : r.vMax * r.vMin < 0
        · rw [isPassWorstCaseLoop_straddle _ _ _ _ _ _ _ _ _ hc hs hneg,
            isPassWorstCaseLoop_straddle _ _ _ _ _ _ _ _ _ hm rfl
              (by simp only [hprod]; exact hneg)]
          rfl
        · cases flag with
          | true =>
            rw [isPassWorstCaseLoop_last _ _ _ _ _ _ _ _ hc,
              isPassWorstCaseLoop_last _ _ _ _ _ _ _ _ hm, hs]
            rfl
          | false =>
            rw [isPassWorstCaseLoop_continue _ _ _ _ _ _ _ _ hc hs hneg,
              isPassWorstCaseLoop_continue _ _ _ _ _ _ _ _ hm rfl
                (by simp only [hprod]; exact hneg)]
            have hmin : min |(-r.vMin)| |(-r.vMax)| * (if -minV < 0 then -1 else 1)
                = -(min |r.vMax| |r.vMin| * (if minV < 0 then -1 else 1)) := by
              rw [abs_neg, abs_neg, min_comm]
              rcases lt_or_gt_of_ne h0 with hlt | hgt
              · rw [if_neg (by linarith), if_pos hlt]; ring
              · rw [if_pos (by linarith), if_neg (by linarith)]; ring
            simp only [hmin, hs1]
            have e : ∀ cv x y (fl : Bool),
                isPassWorstCaseLoop tan nf k (afterStep tan self cv nd) x y fl
                  = isPassWorstCaseLoop tan nf k self x y fl :=
              fun cv x y fl => isPassWorstCaseLoop_poly tan nf k self _ x y fl
            simp only [e]
            split_ifs
            all_goals exact ih _ _ _

/-- C20: `isPassWorstCase` is even in both arguments,
`isPassWorstCase(−v, d) = isPassWorstCase(v, d) = isPassWorstCase(v, −d)` (the same boolean
when the calls return, and one call returns exactly when the other does), and
`makeVeloBoundNextStep(−v, d)` is the mirror image of `makeVeloBoundNextStep(v, d)`: the same
`isSafe`, and when safe its `vMax` is `−vMin` and its `vMin` is `−vMax` of the other. -/
theorem isPassWorstCase_even (self : SafeCar ℝ) (v d : ℝ) (nfuel pfuel : Nat) :
    isPassWorstCaseResult Real.tan self (-v) d nfuel pfuel
        = isPassWorstCaseResult Real.tan self v d nfuel pfuel ∧
      isPassWorstCase Real.tan self v (-d) nfuel pfuel
        = isPassWorstCase Real.tan self v d nfuel pfuel ∧
      ∀ tolerance : ℝ,
        (makeVeloBoundNextStep Real.tan self (-v) d tolerance nfuel).map Prod.fst
          = (makeVeloBoundNextStep Real.tan self v d tolerance nfuel).map
              (fun x => if x.1.isSafe then
                  { isSafe := true, vMax := -x.1.vMin, vMin := -x.1.vMax }
                else x.1) := by
  refine ⟨isPassWorstCaseLoop_neg Real.tan nfuel self pfuel v |d| false, ?_, fun tol => ?_⟩
  · simp only [isPassWorstCase, abs_neg]
  · rw [makeVeloBoundNextStep_neg, Option.map_map]
    rfl

/-- At velocity zero the constraint polynomial is nonpositive. -/
theorem stepPolynomial_getValue_zero (tan : K → K) (self : SafeCar K) (d : K)
    (hdt : self.dt ≠ 0) : (stepPolynomial tan self 0 d).getValue 0 ≤ 0 := by
  rw [stepPolynomial_getValue_self tan self 0 d hdt]
  have : 0 ≤ (self.c ^ 2 / self.L) ^ 2 := by positivity
  have e : (tan |d| / self.L) ^ 2 * (0 : K) ^ 4 = 0 := by ring
  rw [e]; linarith

theorem newton_loops_terminate_witness :
    ∃ N : Nat, ∀ n, N ≤ n → ∃ vMax vMin,
      newtonLoop (stepPolynomial Real.tan (defaultCar Real.tan) 0 0) defaultTolerance n
        (0 + searchRange (defaultCar Real.tan)) = some vMax ∧
      newtonLoop (stepPolynomial Real.tan (defaultCar Real.tan) 0 0) defaultTolerance n
        (0 - searchRange (defaultCar Real.tan)) = some vMin ∧
      makeVeloBoundNextStep Real.tan (defaultCar Real.tan) 0 0 defaultTolerance n
        = some ({ isSafe := true, vMax := vMax, vMin := vMin },
            afterStep Real.tan (defaultCar Real.tan) 0 0) :=
  (newton_loops_terminate (defaultCar Real.tan) 0 0 defaultTolerance (defaultCar_dt_pos _)
    (defaultCar_L_pos _) (defaultCar_c_pos _) defaultTolerance_pos
    (stepPolynomial_getValue_zero Real.tan _ 0 (defaultCar_dt_pos _).ne.symm)
    (by rw [abs_zero]; exact (defaultCar_maxDelta_pos _).le)).1

theorem newton_derivative_nonzero_witness :
    0 < (stepPolynomial Real.tan (defaultCar Real.tan) 0 0).getDerivativeValue
      (newtonIter (stepPolynomial Real.tan (defaultCar Real.tan) 0 0)
        (0 + searchRange (defaultCar Real.tan)) 0) :=
  (newton_derivative_nonzero (defaultCar Real.tan) 0 0 (defaultCar_dt_pos _)
    (defaultCar_L_pos _) (defaultCar_c_pos _)
    (stepPolynomial_getValue_zero Real.tan _ 0 (defaultCar_dt_pos _).ne.symm)).1 0

/-! ## The upper-end test of the worst-case bound at negative velocities -/

/-- C14 fails on the code: on the instance `omega = 3.2, maxDelta = 1.1, dt = 1, L = 1, c = 2`
(so `searchRange = 4`) at velocity `-6` and zero steering, the single-step bound is
`[-10, -2]`; its upper end `-2` passes the worst-case simulation (its own single-step
interval `[-6, 2]` straddles zero), so `makeVeloBoundWithWorstCase` returns the bound
unchanged, although its lower end `-10` fails the simulation (it contracts to `-6`, which
violates the constraint at steering `maxDelta`, since `tan 1.1 · 36 > 4`). -/
theorem makeVeloBoundWithWorstCase_negative_velocity :
    ∃ s,
      makeVeloBoundWithWorstCase Real.tan (new Real.tan (32 / 10) (11 / 10) 1 1 2) (-6) 0
          defaultTolerance 1 2 0
        = some ({ isSafe := true, vMax := -6 + 4, vMin := -6 - 4 }, s) ∧
      isPassWorstCaseResult Real.tan (new Real.tan (32 / 10) (11 / 10) 1 1 2) (-6 + 4) 0 1 2
        = some true ∧
      isPassWorstCaseResult Real.tan (new Real.tan (32 / 10) (11 / 10) 1 1 2) (-6 - 4) 0 1 2
        = some false := by
  have hsr : searchRange (new Real.tan (32 / 10) (11 / 10) 1 1 2) = 4 := by
    simp only [searchRange, new]; norm_num
  have hdt : (0 : ℝ) < (new Real.tan (32 / 10) (11 / 10) 1 1 2).dt := by simp [new]
  have hL : (0 : ℝ) < (new Real.tan (32 / 10) (11 / 10) 1 1 2).L := by simp [new]
  have hc : (0 : ℝ) < (new Real.tan (32 / 10) (11 / 10) 1 1 2).c := by simp [new]
  have hmx : 0 ≤ (new Real.tan (32 / 10) (11 / 10) 1 1 2).maxDelta := by
    simp only [new]; norm_num
  have hpi := Real.pi_gt_three
  have htan : (11 / 10 : ℝ) < Real.tan (11 / 10) := Real.lt_tan (by norm_num) (by linarith)
  have hb := makeVeloBoundNextStep_zero_steer Real.tan Real.tan_zero
    (new Real.tan (32 / 10) (11 / 10) 1 1 2) (-6) defaultTolerance 0 hdt.ne.symm hL.ne.symm
    hc.ne.symm hmx defaultTolerance_pos
  rw [hsr] at hb
  have hmax : isPassWorstCaseResult Real.tan (new Real.tan (32 / 10) (11 / 10) 1 1 2) (-6 + 4)
      0 (0 + 1) (1 + 1) = some true :=
    isPassWorstCaseResult_zero_straddle Real.tan Real.tan_zero _ _ 0 1 hdt.ne.symm hL.ne.symm
      hc.ne.symm hmx (by rw [hsr]; norm_num)
  have hmin : isPassWorstCaseResult Real.tan (new Real.tan (32 / 10) (11 / 10) 1 1 2) (-6 - 4)
      0 (0 + 1) (1 + 1) = some false := by
    rw [isPassWorstCaseResult_zero_continue Real.tan Real.tan_zero _ _ (-6) (11 / 10) true 0
      1 hdt.ne.symm hL.ne.symm hc.ne.symm hmx]
    · rw [isPassWorstCaseLoop_danger]
      · rfl
      · left
        apply stepPolynomial_getValue_self_pos _ _ _ _ hdt.ne.symm hL
        rw [abs_of_pos (by norm_num : (0 : ℝ) < 11 / 10)]
        simp only [new]
        nlinarith
    · rw [hsr]; norm_num
    · rw [hsr, if_pos (by norm_num)]
      norm_num [abs_of_neg, min_def]
    · simp only [new]
      rw [if_pos (by norm_num)]
  obtain ⟨s, hs⟩ := makeVeloBoundWithWorstCase_pass_max Real.tan
    (new Real.tan (32 / 10) (11 / 10) 1 1 2) (-6) 0 defaultTolerance 1 2 0 _ _ hb rfl hmax
  exact ⟨s, hs, hmax, hmin⟩

/-! ## The probes of the refinement walk -/

/-- The recorded probes are those of the walk: a walk that returns has made at least one
probe, and the `vMax` it returns is its last probe. -/
theorem worstCaseWalk_vMax_last_probe (tan : K → K) (nf pf : Nat) (base : veloBound K)
    (d tol : K) (k : Nat) :
    ∀ (self : SafeCar K) (w mid : K) (r : veloBound K) (s1 : SafeCar K),
      worstCaseWalk tan nf pf base d tol k self w mid = some (r, s1) →
      (worstCaseWalkProbes tan nf pf d tol k self w mid).getLast? = some r.vMax := by
  induction k with
  | zero => intro self w mid r s1 h; simp [worstCaseWalk] at h
  | succ k ih =>
    intro self w mid r s1 h
    have hrec : ∀ (self2 : SafeCar K) (w2 mid2 : K),
        worstCaseWalk tan nf pf base d tol k self2 w2 mid2 = some (r, s1) →
        (mid :: worstCaseWalkProbes tan nf pf d tol k self2 w2 mid2).getLast? = some r.vMax := by
      intro self2 w2 mid2 h2
      have h3 := ih self2 w2 mid2 r s1 h2
      cases hp : worstCaseWalkProbes tan nf pf d tol k self2 w2 mid2 with
      | nil => rw [hp] at h3; simp at h3
      | cons a l => rw [hp] at h3; rw [List.getLast?_cons_cons]; exact h3
    simp only [worstCaseWalk] at h
    rw [worstCaseWalkProbes]
    cases hc : isPassWorstCase tan self mid d nf pf with
    | none => rw [hc] at h; simp at h
    | some x =>
      obtain ⟨b, s2⟩ := x
      rw [hc] at h
      cases b with
      | true =>
        simp only [if_true] at h ⊢
        by_cases ht : w < tol
        · rw [if_pos ht] at h
          rw [if_pos ht]
          simp only [Option.some.injEq, Prod.mk.injEq] at h
          rw [← h.1]
          rfl
        · rw [if_neg ht] at h
          rw [if_neg ht]
          exact hrec _ _ _ h
      | false =>
        simp only [Bool.false_eq_true, if_false] at h ⊢
        exact hrec _ _ _ h

/-- A non-zero `searchRange` needs non-zero `dt` and `L`. -/
theorem searchRange_ne_zero (self : SafeCar K) (h : searchRange self ≠ 0) :
    self.dt ≠ 0 ∧ self.L ≠ 0 := by
  constructor
  · intro h0; apply h; simp [searchRange, h0]
  · intro h0; apply h; simp [searchRange, h0]

/-- The order of the two ends of a safe single-step bound follows the sign of
`searchRange`: `vMin < vMax` when it is positive, `vMax < vMin` when it is negative, and
the two ends coincide when it is zero. -/
theorem makeVeloBoundNextStep_safe_order (tan : K → K) (self : SafeCar K) (cv d tol : K)
    (n : Nat) (r : veloBound K) (self1 : SafeCar K)
    (h : makeVeloBoundNextStep tan self cv d tol n = some (r, self1))
    (hs : r.isSafe = true) :
    (0 < searchRange self → r.vMin < r.vMax) ∧ (searchRange self < 0 → r.vMax < r.vMin) ∧
      (searchRange self = 0 → r.vMax = r.vMin) := by
  obtain ⟨-, hcase⟩ := makeVeloBoundNextStep_cases tan self cv d tol n r self1 h
  rcases hcase with ⟨-, hr⟩ | ⟨hcond, -, hmax, hmin⟩
  · rw [hr] at hs; simp [dangerBound] at hs
  push_neg at hcond
  have h4 := stepPolynomial_a4_nonneg tan self cv d
  have key : searchRange self ≠ 0 →
      0 < (stepPolynomial tan self cv d).a2 ∧
        0 ≤ (stepPolynomial tan self cv d).getValue (cv + searchRange self) ∧
        0 ≤ (stepPolynomial tan self cv d).getValue (cv - searchRange self) := by
    intro hne
    obtain ⟨hdt, hL⟩ := searchRange_ne_zero self hne
    have hseed := stepPolynomial_getValue_seed tan self cv d hdt hL
    refine ⟨stepPolynomial_a2_pos tan self cv d hdt, ?_, ?_⟩
    · rw [hseed.1]; positivity
    · rw [hseed.2]; positivity
  refine ⟨fun hpos => ?_, fun hneg => ?_, fun h0 => ?_⟩
  · obtain ⟨h2, hP1, hP2⟩ := key (ne_of_gt hpos)
    have hup := newtonLoop_upper _ h4 h2 tol cv hcond.1 n _ _ (by linarith) hP1 hmax
    have hlo := newtonLoop_lower _ h4 h2 tol cv hcond.1 n _ _ (by linarith) hP2 hmin
    linarith [hup.1, hlo.1]
  · obtain ⟨h2, hP1, hP2⟩ := key (ne_of_lt hneg)
    have hlo := newtonLoop_lower _ h4 h2 tol cv hcond.1 n _ _ (by linarith) hP1 hmax
    have hup := newtonLoop_upper _ h4 h2 tol cv hcond.1 n _ _ (by linarith) hP2 hmin
    linarith [hup.1, hlo.1]
  · rw [h0, add_zero] at hmax
    rw [h0, sub_zero] at hmin
    exact Option.some.inj (hmax.symm.trans hmin)

/-- The walk keeps every probe within its bracket, whichever way the bracket is oriented:
`sg` is `1` for a bracket with the passing velocity `S` below the failing velocity `U` and a
positive width, `-1` for the opposite orientation. -/
theorem worstCaseWalkProbes_between (tan : K → K) (nf pf : Nat) (d tol : K) (car : SafeCar K)
    (sg lo hi : K) (k : Nat) :
    ∀ (q : Polynomial K) (w mid S U : K),
      0 < sg * w → sg * lo ≤ sg * S → sg * U ≤ sg * hi →
      isPassWorstCaseResult tan car S d nf pf = some true →
      isPassWorstCaseResult tan car U d nf pf = some false →
      (sg * (mid + 2 * w) ≤ sg * U ∨ mid + w = U ∨ mid = U) →
      (sg * S ≤ sg * (mid - 2 * w) ∨ mid - w = S ∨ mid = S) →
      ∀ u, u ∈ worstCaseWalkProbes tan nf pf d tol k { car with polynomial := q } w mid →
        sg * lo ≤ sg * u ∧ sg * u ≤ sg * hi := by
  induction k with
  | zero => intro q w mid S U _ _ _ _ _ _ _ u hu; simp [worstCaseWalkProbes] at hu
  | succ k ih =>
    intro q w mid S U hw hS hU hpS hpU hup hlow u hu
    have e1 : sg * (mid + 2 * w) = sg * mid + 2 * (sg * w) := by ring
    have e2 : sg * (mid - 2 * w) = sg * mid - 2 * (sg * w) := by ring
    have e3 : sg * (mid + w) = sg * mid + sg * w := by ring
    have e4 : sg * (mid - w) = sg * mid - sg * w := by ring
    have hSmid : sg * S ≤ sg * mid := by
      rcases hlow with h1 | h1 | h1
      · rw [e2] at h1; linarith
      · rw [← h1, e4]; linarith
      · rw [h1]
    have hmidU : sg * mid ≤ sg * U := by
      rcases hup with h1 | h1 | h1
      · rw [e1] at h1; linarith
      · rw [← h1, e3]; linarith
      · rw [h1]
    simp only [worstCaseWalkProbes, List.mem_cons] at hu
    rcases hu with hu | hu
    · rw [hu]; exact ⟨le_trans hS hSmid, le_trans hmidU hU⟩
    cases hc : isPassWorstCase tan { car with polynomial := q } mid d nf pf with
    | none => rw [hc] at hu; simp at hu
    | some x =>
      obtain ⟨b, s2⟩ := x
      rw [hc] at hu
      obtain ⟨hres, q2, hq2⟩ := isPassWorstCase_result_of tan car q mid d nf pf b s2 hc
      have hw2 : 0 < sg * (w / 2) := by
        have : sg * (w / 2) = sg * w / 2 := by ring
        rw [this]; positivity
      cases b with
      | true =>
        have hne : mid ≠ U := by
          intro e; rw [e, hpU] at hres; simp at hres
        simp only [if_true] at hu
        by_cases ht : w < tol
        · rw [if_pos ht] at hu; simp at hu
        · rw [if_neg ht, hq2] at hu
          refine ih q2 (w / 2) (mid + w) mid U hw2 (le_trans hS hSmid) hU hres hpU ?_ ?_ u hu
          · rcases hup with h1 | h1 | h1
            · left
              have : mid + w + 2 * (w / 2) = mid + 2 * w := by ring
              rw [this]; exact h1
            · right; right; exact h1
            · exact absurd h1 hne
          · left
            have : mid + w - 2 * (w / 2) = mid := by ring
            rw [this]
      | false =>
        have hne : mid ≠ S := by
          intro e; rw [e, hpS] at hres; simp at hres
        simp only [Bool.false_eq_true, if_false] at hu
        rw [hq2] at hu
        refine ih q2 (w / 2) (mid - w) S mid hw2 hS (le_trans hmidU hU) hpS hres ?_ ?_ u hu
        · left
          have : mid - w + 2 * (w / 2) = mid := by ring
          rw [this]
        · rcases hlow with h1 | h1 | h1
          · left
            have : mid - w - 2 * (w / 2) = mid - 2 * w := by ring
            rw [this]; exact h1
          · right; right; exact h1
          · exact absurd h1 hne

/-- In exact arithmetic every probe of a walk that is reached lies between the two ends of
the single-step bound, whose order follows the sign of `searchRange`: within
`[base.vMin, base.vMax]` when `searchRange > 0`, and within `[base.vMax, base.vMin]`, hence
outside the empty `[base.vMin, base.vMax]`, when `searchRange < 0`. -/
theorem worstCaseWalkProbes_within (tan : K → K) (self : SafeCar K) (cv d tol : K)
    (nf pf wf : Nat) (base : veloBound K) (s1 s2 s3 : SafeCar K)
    (hb : makeVeloBoundNextStep tan self cv d tol nf = some (base, s1))
    (hs : base.isSafe = true)
    (hmax : isPassWorstCase tan s1 base.vMax d nf pf = some (false, s2))
    (hmin : isPassWorstCase tan s2 base.vMin d nf pf = some (true, s3))
    (u : K)
    (hu : u ∈ worstCaseWalkProbes tan nf pf d tol wf s3 ((base.vMax - base.vMin) / 2)
      (base.vMin + (base.vMax - base.vMin) / 2)) :
    (0 < searchRange self ∧ base.vMin ≤ u ∧ u ≤ base.vMax) ∨
      (searchRange self < 0 ∧ base.vMax ≤ u ∧ u ≤ base.vMin) := by
  obtain ⟨hs1, -⟩ := makeVeloBoundNextStep_cases tan self cv d tol nf base s1 hb
  rw [hs1] at hmax
  obtain ⟨hpmax, q2, hq2⟩ := isPassWorstCase_result_of tan self _ _ d nf pf _ _ hmax
  rw [hq2] at hmin
  obtain ⟨hpmin, q3, hq3⟩ := isPassWorstCase_result_of tan self _ _ d nf pf _ _ hmin
  rw [hq3] at hu
  obtain ⟨hpos, hneg, hzero⟩ := makeVeloBoundNextStep_safe_order tan self cv d tol nf base s1 hb hs
  rcases lt_trichotomy (searchRange self) 0 with hlt | h0 | hgt
  · right
    have hord := hneg hlt
    have h := worstCaseWalkProbes_between tan nf pf d tol self (-1) base.vMin base.vMax wf q3
      ((base.vMax - base.vMin) / 2) (base.vMin + (base.vMax - base.vMin) / 2)
      base.vMin base.vMax (by linarith) le_rfl le_rfl hpmin hpmax
      (Or.inr (Or.inl (by ring))) (Or.inr (Or.inl (by ring))) u hu
    exact ⟨hlt, by linarith [h.2], by linarith [h.1]⟩
  · have e := hzero h0
    rw [e, hpmin] at hpmax
    exact absurd hpmax (by simp)
  · left
    have hord := hpos hgt
    have h := worstCaseWalkProbes_between tan nf pf d tol self 1 base.vMin base.vMax wf q3
      ((base.vMax - base.vMin) / 2) (base.vMin + (base.vMax - base.vMin) / 2)
      base.vMin base.vMax (by linarith) le_rfl le_rfl hpmin hpmax
      (Or.inr (Or.inl (by ring))) (Or.inr (Or.inl (by ring))) u hu
    exact ⟨hgt, by linarith [h.1], by linarith [h.2]⟩

/-- An input that reaches the walk: the instance `omega = 3.2, maxDelta = 1.1, dt = 1, L = 1,
c = 2` (so `searchRange = 4`) at velocity `2`, zero steering and tolerance `5`. The
single-step bound is `[-2, 6]`; `6` fails the worst-case simulation, `-2` and the midpoint
`2` pass, and the walk returns `vMax = 2` at its first probe. -/
theorem unitPeriodCar_walk :
    makeVeloBoundNextStep Real.tan (new Real.tan (32 / 10) (11 / 10) 1 1 2) 2 0 5 1
        = some ({ isSafe := true, vMax := 2 + 4, vMin := 2 - 4 },
            afterStep Real.tan (new Real.tan (32 / 10) (11 / 10) 1 1 2) 2 0) ∧
      isPassWorstCaseResult Real.tan (new Real.tan (32 / 10) (11 / 10) 1 1 2) (2 + 4) 0 1 2
        = some false ∧
      ∃ s2 s3 s,
        isPassWorstCase Real.tan (afterStep Real.tan (new Real.tan (32 / 10) (11 / 10) 1 1 2) 2 0)
            (2 + 4) 0 1 2 = some (false, s2) ∧
          isPassWorstCase Real.tan s2 (2 - 4) 0 1 2 = some (true, s3) ∧
          makeVeloBoundWithWorstCase Real.tan (new Real.tan (32 / 10) (11 / 10) 1 1 2) 2 0 5 1 2 1
            = some ({ isSafe := true, vMax := (2 - 4) + ((2 + 4) - (2 - 4)) / 2, vMin := 2 - 4 },
                s) := by
  have hsr : searchRange (new Real.tan (32 / 10) (11 / 10) 1 1 2) = 4 := by
    simp only [searchRange, new]; norm_num
  have hdt : (0 : ℝ) < (new Real.tan (32 / 10) (11 / 10) 1 1 2).dt := by simp [new]
  have hL : (0 : ℝ) < (new Real.tan (32 / 10) (11 / 10) 1 1 2).L := by simp [new]
  have hc : (0 : ℝ) < (new Real.tan (32 / 10) (11 / 10) 1 1 2).c := by simp [new]
  have hmx : 0 ≤ (new Real.tan (32 / 10) (11 / 10) 1 1 2).maxDelta := by
    simp only [new]; norm_num
  have hpi := Real.pi_gt_three
  have htan : (11 / 10 : ℝ) < Real.tan (11 / 10) := Real.lt_tan (by norm_num) (by linarith)
  have hb := makeVeloBoundNextStep_zero_steer Real.tan Real.tan_zero
    (new Real.tan (32 / 10) (11 / 10) 1 1 2) 2 5 0 hdt.ne.symm hL.ne.symm hc.ne.symm hmx
    (by norm_num)
  rw [hsr] at hb
  have hmax : isPassWorstCaseResult Real.tan (new Real.tan (32 / 10) (11 / 10) 1 1 2) (2 + 4) 0
      (0 + 1) (1 + 1) = some false := by
    rw [isPassWorstCaseResult_zero_continue Real.tan Real.tan_zero _ _ 2 (11 / 10) true 0
      1 hdt.ne.symm hL.ne.symm hc.ne.symm hmx]
    · rw [isPassWorstCaseLoop_danger]
      · rfl
      · left
        apply stepPolynomial_getValue_self_pos _ _ _ _ hdt.ne.symm hL
        rw [abs_of_pos (by norm_num : (0 : ℝ) < 11 / 10)]
        simp only [new]
        nlinarith
    · rw [hsr]; norm_num
    · rw [hsr, if_neg (by norm_num)]
      norm_num [abs_of_pos, min_def]
    · simp only [new]
      rw [if_pos (by norm_num)]
  have hmin : isPassWorstCaseResult Real.tan (new Real.tan (32 / 10) (11 / 10) 1 1 2) (2 - 4) 0
      (0 + 1) (1 + 1) = some true :=
    isPassWorstCaseResult_zero_straddle Real.tan Real.tan_zero _ _ 0 1 hdt.ne.symm hL.ne.symm
      hc.ne.symm hmx (by rw [hsr]; norm_num)
  have hmid : isPassWorstCaseResult Real.tan (new Real.tan (32 / 10) (11 / 10) 1 1 2)
      ((2 - 4) + ((2 + 4) - (2 - 4)) / 2) 0 (0 + 1) (1 + 1) = some true :=
    isPassWorstCaseResult_zero_straddle Real.tan Real.tan_zero _ _ 0 1 hdt.ne.symm hL.ne.symm
      hc.ne.symm hmx (by rw [hsr]; norm_num)
  obtain ⟨s2, s3, s, h2, h3, hw⟩ := makeVeloBoundWithWorstCase_walk_first Real.tan
    (new Real.tan (32 / 10) (11 / 10) 1 1 2) 2 0 5 1 2 0 _ _ hb rfl hmax hmin hmid
    (by norm_num)
  exact ⟨hb, hmax, s2, s3, s, h2, h3, hw⟩

/-- A walk of positive width that starts with a failing velocity `U` at distance `2·w`, `w`
or `0` above its probe keeps such a velocity: when it returns, the failing velocity lies
above the returned `vMax`, less than twice the tolerance away. -/
theorem worstCaseWalk_failing_above (tan : K → K) (nf pf : Nat) (base : veloBound K)
    (d tol : K) (car : SafeCar K) (k : Nat) :
    ∀ (q : Polynomial K) (w mid U : K) (r : veloBound K) (s1 : SafeCar K),
      0 < w →
      isPassWorstCaseResult tan car U d nf pf = some false →
      (U = mid + 2 * w ∨ U = mid + w ∨ U = mid) →
      worstCaseWalk tan nf pf base d tol k { car with polynomial := q } w mid = some (r, s1) →
      0 < tol ∧ ∃ u, r.vMax < u ∧ u < r.vMax + 2 * tol ∧
        isPassWorstCaseResult tan car u d nf pf = some false := by
  induction k with
  | zero => intro q w mid U r s1 _ _ _ h; simp [worstCaseWalk] at h
  | succ k ih =>
    intro q w mid U r s1 hw hpU hup h
    simp only [worstCaseWalk] at h
    cases hc : isPassWorstCase tan { car with polynomial := q } mid d nf pf with
    | none => rw [hc] at h; simp at h
    | some x =>
      obtain ⟨b, s2⟩ := x
      rw [hc] at h
      obtain ⟨hres, q2, hq2⟩ := isPassWorstCase_result_of tan car q mid d nf pf b s2 hc
      cases b with
      | true =>
        have hne : U ≠ mid := by
          intro e; rw [e, hres] at hpU; simp at hpU
        simp only [if_true] at h
        by_cases ht : w < tol
        · rw [if_pos ht] at h
          simp only [Option.some.injEq, Prod.mk.injEq] at h
          rw [← h.1]
          refine ⟨lt_trans hw ht, U, ?_, ?_, hpU⟩
          · rcases hup with h1 | h1 | h1
            · show mid < U; linarith
            · show mid < U; linarith
            · exact absurd h1 hne
          · rcases hup with h1 | h1 | h1
            · show U < mid + 2 * tol; linarith
            · show U < mid + 2 * tol; linarith
            · exact absurd h1 hne
        · rw [if_neg ht, hq2] at h
          refine ih q2 (w / 2) (mid + w) U r s1 (by positivity) hpU ?_ h
          rcases hup with h1 | h1 | h1
          · left; rw [h1]; ring
          · right; right; exact h1
          · exact absurd h1 hne
      | false =>
        simp only [Bool.false_eq_true, if_false] at h
        rw [hq2] at h
        exact ih q2 (w / 2) (mid - w) mid r s1 (by positivity) hres (Or.inl (by ring)) h

/-- At zero steering a velocity whose single-step interval straddles zero is never reported
as failing the worst-case simulation, whatever the budgets. -/
theorem isPassWorstCaseResult_zero_straddle_ne_false (tan : K → K) (htan : tan 0 = 0)
    (self : SafeCar K) (v : K) (nf pf : Nat) (hdt : self.dt ≠ 0) (hL : self.L ≠ 0)
    (hc : self.c ≠ 0) (hmax : 0 ≤ self.maxDelta)
    (hneg : (v + searchRange self) * (v - searchRange self) < 0) :
    isPassWorstCaseResult tan self v 0 nf pf ≠ some false := by
  cases pf with
  | zero => simp [isPassWorstCaseResult, isPassWorstCase, isPassWorstCaseLoop]
  | succ pf =>
    cases nf with
    | zero =>
      have hcond : ¬ ((stepPolynomial tan self v |0|).getValue v > 0 ∨
          |(|(0 : K)|)| > self.maxDelta) := by
        rw [abs_zero, abs_zero, stepPolynomial_getValue_self tan self v 0 hdt, abs_zero, htan]
        have : 0 ≤ (self.c ^ 2 / self.L) ^ 2 := by positivity
        rintro (h | h)
        · have e : ((0 : K) / self.L) ^ 2 * v ^ 4 = 0 := by
            rw [zero_div]; ring
          rw [e] at h; linarith
        · exact absurd h (not_lt.mpr hmax)
      have hnone : makeVeloBoundNextStep tan self v |0| defaultTolerance 0 = none := by
        rw [makeVeloBoundNextStep_eq, if_neg hcond]; rfl
      rw [isPassWorstCaseResult, isPassWorstCase,
        isPassWorstCaseLoop_none _ _ _ _ _ _ _ hnone]
      simp
    | succ nf =>
      rw [isPassWorstCaseResult_zero_straddle tan htan self v nf pf hdt hL hc hmax hneg]
      simp

/-- The instance with a negative control period (`dt = -1`, the other parameters the
defaults) at velocity `-1`, zero steering and the default tolerance: the walk is reached and
returns its first probe, the midpoint of the single-step bound. -/
theorem negativePeriodCar_walk :
    makeVeloBoundNextStep Real.tan (new Real.tan (32 / 10) (11 / 10) (-1) (325 / 1000) 2)
        (-1) 0 defaultTolerance 1
      = some ({ isSafe := true, vMax := -1 + -(160 / 13), vMin := -1 - -(160 / 13) },
          afterStep Real.tan (new Real.tan (32 / 10) (11 / 10) (-1) (325 / 1000) 2) (-1) 0) ∧
    ∃ s2 s3 s,
      isPassWorstCase Real.tan
          (afterStep Real.tan (new Real.tan (32 / 10) (11 / 10) (-1) (325 / 1000) 2) (-1) 0)
          (-1 + -(160 / 13)) 0 1 2 = some (false, s2) ∧
        isPassWorstCase Real.tan s2 (-1 - -(160 / 13)) 0 1 2 = some (true, s3) ∧
        makeVeloBoundWithWorstCase Real.tan
            (new Real.tan (32 / 10) (11 / 10) (-1) (325 / 1000) 2) (-1) 0 defaultTolerance 1 2 1
          = some ({ isSafe := true,
                    vMax := (-1 - -(160 / 13))
                      + ((-1 + -(160 / 13)) - (-1 - -(160 / 13))) / 2,
                    vMin := -1 - -(160 / 13) }, s) := by
  have hsr := negativePeriodCar_searchRange
  have hdt : (new Real.tan (32 / 10) (11 / 10) (-1) (325 / 1000) 2).dt ≠ 0 := by
    simp [new]
  have hL : (new Real.tan (32 / 10) (11 / 10) (-1) (325 / 1000) 2).L ≠ 0 := by
    simp only [new]; norm_num
  have hc : (new Real.tan (32 / 10) (11 / 10) (-1) (325 / 1000) 2).c ≠ 0 := by
    simp [new]
  have hmx : 0 ≤ (new Real.tan (32 / 10) (11 / 10) (-1) (325 / 1000) 2).maxDelta := by
    simp only [new]; norm_num
  have hb := makeVeloBoundNextStep_zero_steer Real.tan Real.tan_zero
    (new Real.tan (32 / 10) (11 / 10) (-1) (325 / 1000) 2) (-1) defaultTolerance 0 hdt hL hc hmx
    defaultTolerance_pos
  rw [hsr] at hb
  have hmax : isPassWorstCaseResult Real.tan
      (new Real.tan (32 / 10) (11 / 10) (-1) (325 / 1000) 2) (-1 + -(160 / 13)) 0 (0 + 1) (1 + 1)
      = some false := by
    rw [isPassWorstCaseResult_zero_continue Real.tan Real.tan_zero _ _ (-1) (-(32 / 10)) false 0
      1 hdt hL hc hmx]
    · rw [isPassWorstCaseLoop_danger]
      · rfl
      · right
        simp only [new]
        rw [abs_neg, abs_of_pos (by norm_num : (0 : ℝ) < 32 / 10)]
        norm_num
    · rw [hsr]; norm_num
    · rw [hsr, if_pos (by norm_num)]
      norm_num [abs_of_neg, abs_of_pos, min_def]
    · simp only [new]
      rw [if_neg (by norm_num)]
      norm_num
  have hmin : isPassWorstCaseResult Real.tan
      (new Real.tan (32 / 10) (11 / 10) (-1) (325 / 1000) 2) (-1 - -(160 / 13)) 0 (0 + 1) (1 + 1)
      = some true :=
    isPassWorstCaseResult_zero_straddle Real.tan Real.tan_zero _ _ 0 1 hdt hL hc hmx
      (by rw [hsr]; norm_num)
  have hmid : isPassWorstCaseResult Real.tan
      (new Real.tan (32 / 10) (11 / 10) (-1) (325 / 1000) 2)
      ((-1 - -(160 / 13)) + ((-1 + -(160 / 13)) - (-1 - -(160 / 13))) / 2) 0 (0 + 1) (1 + 1)
      = some true :=
    isPassWorstCaseResult_zero_straddle Real.tan Real.tan_zero _ _ 0 1 hdt hL hc hmx
      (by rw [hsr]; norm_num)
  obtain ⟨s2, s3, s, h2, h3, hw⟩ := makeVeloBoundWithWorstCase_walk_first Real.tan
    (new Real.tan (32 / 10) (11 / 10) (-1) (325 / 1000) 2) (-1) 0 defaultTolerance 1 2 0 _ _ hb
    rfl hmax hmin hmid (by rw [defaultTolerance]; norm_num)
  exact ⟨hb, s2, s3, s, h2, h3, hw⟩

/-- C19, as stated, fails on an instance with a negative control period (`dt = -1`, the other
parameters the defaults): at velocity `-1`, zero steering and the default tolerance `1e-9`
the walk is reached and returns `vMax = -1`, the midpoint of the single-step bound with
`vMax = -173/13` and `vMin = 147/13`; every velocity `u` with `-1 < u < -1 + 2e-9` has a
single-step interval that straddles zero, so none of them fails the worst-case simulation. -/
theorem worstCaseWalk_failing_neighbour_counterexample :
    ∃ base s1 s2 s3 result s,
      makeVeloBoundNextStep Real.tan (new Real.tan (32 / 10) (11 / 10) (-1) (325 / 1000) 2)
          (-1) 0 defaultTolerance 1 = some (base, s1) ∧
        base.isSafe = true ∧
        isPassWorstCase Real.tan s1 base.vMax 0 1 2 = some (false, s2) ∧
        isPassWorstCase Real.tan s2 base.vMin 0 1 2 = some (true, s3) ∧
        makeVeloBoundWithWorstCase Real.tan
          (new Real.tan (32 / 10) (11 / 10) (-1) (325 / 1000) 2) (-1) 0 defaultTolerance 1 2 1
          = some (result, s) ∧
        (0 : ℝ) < defaultTolerance ∧
        ¬ ∃ (u : ℝ) (nfuel pfuel : Nat),
          result.vMax < u ∧ u < result.vMax + 2 * defaultTolerance ∧
            isPassWorstCaseResult Real.tan
              (new Real.tan (32 / 10) (11 / 10) (-1) (325 / 1000) 2) u 0 nfuel pfuel
              = some false := by
  obtain ⟨hb, s2, s3, s, h2, h3, hw⟩ := negativePeriodCar_walk
  refine ⟨_, _, s2, s3, _, s, hb, rfl, h2, h3, hw, defaultTolerance_pos, ?_⟩
  rintro ⟨u, nf, pf, hlo, hhi, hfail⟩
  have hlo1 : -1 < u := by
    have e : ((-1 - -(160 / 13)) + ((-1 + -(160 / 13)) - (-1 - -(160 / 13))) / 2 : ℝ) = -1 := by
      norm_num
    have : ((-1 - -(160 / 13)) + ((-1 + -(160 / 13)) - (-1 - -(160 / 13))) / 2 : ℝ) < u := hlo
    linarith
  have hhi1 : u < 0 := by
    have e : ((-1 - -(160 / 13)) + ((-1 + -(160 / 13)) - (-1 - -(160 / 13))) / 2 : ℝ) = -1 := by
      norm_num
    have h1 : u < ((-1 - -(160 / 13)) + ((-1 + -(160 / 13)) - (-1 - -(160 / 13))) / 2 : ℝ)
        + 2 * defaultTolerance := hhi
    rw [e, defaultTolerance] at h1
    linarith
  refine isPassWorstCaseResult_zero_straddle_ne_false Real.tan Real.tan_zero _ u nf pf ?_ ?_ ?_
    ?_ ?_ hfail
  · simp [new]
  · simp only [new]; norm_num
  · simp [new]
  · simp only [new]; norm_num
  · rw [negativePeriodCar_searchRange]
    have h1 : u + -(160 / 13) < 0 := by linarith
    have h2 : 0 < u - -(160 / 13) := by linarith
    exact mul_neg_of_neg_of_pos h1 h2

/-- C19, amended: over exact real arithmetic, on an instance with `dt, L, c > 0`, for every
input that reaches the refinement walk and for which the walk returns, the tolerance is
positive, the returned
`vMax` passes `isPassWorstCase`, and there is a velocity `u` with
`vMax < u < vMax + 2·tolerance` for which `isPassWorstCase(u, nextDelta)` is false. -/
theorem worstCaseWalk_failing_neighbour (self : SafeCar ℝ)
    (currentVelocity nextDelta tolerance : ℝ) (nfuel pfuel wfuel : Nat)
    (hdt : 0 < self.dt) (hL : 0 < self.L) (hc : 0 < self.c)
    (base result : veloBound ℝ) (self1 self2 self3 self4 : SafeCar ℝ)
    (hb : makeVeloBoundNextStep Real.tan self currentVelocity nextDelta tolerance nfuel
      = some (base, self1))
    (hs : base.isSafe = true)
    (hmax : isPassWorstCase Real.tan self1 base.vMax nextDelta nfuel pfuel = some (false, self2))
    (hmin : isPassWorstCase Real.tan self2 base.vMin nextDelta nfuel pfuel = some (true, self3))
    (h : makeVeloBoundWithWorstCase Real.tan self currentVelocity nextDelta tolerance nfuel
      pfuel wfuel = some (result, self4)) :
    0 < tolerance ∧
      isPassWorstCaseResult Real.tan self result.vMax nextDelta nfuel pfuel = some true ∧
      ∃ u, result.vMax < u ∧ u < result.vMax + 2 * tolerance ∧
        isPassWorstCaseResult Real.tan self u nextDelta nfuel pfuel = some false := by
  obtain ⟨base1, s1, hb1, hcase⟩ := makeVeloBoundWithWorstCase_cases Real.tan self
    currentVelocity nextDelta tolerance nfuel pfuel wfuel result self4 h
  rw [hb] at hb1
  simp only [Option.some.injEq, Prod.mk.injEq] at hb1
  obtain ⟨e1, e2⟩ := hb1
  subst e1 e2
  obtain ⟨hs1, -⟩ := makeVeloBoundNextStep_cases _ _ _ _ _ _ _ _ hb
  have hord := (makeVeloBoundNextStep_safe_order Real.tan self currentVelocity nextDelta
    tolerance nfuel base self1 hb hs).1 (searchRange_pos self hdt hL hc)
  rcases hcase with ⟨hf, -⟩ | ⟨-, passMax, s2, hmax1, hcase⟩
  · rw [hs] at hf; exact absurd hf (by simp)
  rw [hmax] at hmax1
  simp only [Option.some.injEq, Prod.mk.injEq] at hmax1
  obtain ⟨e3, e4⟩ := hmax1
  subst e3 e4
  rcases hcase with ⟨hp, -⟩ | ⟨-, passMin, s3, hmin1, hcase⟩
  · exact absurd hp (by simp)
  rw [hmin] at hmin1
  simp only [Option.some.injEq, Prod.mk.injEq] at hmin1
  obtain ⟨e5, e6⟩ := hmin1
  subst e5 e6
  rcases hcase with ⟨hp, -⟩ | ⟨-, hw⟩
  · exact absurd hp (by simp)
  rw [hs1] at hmax
  obtain ⟨hpmax, q2, hq2⟩ := isPassWorstCase_result_of Real.tan self _ _ _ _ _ _ _ hmax
  rw [hq2] at hmin
  obtain ⟨-, q3, hq3⟩ := isPassWorstCase_result_of Real.tan self _ _ _ _ _ _ _ hmin
  rw [hq3] at hw
  obtain ⟨htol, u, hu1, hu2, hu3⟩ := worstCaseWalk_failing_above Real.tan nfuel pfuel base
    nextDelta tolerance self wfuel q3 _ _ base.vMax result self4 (by linarith) hpmax
    (Or.inr (Or.inl (by ring))) hw
  exact ⟨htol, (worstCaseWalk_state Real.tan nfuel pfuel base nextDelta tolerance self wfuel q3
    _ _ result self4 hw).2, u, hu1, hu2, hu3⟩

theorem worstCaseWalk_failing_neighbour_witness :
    ∃ s,
      makeVeloBoundWithWorstCase Real.tan (new Real.tan (32 / 10) (11 / 10) 1 1 2) 2 0 5 1 2 1
          = some ({ isSafe := true, vMax := (2 - 4) + ((2 + 4) - (2 - 4)) / 2, vMin := 2 - 4 },
              s) ∧
        ((0 : ℝ) < 5 ∧
          isPassWorstCaseResult Real.tan (new Real.tan (32 / 10) (11 / 10) 1 1 2)
            ((2 - 4) + ((2 + 4) - (2 - 4)) / 2) 0 1 2 = some true ∧
          ∃ u : ℝ, (2 - 4) + ((2 + 4) - (2 - 4)) / 2 < u ∧
            u < (2 - 4) + ((2 + 4) - (2 - 4)) / 2 + 2 * 5 ∧
            isPassWorstCaseResult Real.tan (new Real.tan (32 / 10) (11 / 10) 1 1 2) u 0 1 2
              = some false) := by
  obtain ⟨hb, -, s2, s3, s, h2, h3, hw⟩ := unitPeriodCar_walk
  exact ⟨s, hw, worstCaseWalk_failing_neighbour (new Real.tan (32 / 10) (11 / 10) 1 1 2) 2 0 5
    1 2 1 (by simp [new]) (by simp [new]) (by simp [new])
    { isSafe := true, vMax := 2 + 4, vMin := 2 - 4 }
    { isSafe := true, vMax := (2 - 4) + ((2 + 4) - (2 - 4)) / 2, vMin := 2 - 4 }
    _ s2 s3 s hb rfl h2 h3 hw⟩

end SafeCar

/-! ## Polynomial inequalities behind the monotonicity of the Newton step -/

namespace NewtonMono

theorem neg_side_key (a u : ℝ) (hu : 0 < u)
    (hc : (1 - u ^ 2) * (a + u) ^ 4 ≤ a ^ 4) :
    ((a + u) + a) * ((a + u) ^ 2 + a ^ 2) ≤ u * (a + u) ^ 4 := by
  have h2 : u * (((a + u) + a) * ((a + u) ^ 2 + a ^ 2)) ≤ u * (u * (a + u) ^ 4) := by
    nlinarith
  exact le_of_mul_le_mul_left h2 hu

theorem neg_side_au (a u : ℝ) (ha : 0 < a) (hu : 0 < u)
    (hc : (1 - u ^ 2) * (a + u) ^ 4 ≤ a ^ 4) :
    4 * a ^ 3 < u * (a + u) ^ 4 := by
  have := neg_side_key a u hu hc
  have h3 : 4 * a ^ 3 < ((a + u) + a) * ((a + u) ^ 2 + a ^ 2) := by
    nlinarith [mul_pos ha hu, mul_pos (mul_pos ha ha) hu, mul_pos ha (mul_pos hu hu), pow_pos hu 3]
  linarith

/-- the constraint on the negative side -/
theorem neg_side_constraint (A a u : ℝ) (hA : 0 ≤ A) (hu1 : u ≤ 1) (hu0 : 0 < u)
    (hAg : A * (a + u) ^ 4 ≤ 1) (hF : 0 ≤ A * a ^ 4 + u ^ 2 - 1) :
    (1 - u ^ 2) * (a + u) ^ 4 ≤ a ^ 4 := by
  have h1 : (1 - u ^ 2) ≤ A * a ^ 4 := by linarith
  have h2 : 0 ≤ (a + u) ^ 4 := by positivity
  have h3 : 0 ≤ a ^ 4 := by positivity
  calc (1 - u ^ 2) * (a + u) ^ 4 ≤ (A * a ^ 4) * (a + u) ^ 4 := by nlinarith
    _ = (A * (a + u) ^ 4) * a ^ 4 := by ring
    _ ≤ 1 * a ^ 4 := by nlinarith
    _ = a ^ 4 := by ring

/-- (II) on the negative side: 2 (1 - u²) ≤ a u -/
theorem neg_side_h (A a u : ℝ) (hA : 0 ≤ A) (ha : 0 < a) (hu0 : 0 < u) (hu1 : u ≤ 1)
    (hAg : A * (a + u) ^ 4 ≤ 1) (hF : 0 ≤ A * a ^ 4 + u ^ 2 - 1) :
    2 * (1 - u ^ 2) ≤ a * u := by
  have hc := neg_side_constraint A a u hA hu1 hu0 hAg hF
  have h4 := neg_side_au a u ha hu0 hc
  by_contra hcon
  push_neg at hcon
  have hw : 0 < (a + u) ^ 4 := by positivity
  have h5 : a * u * (a + u) ^ 4 < 2 * (1 - u ^ 2) * (a + u) ^ 4 := by nlinarith
  have h6 : a * (u * (a + u) ^ 4) < a * (2 * a ^ 3) := by nlinarith
  have h7 : u * (a + u) ^ 4 < 2 * a ^ 3 := lt_of_mul_lt_mul_left h6 ha.le
  have : 0 < a ^ 3 := by positivity
  linarith

/-- (II) -/
theorem Gnum_nonneg (A x u : ℝ) (hA : 0 ≤ A) (hu0 : 0 < u) (hu1 : u ≤ 1)
    (hAg : A * (x - u) ^ 4 ≤ 1) (hF : 0 ≤ A * x ^ 4 + u ^ 2 - 1) :
    0 ≤ x ^ 3 * (2 * x * u + 4 * (1 - u ^ 2)) := by
  rcases le_or_lt 0 x with hx | hx
  · have : 0 ≤ 1 - u ^ 2 := by nlinarith
    positivity
  · have ha : 0 < -x := by linarith
    have e1 : A * (-x + u) ^ 4 ≤ 1 := by
      have : (-x + u) ^ 4 = (x - u) ^ 4 := by ring
      rw [this]; exact hAg
    have e2 : 0 ≤ A * (-x) ^ 4 + u ^ 2 - 1 := by
      have : (-x) ^ 4 = x ^ 4 := by ring
      rw [this]; exact hF
    have h := neg_side_h A (-x) u hA ha hu0 hu1 e1 e2
    have h1 : 2 * x * u + 4 * (1 - u ^ 2) ≤ 0 := by nlinarith
    have h2 : x ^ 3 ≤ 0 := by
      have : x ^ 3 = -((-x) ^ 3) := by ring
      rw [this]
      have : 0 < (-x) ^ 3 := by positivity
      linarith
    exact mul_nonneg_of_nonpos_of_nonpos h2 h1

/-- the Newton step is shorter than the distance to `g`: F < u * F' -/
theorem F_lt_u_F1 (A x u : ℝ) (hA : 0 ≤ A) (hu0 : 0 < u)
    (hAg : A * (x - u) ^ 4 ≤ 1) :
    A * x ^ 4 + u ^ 2 - 1 < u * (4 * A * x ^ 3 + 2 * u) := by
  have key : (A * (x - u) ^ 4 - 1) - (A * x ^ 4 + u ^ 2 - 1) + u * (4 * A * x ^ 3 + 2 * u)
      = u ^ 2 * (A * (((x - u) + x) ^ 2 + 2 * x ^ 2) + 1) := by ring
  have hpos : 0 < u ^ 2 * (A * (((x - u) + x) ^ 2 + 2 * x ^ 2) + 1) := by positivity
  linarith

/-- (I) on the negative side, with `a = -x` and `X = A a⁴`. -/
theorem den_pos_neg (X a u : ℝ) (ha : 0 < a) (hu0 : 0 < u) (hu1 : u ≤ 1) (hX : 0 ≤ X)
    (hXw : X * (a + u) ^ 4 ≤ a ^ 4) (hc : (1 - u ^ 2) * (a + u) ^ 4 ≤ a ^ 4) :
    0 < 4 * X ^ 2 + 12 * (1 - u ^ 2) * X
      + (2 * a ^ 2 * (1 + u ^ 2) - X * (2 * a ^ 2 + 16 * a * u)) := by
  have heps : 0 ≤ 1 - u ^ 2 := by nlinarith
  have h4 := neg_side_au a u ha hu0 hc
  have hw : 0 < (a + u) ^ 4 := by positivity
  have hco : 0 < 2 * a ^ 2 + 16 * a * u := by positivity
  have h8 : 0 < (a + u) ^ 4 - a ^ 4 - 4 * a ^ 3 * u := by
    have : (a + u) ^ 4 - a ^ 4 - 4 * a ^ 3 * u = 6 * a ^ 2 * u ^ 2 + 4 * a * u ^ 3 + u ^ 4 := by
      ring
    rw [this]; positivity
  have h9 : 0 < u ^ 2 * (a + u) ^ 4 - 4 * a ^ 3 * u := by
    have := mul_lt_mul_of_pos_left h4 hu0
    have e : u * (u * (a + u) ^ 4) = u ^ 2 * (a + u) ^ 4 := by ring
    rw [e] at this
    linarith
  have h6 : a ^ 4 * (2 * a ^ 2 + 16 * a * u) < 2 * a ^ 2 * (1 + u ^ 2) * (a + u) ^ 4 := by
    have e : 2 * a ^ 2 * (1 + u ^ 2) * (a + u) ^ 4 - a ^ 4 * (2 * a ^ 2 + 16 * a * u)
        = 2 * a ^ 2 * (((a + u) ^ 4 - a ^ 4 - 4 * a ^ 3 * u)
          + (u ^ 2 * (a + u) ^ 4 - 4 * a ^ 3 * u)) := by ring
    have : 0 < 2 * a ^ 2 * (((a + u) ^ 4 - a ^ 4 - 4 * a ^ 3 * u)
          + (u ^ 2 * (a + u) ^ 4 - 4 * a ^ 3 * u)) := by
      apply mul_pos (by positivity) (by linarith)
    linarith
  have h5 : X * (2 * a ^ 2 + 16 * a * u) * (a + u) ^ 4 ≤ a ^ 4 * (2 * a ^ 2 + 16 * a * u) := by
    have := mul_le_mul_of_nonneg_right hXw hco.le
    have e : X * (a + u) ^ 4 * (2 * a ^ 2 + 16 * a * u)
        = X * (2 * a ^ 2 + 16 * a * u) * (a + u) ^ 4 := by ring
    rw [e] at this
    exact this
  have hbr : X * (2 * a ^ 2 + 16 * a * u) < 2 * a ^ 2 * (1 + u ^ 2) :=
    lt_of_mul_lt_mul_right (lt_of_le_of_lt h5 h6) hw.le
  have : 0 ≤ 4 * X ^ 2 + 12 * (1 - u ^ 2) * X := by positivity
  linarith

/-- (I) -/
theorem den_pos (A x u : ℝ) (hA : 0 ≤ A) (hu0 : 0 < u) (hu1 : u ≤ 1)
    (hAg : A * (x - u) ^ 4 ≤ 1) (hF : 0 ≤ A * x ^ 4 + u ^ 2 - 1) :
    0 < (4 * A * x ^ 3 + 2 * u) ^ 2 - (A * x ^ 4 + u ^ 2 - 1) * (12 * A * x ^ 2 + 2) := by
  have heps : 0 ≤ 1 - u ^ 2 := by nlinarith
  have hlt := F_lt_u_F1 A x u hA hu0 hAg
  have hF1 : 0 < 4 * A * x ^ 3 + 2 * u := by
    by_contra hcon
    push_neg at hcon
    have := mul_nonpos_of_nonneg_of_nonpos hu0.le hcon
    linarith
  have hF2 : 0 < 12 * A * x ^ 2 + 2 := by positivity
  rcases le_or_lt (3 * u) x with hx | hx
  · have h1 : (A * x ^ 4 + u ^ 2 - 1) * (12 * A * x ^ 2 + 2)
        < u * (4 * A * x ^ 3 + 2 * u) * (12 * A * x ^ 2 + 2) :=
      mul_lt_mul_of_pos_right hlt hF2
    have h2 : (4 * A * x ^ 3 + 2 * u) ^ 2 - u * (4 * A * x ^ 3 + 2 * u) * (12 * A * x ^ 2 + 2)
        = (4 * A * x ^ 3 + 2 * u) * (4 * A * x ^ 2 * (x - 3 * u)) := by ring
    have h3 : 0 ≤ (4 * A * x ^ 3 + 2 * u) * (4 * A * x ^ 2 * (x - 3 * u)) := by
      apply mul_nonneg hF1.le
      apply mul_nonneg (by positivity) (by linarith)
    linarith
  · rcases le_or_lt 0 x with hx0 | hx0
    · have e : (4 * A * x ^ 3 + 2 * u) ^ 2 - (A * x ^ 4 + u ^ 2 - 1) * (12 * A * x ^ 2 + 2)
          = 4 * A ^ 2 * x ^ 6 + A * x ^ 2 * (2 * x * (8 * u - x) + 12 * (1 - u ^ 2))
            + (2 + 2 * u ^ 2) := by ring
      rw [e]
      have : 0 ≤ 2 * x * (8 * u - x) + 12 * (1 - u ^ 2) := by
        have : 0 ≤ x * (8 * u - x) := mul_nonneg hx0 (by linarith)
        linarith
      positivity
    · have ha : 0 < -x := by linarith
      have e1 : A * (-x + u) ^ 4 ≤ 1 := by
        have : (-x + u) ^ 4 = (x - u) ^ 4 := by ring
        rw [this]; exact hAg
      have e2 : 0 ≤ A * (-x) ^ 4 + u ^ 2 - 1 := by
        have : (-x) ^ 4 = x ^ 4 := by ring
        rw [this]; exact hF
      have hc := neg_side_constraint A (-x) u hA hu1 hu0 e1 e2
      have hX : 0 ≤ A * (-x) ^ 4 := by positivity
      have hXw : A * (-x) ^ 4 * (-x + u) ^ 4 ≤ (-x) ^ 4 := by
        have h0 : 0 ≤ (-x) ^ 4 := by positivity
        have := mul_le_mul_of_nonneg_right e1 h0
        have e : A * (-x + u) ^ 4 * (-x) ^ 4 = A * (-x) ^ 4 * (-x + u) ^ 4 := by ring
        rw [e, one_mul] at this
        exact this
      have hmain := den_pos_neg (A * (-x) ^ 4) (-x) u ha hu0 hu1 hX hXw hc
      have e : (-x) ^ 2 * ((4 * A * x ^ 3 + 2 * u) ^ 2
            - (A * x ^ 4 + u ^ 2 - 1) * (12 * A * x ^ 2 + 2))
          = 4 * (A * (-x) ^ 4) ^ 2 + 12 * (1 - u ^ 2) * (A * (-x) ^ 4)
            + (2 * (-x) ^ 2 * (1 + u ^ 2) - (A * (-x) ^ 4) * (2 * (-x) ^ 2 + 16 * (-x) * u)) := by
        ring
      rw [← e] at hmain
      have ha2 : 0 < (-x) ^ 2 := by positivity
      exact (mul_pos_iff_of_pos_left ha2).mp hmain

/-- (III) for `x ≥ 0`, with `X = A x⁴`. -/
theorem Kt_nonneg_pos (X x u : ℝ) (hx : 0 ≤ x) (hu0 : 0 < u) (hu1 : u ≤ 1) (hX : 0 ≤ X)
    (hXg : X * (x - u) ^ 4 ≤ x ^ 4) :
    0 ≤ x ^ 2 * ((x - 2 * u) ^ 2 + 2 * u ^ 2 + 6) - 2 * X * (x ^ 2 - 6 * x * u - 6 * (1 - u ^ 2)) := by
  have heps : 0 ≤ 1 - u ^ 2 := by nlinarith
  rcases le_or_lt (x ^ 2 - 6 * x * u - 6 * (1 - u ^ 2)) 0 with hL | hL
  · have h1 : 0 ≤ x ^ 2 * ((x - 2 * u) ^ 2 + 2 * u ^ 2 + 6) := by positivity
    have h2 : 2 * X * (x ^ 2 - 6 * x * u - 6 * (1 - u ^ 2)) ≤ 0 :=
      mul_nonpos_of_nonneg_of_nonpos (by positivity) hL
    linarith
  · have hxu : 6 * u < x := by
      by_contra hcon
      push_neg at hcon
      have : x * x ≤ x * (6 * u) := mul_le_mul_of_nonneg_left hcon hx
      nlinarith
    have hg : 0 < x - u := by linarith
    have h56 : 5 * x ≤ 6 * (x - u) := by linarith
    have hx4 : x ^ 4 ≤ 3 * (x - u) ^ 4 := by
      have h1 : (5 * x) ^ 4 ≤ (6 * (x - u)) ^ 4 := pow_le_pow_left₀ (by positivity) h56 4
      have h2 : (5 * x) ^ 4 = 625 * x ^ 4 := by ring
      have h3 : (6 * (x - u)) ^ 4 = 1296 * (x - u) ^ 4 := by ring
      have h4 : 0 ≤ (x - u) ^ 4 := by positivity
      linarith
    have hg4 : 0 < (x - u) ^ 4 := by positivity
    have hX3 : X ≤ 3 := by
      have : X * (x - u) ^ 4 ≤ 3 * (x - u) ^ 4 := le_trans hXg hx4
      exact le_of_mul_le_mul_right this hg4
    have hLx : x ^ 2 - 6 * x * u - 6 * (1 - u ^ 2) ≤ x ^ 2 := by
      have : 0 ≤ x * u := mul_nonneg hx hu0.le
      linarith
    have h1 : 2 * X * (x ^ 2 - 6 * x * u - 6 * (1 - u ^ 2)) ≤ 2 * 3 * x ^ 2 := by
      have hx2 : 0 ≤ x ^ 2 := by positivity
      calc 2 * X * (x ^ 2 - 6 * x * u - 6 * (1 - u ^ 2))
          ≤ 2 * X * x ^ 2 := mul_le_mul_of_nonneg_left hLx (by positivity)
        _ ≤ 2 * 3 * x ^ 2 := by nlinarith
    have h2 : 2 * 3 * x ^ 2 ≤ x ^ 2 * ((x - 2 * u) ^ 2 + 2 * u ^ 2 + 6) := by
      have : 0 ≤ x ^ 2 * ((x - 2 * u) ^ 2 + 2 * u ^ 2) := by positivity
      linarith
    linarith

/-- (III) for `x < 0`, with `a = -x` and `X = A a⁴`. -/
theorem Kt_nonneg_neg (X a u : ℝ) (ha : 0 < a) (hu0 : 0 < u) (hu1 : u ≤ 1) (hX : 0 ≤ X)
    (hXw : X * (a + u) ^ 4 ≤ a ^ 4) :
    0 ≤ a ^ 2 * ((a + 2 * u) ^ 2 + 2 * u ^ 2 + 6 - 2 * X) + 12 * X * ((1 - u ^ 2) - a * u) := by
  have heps : 0 ≤ 1 - u ^ 2 := by nlinarith
  have hw : 0 < (a + u) ^ 4 := by positivity
  have ha4 : a ^ 4 ≤ (a + u) ^ 4 := pow_le_pow_left₀ ha.le (by linarith) 4
  have hX1 : X ≤ 1 := by
    have : X * (a + u) ^ 4 ≤ 1 * (a + u) ^ 4 := by linarith
    exact le_of_mul_le_mul_right this hw
  -- 12 X a u ≤ 4 a^2
  have h1 : 3 * X * u ≤ a := by
    -- 3 X u w^4 ≤ 3 a^4 u ≤ a w^4 since w^4 ≥ 4 a^3 u
    have h2 : 4 * a ^ 3 * u ≤ (a + u) ^ 4 := by
      have : (a + u) ^ 4 - 4 * a ^ 3 * u = a ^ 4 + 6 * a ^ 2 * u ^ 2 + 4 * a * u ^ 3 + u ^ 4 := by
        ring
      have : 0 ≤ (a + u) ^ 4 - 4 * a ^ 3 * u := by rw [this]; positivity
      linarith
    have h3 : 3 * X * u * (a + u) ^ 4 ≤ a * (a + u) ^ 4 := by
      calc 3 * X * u * (a + u) ^ 4 = 3 * u * (X * (a + u) ^ 4) := by ring
        _ ≤ 3 * u * a ^ 4 := mul_le_mul_of_nonneg_left hXw (by positivity)
        _ = a * (3 * a ^ 3 * u) := by ring
        _ ≤ a * (4 * a ^ 3 * u) := by
            apply mul_le_mul_of_nonneg_left _ ha.le
            have : 0 ≤ a ^ 3 * u := by positivity
            linarith
        _ ≤ a * (a + u) ^ 4 := mul_le_mul_of_nonneg_left h2 ha.le
    exact le_of_mul_le_mul_right h3 hw
  have h4 : 12 * X * (a * u) ≤ 4 * a ^ 2 := by
    have := mul_le_mul_of_nonneg_left h1 (by positivity : 0 ≤ 4 * a)
    calc 12 * X * (a * u) = 4 * a * (3 * X * u) := by ring
      _ ≤ 4 * a * a := this
      _ = 4 * a ^ 2 := by ring
  have h5 : 0 ≤ 12 * X * (1 - u ^ 2) := by positivity
  have h6 : a ^ 2 * (2 * X) ≤ a ^ 2 * 2 := by
    apply mul_le_mul_of_nonneg_left _ (by positivity)
    linarith
  have h7 : 0 ≤ a ^ 2 * ((a + 2 * u) ^ 2 + 2 * u ^ 2) := by positivity
  nlinarith

/-- (III) -/
theorem Kt_nonneg (A x u : ℝ) (hA : 0 ≤ A) (hu0 : 0 < u) (hu1 : u ≤ 1)
    (hAg : A * (x - u) ^ 4 ≤ 1) :
    0 ≤ 4 * x ^ 2 * (x ^ 2 - 4 * x * u + 6 + 6 * u ^ 2 - 2 * (A * x ^ 4))
      + 48 * (A * x ^ 4) * (x * u + (1 - u ^ 2)) := by
  rcases le_or_lt 0 x with hx | hx
  · have hX : 0 ≤ A * x ^ 4 := by positivity
    have hXg : A * x ^ 4 * (x - u) ^ 4 ≤ x ^ 4 := by
      have h0 : 0 ≤ x ^ 4 := by positivity
      have := mul_le_mul_of_nonneg_right hAg h0
      have e : A * (x - u) ^ 4 * x ^ 4 = A * x ^ 4 * (x - u) ^ 4 := by ring
      rw [e, one_mul] at this
      exact this
    have h := Kt_nonneg_pos (A * x ^ 4) x u hx hu0 hu1 hX hXg
    have e : 4 * x ^ 2 * (x ^ 2 - 4 * x * u + 6 + 6 * u ^ 2 - 2 * (A * x ^ 4))
        + 48 * (A * x ^ 4) * (x * u + (1 - u ^ 2))
        = 4 * (x ^ 2 * ((x - 2 * u) ^ 2 + 2 * u ^ 2 + 6)
          - 2 * (A * x ^ 4) * (x ^ 2 - 6 * x * u - 6 * (1 - u ^ 2))) := by ring
    rw [e]
    positivity
  · have ha : 0 < -x := by linarith
    have hX : 0 ≤ A * (-x) ^ 4 := by positivity
    have hXw : A * (-x) ^ 4 * (-x + u) ^ 4 ≤ (-x) ^ 4 := by
      have h0 : 0 ≤ (-x) ^ 4 := by positivity
      have e1 : A * (-x + u) ^ 4 ≤ 1 := by
        have : (-x + u) ^ 4 = (x - u) ^ 4 := by ring
        rw [this]; exact hAg
      have := mul_le_mul_of_nonneg_right e1 h0
      have e : A * (-x + u) ^ 4 * (-x) ^ 4 = A * (-x) ^ 4 * (-x + u) ^ 4 := by ring
      rw [e, one_mul] at this
      exact this
    have h := Kt_nonneg_neg (A * (-x) ^ 4) (-x) u ha hu0 hu1 hX hXw
    have e : 4 * x ^ 2 * (x ^ 2 - 4 * x * u + 6 + 6 * u ^ 2 - 2 * (A * x ^ 4))
        + 48 * (A * x ^ 4) * (x * u + (1 - u ^ 2))
        = 4 * ((-x) ^ 2 * ((-x + 2 * u) ^ 2 + 2 * u ^ 2 + 6 - 2 * (A * (-x) ^ 4))
          + 12 * (A * (-x) ^ 4) * ((1 - u ^ 2) - (-x) * u)) := by ring
    rw [e]
    positivity

end NewtonMono

namespace SafeCar

variable {K : Type} [LinearOrderedField K]

/-! ## The Newton searches as functions of the quartic coefficient -/

theorem monotoneOn_Icc_of_hasDerivAt {f : ℝ → ℝ} {a b : ℝ}
    (h : ∀ x ∈ Set.Icc a b, ∃ f', HasDerivAt f f' x ∧ 0 ≤ f') : MonotoneOn f (Set.Icc a b) := by
  apply monotoneOn_of_deriv_nonneg (convex_Icc a b)
  · intro x hx
    obtain ⟨f', hf, -⟩ := h x hx
    exact hf.continuousAt.continuousWithinAt
  · intro x hx
    obtain ⟨f', hf, -⟩ := h x (interior_subset hx)
    exact hf.differentiableAt.differentiableWithinAt
  · intro x hx
    obtain ⟨f', hf, h0⟩ := h x (interior_subset hx)
    rw [hf.deriv]; exact h0

theorem antitoneOn_Icc_of_hasDerivAt {f : ℝ → ℝ} {a b : ℝ}
    (h : ∀ x ∈ Set.Icc a b, ∃ f', HasDerivAt f f' x ∧ f' ≤ 0) : AntitoneOn f (Set.Icc a b) := by
  apply antitoneOn_of_deriv_nonpos (convex_Icc a b)
  · intro x hx
    obtain ⟨f', hf, -⟩ := h x hx
    exact hf.continuousAt.continuousWithinAt
  · intro x hx
    obtain ⟨f', hf, -⟩ := h x (interior_subset hx)
    exact hf.differentiableAt.differentiableWithinAt
  · intro x hx
    obtain ⟨f', hf, h0⟩ := h x (interior_subset hx)
    rw [hf.deriv]; exact h0

theorem normPoly_getValue (A g v : ℝ) :
    (normPoly A g).getValue v = A * v ^ 4 + (v - g) ^ 2 - 1 := by
  rw [Polynomial.getValue_eq]; simp only [normPoly]; ring

theorem normPoly_getDerivativeValue (A g v : ℝ) :
    (normPoly A g).getDerivativeValue v = 4 * A * v ^ 3 + 2 * (v - g) := by
  rw [Polynomial.getDerivativeValue_eq]; simp only [normPoly]; ring

/-- The sensitivity bound `B(v) = v³·(2v(v−g) + 4(1−(v−g)²)) / (P'² − P·P'')`. -/
theorem sensitivityBound_hasDerivAt (A g v : ℝ)
    (hden : (4 * A * v ^ 3 + 2 * (v - g)) ^ 2
      - (A * v ^ 4 + (v - g) ^ 2 - 1) * (12 * A * v ^ 2 + 2) ≠ 0) :
    HasDerivAt
      (fun v : ℝ => v ^ 3 * (2 * v * (v - g) + 4 * (1 - (v - g) ^ 2))
        / ((4 * A * v ^ 3 + 2 * (v - g)) ^ 2
          - (A * v ^ 4 + (v - g) ^ 2 - 1) * (12 * A * v ^ 2 + 2)))
      (-((A * v ^ 4 + (v - g) ^ 2 - 1)
          * (4 * v ^ 2 * (v ^ 2 - 4 * v * (v - g) + 6 + 6 * (v - g) ^ 2 - 2 * (A * v ^ 4))
            + 48 * (A * v ^ 4) * (v * (v - g) + (1 - (v - g) ^ 2))))
        / ((4 * A * v ^ 3 + 2 * (v - g)) ^ 2
          - (A * v ^ 4 + (v - g) ^ 2 - 1) * (12 * A * v ^ 2 + 2)) ^ 2) v := by
  have hid : HasDerivAt (fun v : ℝ => v) 1 v := hasDerivAt_id v
  have hu : HasDerivAt (fun v : ℝ => v - g) 1 v := hid.sub_const g
  have hnum : HasDerivAt (fun v : ℝ => v ^ 3 * (2 * v * (v - g) + 4 * (1 - (v - g) ^ 2)))
      (3 * v ^ 2 * (2 * v * (v - g) + 4 * (1 - (v - g) ^ 2))
        + v ^ 3 * (2 * (v - g) + 2 * v - 8 * (v - g))) v := by
    have h1 := (hid.pow 3).mul (((hid.const_mul 2).mul hu).add
      (((hu.pow 2).const_sub 1).const_mul 4))
    convert h1 using 1
    ring
  have hden' : HasDerivAt (fun v : ℝ => (4 * A * v ^ 3 + 2 * (v - g)) ^ 2
        - (A * v ^ 4 + (v - g) ^ 2 - 1) * (12 * A * v ^ 2 + 2))
      (2 * (4 * A * v ^ 3 + 2 * (v - g)) * (12 * A * v ^ 2 + 2)
        - ((4 * A * v ^ 3 + 2 * (v - g)) * (12 * A * v ^ 2 + 2)
          + (A * v ^ 4 + (v - g) ^ 2 - 1) * (24 * A * v))) v := by
    have hF1 : HasDerivAt (fun v : ℝ => 4 * A * v ^ 3 + 2 * (v - g)) (12 * A * v ^ 2 + 2) v := by
      have := ((hid.pow 3).const_mul (4 * A)).add (hu.const_mul 2)
      convert this using 1
      ring
    have hF : HasDerivAt (fun v : ℝ => A * v ^ 4 + (v - g) ^ 2 - 1)
        (4 * A * v ^ 3 + 2 * (v - g)) v := by
      have := (((hid.pow 4).const_mul A).add (hu.pow 2)).sub_const 1
      convert this using 1
      ring
    have hF2 : HasDerivAt (fun v : ℝ => 12 * A * v ^ 2 + 2) (24 * A * v) v := by
      have := ((hid.pow 2).const_mul (12 * A)).add_const 2
      convert this using 1
      ring
    have := (hF1.pow 2).sub (hF.mul hF2)
    convert this using 1
    ring
  have h := hnum.div hden' hden
  convert h using 1
  field_simp
  ring

/-- Facts at a point `v ∈ (g, g + 1]` with nonnegative value, for `0 ≤ A` and `A·g⁴ ≤ 1`:
the derivative is positive, the Newton step is shorter than `v − g`, and the three
polynomial inequalities behind the monotonicity of the step lengths. -/
theorem normPoly_region (A g v : ℝ) (hA : 0 ≤ A) (hAg : A * g ^ 4 ≤ 1) (hg : g < v)
    (hv : v ≤ g + 1) (hF : 0 ≤ A * v ^ 4 + (v - g) ^ 2 - 1) :
    0 < 4 * A * v ^ 3 + 2 * (v - g) ∧
      A * v ^ 4 + (v - g) ^ 2 - 1 < (v - g) * (4 * A * v ^ 3 + 2 * (v - g)) ∧
      0 < (4 * A * v ^ 3 + 2 * (v - g)) ^ 2
        - (A * v ^ 4 + (v - g) ^ 2 - 1) * (12 * A * v ^ 2 + 2) ∧
      0 ≤ v ^ 3 * (2 * v * (v - g) + 4 * (1 - (v - g) ^ 2)) ∧
      0 ≤ 4 * v ^ 2 * (v ^ 2 - 4 * v * (v - g) + 6 + 6 * (v - g) ^ 2 - 2 * (A * v ^ 4))
        + 48 * (A * v ^ 4) * (v * (v - g) + (1 - (v - g) ^ 2)) := by
  have hu0 : 0 < v - g := by linarith
  have hu1 : v - g ≤ 1 := by linarith
  have hAg' : A * (v - (v - g)) ^ 4 ≤ 1 := by
    have : v - (v - g) = g := by ring
    rw [this]; exact hAg
  have hlt := NewtonMono.F_lt_u_F1 A v (v - g) hA hu0 hAg'
  refine ⟨?_, hlt, NewtonMono.den_pos A v (v - g) hA hu0 hu1 hAg' hF,
    NewtonMono.Gnum_nonneg A v (v - g) hA hu0 hu1 hAg' hF,
    NewtonMono.Kt_nonneg A v (v - g) hA hu0 hu1 hAg'⟩
  by_contra hcon
  push_neg at hcon
  have := mul_nonpos_of_nonneg_of_nonpos hu0.le hcon
  linarith

/-- Right of a point `v1 > g` with nonnegative value the polynomial stays nonnegative. -/
theorem normPoly_nonneg_of_le (A g v1 v : ℝ) (hA : 0 ≤ A) (hAg : A * g ^ 4 ≤ 1) (hg : g < v1)
    (hv1 : v1 ≤ g + 1) (hF : 0 ≤ A * v1 ^ 4 + (v1 - g) ^ 2 - 1) (hv : v1 ≤ v) :
    0 ≤ A * v ^ 4 + (v - g) ^ 2 - 1 := by
  have hr := normPoly_region A g v1 hA hAg hg hv1 hF
  have key : (A * v ^ 4 + (v - g) ^ 2 - 1)
      - ((A * v1 ^ 4 + (v1 - g) ^ 2 - 1) + (4 * A * v1 ^ 3 + 2 * (v1 - g)) * (v - v1))
      = (v - v1) ^ 2 * (A * ((v + v1) ^ 2 + 2 * v1 ^ 2) + 1) := by ring
  have h1 : 0 ≤ (v - v1) ^ 2 * (A * ((v + v1) ^ 2 + 2 * v1 ^ 2) + 1) := by positivity
  have h2 : 0 ≤ (4 * A * v1 ^ 3 + 2 * (v1 - g)) * (v - v1) :=
    mul_nonneg hr.1.le (by linarith)
  linarith

/-- The sensitivity bound is antitone in `v` on the region. -/
theorem sensitivityBound_antitone (A g v1 v2 : ℝ) (hA : 0 ≤ A) (hAg : A * g ^ 4 ≤ 1)
    (hg : g < v1) (h12 : v1 ≤ v2) (hv2 : v2 ≤ g + 1)
    (hF : 0 ≤ A * v1 ^ 4 + (v1 - g) ^ 2 - 1) :
    v2 ^ 3 * (2 * v2 * (v2 - g) + 4 * (1 - (v2 - g) ^ 2))
        / ((4 * A * v2 ^ 3 + 2 * (v2 - g)) ^ 2
          - (A * v2 ^ 4 + (v2 - g) ^ 2 - 1) * (12 * A * v2 ^ 2 + 2))
      ≤ v1 ^ 3 * (2 * v1 * (v1 - g) + 4 * (1 - (v1 - g) ^ 2))
        / ((4 * A * v1 ^ 3 + 2 * (v1 - g)) ^ 2
          - (A * v1 ^ 4 + (v1 - g) ^ 2 - 1) * (12 * A * v1 ^ 2 + 2)) := by
  have hanti : AntitoneOn
      (fun v : ℝ => v ^ 3 * (2 * v * (v - g) + 4 * (1 - (v - g) ^ 2))
        / ((4 * A * v ^ 3 + 2 * (v - g)) ^ 2
          - (A * v ^ 4 + (v - g) ^ 2 - 1) * (12 * A * v ^ 2 + 2))) (Set.Icc v1 v2) := by
    apply antitoneOn_Icc_of_hasDerivAt
    intro v hv
    have hFv := normPoly_nonneg_of_le A g v1 v hA hAg hg (le_trans h12 hv2) hF hv.1
    have hr := normPoly_region A g v hA hAg (lt_of_lt_of_le hg hv.1) (le_trans hv.2 hv2) hFv
    refine ⟨_, sensitivityBound_hasDerivAt A g v (ne_of_gt hr.2.2.1), ?_⟩
    apply div_nonpos_of_nonpos_of_nonneg
    · rw [neg_nonpos]
      exact mul_nonneg hFv hr.2.2.2.2
    · positivity
  exact hanti ⟨le_rfl, h12⟩ ⟨h12, le_rfl⟩ h12

/-- The derivative, in the quartic coefficient `A`, of one Newton update of a point `x A`
that itself moves with `A` at the rate `-S`. -/
theorem newtonNext_hasDerivAt (g : ℝ) (x : ℝ → ℝ) (S A : ℝ) (hx : HasDerivAt x (-S) A)
    (hF1 : 4 * A * x A ^ 3 + 2 * (x A - g) ≠ 0) :
    HasDerivAt (fun A' : ℝ => newtonNext (normPoly A' g) (x A'))
      (-((S * ((A * x A ^ 4 + (x A - g) ^ 2 - 1) * (12 * A * x A ^ 2 + 2))
          + x A ^ 3 * (2 * x A * (x A - g) + 4 * (1 - (x A - g) ^ 2)))
        / (4 * A * x A ^ 3 + 2 * (x A - g)) ^ 2)) A := by
  have e : (fun A' : ℝ => newtonNext (normPoly A' g) (x A'))
      = fun A' : ℝ => x A' - (A' * x A' ^ 4 + (x A' - g) ^ 2 - 1)
          / (4 * A' * x A' ^ 3 + 2 * (x A' - g)) := by
    funext A'
    rw [newtonNext, normPoly_getValue, normPoly_getDerivativeValue]
  rw [e]
  have hid : HasDerivAt (fun A' : ℝ => A') 1 A := hasDerivAt_id A
  have hu : HasDerivAt (fun A' : ℝ => x A' - g) (-S) A := hx.sub_const g
  have hnum : HasDerivAt (fun A' : ℝ => A' * x A' ^ 4 + (x A' - g) ^ 2 - 1)
      (x A ^ 4 + A * (4 * x A ^ 3 * (-S)) + 2 * (x A - g) * (-S)) A := by
    have := ((hid.mul (hx.pow 4)).add (hu.pow 2)).sub_const 1
    convert this using 1
    ring
  have hden : HasDerivAt (fun A' : ℝ => 4 * A' * x A' ^ 3 + 2 * (x A' - g))
      (4 * x A ^ 3 + 4 * A * (3 * x A ^ 2 * (-S)) + 2 * (-S)) A := by
    have := (((hid.const_mul 4).mul (hx.pow 3))).add (hu.const_mul 2)
    convert this using 1
    ring
  have h := hx.sub (hnum.div hden hF1)
  convert h using 1
  field_simp
  ring

/-- The invariant of the Newton iterates of the normal form from the seed `g + 1`, as
functions of the quartic coefficient `A` (for `0 ≤ A`, `A·g⁴ ≤ 1`): the iterate stays in
`(g, g + 1]` with nonnegative value, and it moves left as `A` grows, at a rate `S` bounded
by the sensitivity bound. -/
theorem normIter_invariant (g : ℝ) (n : Nat) (A : ℝ) (hA : 0 ≤ A) (hAg : A * g ^ 4 ≤ 1) :
    g < newtonIter (normPoly A g) (g + 1) n ∧
      newtonIter (normPoly A g) (g + 1) n ≤ g + 1 ∧
      0 ≤ A * newtonIter (normPoly A g) (g + 1) n ^ 4
        + (newtonIter (normPoly A g) (g + 1) n - g) ^ 2 - 1 ∧
      ∃ S, HasDerivAt (fun A' : ℝ => newtonIter (normPoly A' g) (g + 1) n) (-S) A ∧ 0 ≤ S ∧
        S * ((4 * A * newtonIter (normPoly A g) (g + 1) n ^ 3
              + 2 * (newtonIter (normPoly A g) (g + 1) n - g)) ^ 2
            - (A * newtonIter (normPoly A g) (g + 1) n ^ 4
              + (newtonIter (normPoly A g) (g + 1) n - g) ^ 2 - 1)
              * (12 * A * newtonIter (normPoly A g) (g + 1) n ^ 2 + 2))
          ≤ newtonIter (normPoly A g) (g + 1) n ^ 3
            * (2 * newtonIter (normPoly A g) (g + 1) n
                * (newtonIter (normPoly A g) (g + 1) n - g)
              + 4 * (1 - (newtonIter (normPoly A g) (g + 1) n - g) ^ 2)) := by
  induction n with
  | zero =>
    simp only [newtonIter]
    have hF : 0 ≤ A * (g + 1) ^ 4 + (g + 1 - g) ^ 2 - 1 := by
      have : A * (g + 1) ^ 4 + (g + 1 - g) ^ 2 - 1 = A * (g + 1) ^ 4 := by ring
      rw [this]; positivity
    have hr := normPoly_region A g (g + 1) hA hAg (by linarith) le_rfl hF
    refine ⟨by linarith, le_rfl, hF, 0, ?_, le_rfl, ?_⟩
    · rw [neg_zero]; exact hasDerivAt_const A (g + 1)
    · rw [zero_mul]; exact hr.2.2.2.1
  | succ n ih =>
    obtain ⟨hg, hv, hF, S, hS, hS0, hSB⟩ := ih
    simp only [newtonIter]
    generalize hxdef : newtonIter (normPoly A g) (g + 1) n = x at hg hv hF hSB
    obtain ⟨hF1, hlt, hden, hG, -⟩ := normPoly_region A g x hA hAg hg hv hF
    have hF2 : 0 < 12 * A * x ^ 2 + 2 := by positivity
    -- the next iterate
    have hnext : newtonNext (normPoly A g) x
        = x - (A * x ^ 4 + (x - g) ^ 2 - 1) / (4 * A * x ^ 3 + 2 * (x - g)) := by
      rw [newtonNext, normPoly_getValue, normPoly_getDerivativeValue]
    have hq0 : 0 ≤ (A * x ^ 4 + (x - g) ^ 2 - 1) / (4 * A * x ^ 3 + 2 * (x - g)) :=
      div_nonneg hF hF1.le
    have hq1 : (A * x ^ 4 + (x - g) ^ 2 - 1) / (4 * A * x ^ 3 + 2 * (x - g)) < x - g := by
      rw [div_lt_iff₀ hF1]; exact hlt
    have hstep := newton_step_upper (normPoly A g) hA (by simp [normPoly])
      (by rw [normPoly_getValue]; have : A * g ^ 4 + (g - g) ^ 2 - 1 = A * g ^ 4 - 1 := by ring
          rw [this]; linarith : (normPoly A g).getValue g ≤ 0) hg
      (by rw [normPoly_getValue]; exact hF)
    have hFn : 0 ≤ A * (newtonNext (normPoly A g) x) ^ 4
        + (newtonNext (normPoly A g) x - g) ^ 2 - 1 := by
      have := hstep.2.2.2
      rw [normPoly_getValue] at this
      exact this
    have hgn : g < newtonNext (normPoly A g) x := by rw [hnext]; linarith
    have hln : newtonNext (normPoly A g) x ≤ x := by rw [hnext]; linarith
    refine ⟨hgn, le_trans hln hv, hFn, ?_⟩
    -- the derivative of the next iterate
    have hD := newtonNext_hasDerivAt g (fun A' : ℝ => newtonIter (normPoly A' g) (g + 1) n) S A hS
      (by simp only [hxdef]; exact ne_of_gt hF1)
    simp only [hxdef] at hD
    refine ⟨(S * ((A * x ^ 4 + (x - g) ^ 2 - 1) * (12 * A * x ^ 2 + 2))
          + x ^ 3 * (2 * x * (x - g) + 4 * (1 - (x - g) ^ 2)))
        / (4 * A * x ^ 3 + 2 * (x - g)) ^ 2, hD, ?_, ?_⟩
    · apply div_nonneg _ (by positivity)
      have : 0 ≤ S * ((A * x ^ 4 + (x - g) ^ 2 - 1) * (12 * A * x ^ 2 + 2)) :=
        mul_nonneg hS0 (mul_nonneg hF hF2.le)
      linarith
    · -- S⁺ ≤ B(x) ≤ B(x⁺)
      have hrn := normPoly_region A g (newtonNext (normPoly A g) x) hA hAg hgn
        (le_trans hln hv) hFn
      have hanti := sensitivityBound_antitone A g (newtonNext (normPoly A g) x) x hA hAg hgn hln
        hv hFn
      have hSB' : (S * ((A * x ^ 4 + (x - g) ^ 2 - 1) * (12 * A * x ^ 2 + 2))
            + x ^ 3 * (2 * x * (x - g) + 4 * (1 - (x - g) ^ 2)))
          / (4 * A * x ^ 3 + 2 * (x - g)) ^ 2
          ≤ x ^ 3 * (2 * x * (x - g) + 4 * (1 - (x - g) ^ 2))
            / ((4 * A * x ^ 3 + 2 * (x - g)) ^ 2
              - (A * x ^ 4 + (x - g) ^ 2 - 1) * (12 * A * x ^ 2 + 2)) := by
        rw [div_le_div_iff₀ (by positivity) hden]
        have hFF2 : 0 ≤ (A * x ^ 4 + (x - g) ^ 2 - 1) * (12 * A * x ^ 2 + 2) :=
          mul_nonneg hF hF2.le
        nlinarith [mul_le_mul_of_nonneg_left hSB hFF2]
      have := le_trans hSB' hanti
      rw [le_div_iff₀ hrn.2.2.1] at this
      exact this

/-- The Newton iterates of the normal form move left as the quartic coefficient grows. -/
theorem normIter_antitone (g A1 A2 : ℝ) (n : Nat) (h1 : 0 ≤ A1) (h12 : A1 ≤ A2)
    (h2 : A2 * g ^ 4 ≤ 1) :
    newtonIter (normPoly A2 g) (g + 1) n ≤ newtonIter (normPoly A1 g) (g + 1) n := by
  have hanti : AntitoneOn (fun A : ℝ => newtonIter (normPoly A g) (g + 1) n)
      (Set.Icc A1 A2) := by
    apply antitoneOn_Icc_of_hasDerivAt
    intro A hA
    have hg4 : 0 ≤ g ^ 4 := by positivity
    obtain ⟨-, -, -, S, hS, hS0, -⟩ := normIter_invariant g n A (le_trans h1 hA.1)
      (le_trans (mul_le_mul_of_nonneg_right hA.2 hg4) h2)
    exact ⟨-S, hS, by linarith⟩
  exact hanti ⟨le_rfl, h12⟩ ⟨h12, le_rfl⟩ h12

/-- The Newton step lengths of the normal form grow with the quartic coefficient. -/
theorem normStep_monotone (g A1 A2 : ℝ) (n : Nat) (h1 : 0 ≤ A1) (h12 : A1 ≤ A2)
    (h2 : A2 * g ^ 4 ≤ 1) :
    newtonIter (normPoly A1 g) (g + 1) n - newtonIter (normPoly A1 g) (g + 1) (n + 1)
      ≤ newtonIter (normPoly A2 g) (g + 1) n - newtonIter (normPoly A2 g) (g + 1) (n + 1) := by
  have hmono : MonotoneOn (fun A : ℝ => newtonIter (normPoly A g) (g + 1) n
      - newtonIter (normPoly A g) (g + 1) (n + 1)) (Set.Icc A1 A2) := by
    apply monotoneOn_Icc_of_hasDerivAt
    intro A hA
    have hg4 : 0 ≤ g ^ 4 := by positivity
    have hA0 := le_trans h1 hA.1
    have hAg := le_trans (mul_le_mul_of_nonneg_right hA.2 hg4) h2
    obtain ⟨hg, hv, hF, S, hS, hS0, hSB⟩ := normIter_invariant g n A hA0 hAg
    obtain ⟨hF1, -, hden, hG, -⟩ := normPoly_region A g _ hA0 hAg hg hv hF
    have hD := newtonNext_hasDerivAt g (fun A' : ℝ => newtonIter (normPoly A' g) (g + 1) n) S A hS
      (ne_of_gt hF1)
    beta_reduce at hD
    refine ⟨_, hS.sub hD, ?_⟩
    generalize newtonIter (normPoly A g) (g + 1) n = x at hSB hF1 hden hG hF
    have e : -S - -((S * ((A * x ^ 4 + (x - g) ^ 2 - 1) * (12 * A * x ^ 2 + 2))
          + x ^ 3 * (2 * x * (x - g) + 4 * (1 - (x - g) ^ 2)))
        / (4 * A * x ^ 3 + 2 * (x - g)) ^ 2)
        = (x ^ 3 * (2 * x * (x - g) + 4 * (1 - (x - g) ^ 2))
            - S * ((4 * A * x ^ 3 + 2 * (x - g)) ^ 2
              - (A * x ^ 4 + (x - g) ^ 2 - 1) * (12 * A * x ^ 2 + 2)))
          / (4 * A * x ^ 3 + 2 * (x - g)) ^ 2 := by
      field_simp
      ring
    rw [e]
    apply div_nonneg (by linarith) (by positivity)
  exact hmono ⟨le_rfl, h12⟩ ⟨h12, le_rfl⟩ h12

/-- The iterates of the normal form from the seed `g + 1` decrease. -/
theorem normIter_step_nonneg (g A : ℝ) (hA : 0 ≤ A) (hAg : A * g ^ 4 ≤ 1) (n : Nat) :
    newtonIter (normPoly A g) (g + 1) (n + 1) ≤ newtonIter (normPoly A g) (g + 1) n := by
  obtain ⟨hg, hv, hF, -⟩ := normIter_invariant g n A hA hAg
  obtain ⟨hF1, -⟩ := normPoly_region A g _ hA hAg hg hv hF
  simp only [newtonIter]
  rw [newtonNext, normPoly_getValue, normPoly_getDerivativeValue]
  have := div_nonneg hF hF1.le
  linarith

theorem normIter_antitone_index (g A : ℝ) (hA : 0 ≤ A) (hAg : A * g ^ 4 ≤ 1) (m n : Nat)
    (hmn : m ≤ n) :
    newtonIter (normPoly A g) (g + 1) n ≤ newtonIter (normPoly A g) (g + 1) m := by
  induction n with
  | zero =>
    have : m = 0 := Nat.le_zero.mp hmn
    rw [this]
  | succ n ih =>
    rcases Nat.lt_or_ge m (n + 1) with h | h
    · exact le_trans (normIter_step_nonneg g A hA hAg n) (ih (Nat.lt_succ_iff.mp h))
    · have : m = n + 1 := le_antisymm hmn h
      rw [this]

/-- The value returned by the upper Newton search on the normal form does not grow with the
quartic coefficient. -/
theorem newtonLoop_normPoly_antitone (g A1 A2 tol : ℝ) (n1 n2 : Nat) (r1 r2 : ℝ)
    (hA1 : 0 ≤ A1) (h12 : A1 ≤ A2) (hA2 : A2 * g ^ 4 ≤ 1)
    (h1 : newtonLoop (normPoly A1 g) tol n1 (g + 1) = some r1)
    (h2 : newtonLoop (normPoly A2 g) tol n2 (g + 1) = some r2) : r2 ≤ r1 := by
  have hg4 : 0 ≤ g ^ 4 := by positivity
  have hA1g : A1 * g ^ 4 ≤ 1 := le_trans (mul_le_mul_of_nonneg_right h12 hg4) hA2
  obtain ⟨k1, -, hr1, -, hlt1⟩ := newtonLoop_eq_iter _ _ _ _ _ h1
  obtain ⟨k2, -, hr2, hk2, -⟩ := newtonLoop_eq_iter _ _ _ _ _ h2
  have hk : k1 ≤ k2 := by
    by_contra hcon
    push_neg at hcon
    have h3 := hlt1 k2 hcon
    have hs1 := normIter_step_nonneg g A1 hA1 hA1g k2
    have hs2 := normIter_step_nonneg g A2 (le_trans hA1 h12) hA2 k2
    have hm := normStep_monotone g A1 A2 k2 hA1 h12 hA2
    rw [abs_of_nonpos (by linarith)] at h3 hk2
    linarith
  rw [hr1, hr2]
  exact le_trans
    (normIter_antitone_index g A2 (le_trans hA1 h12) hA2 (k1 + 1) (k2 + 1) (by omega))
    (normIter_antitone g A1 A2 (k1 + 1) hA1 h12 hA2)

/-- Rescaling the argument by `s > 0` and the values by `k ≠ 0` commutes with the Newton
loop. -/
theorem newtonLoop_scale (p q : Polynomial K) (s k : K) (hs : 0 < s) (hk : k ≠ 0)
    (hv : ∀ y, q.getValue y = k * p.getValue (s * y))
    (hd : ∀ y, q.getDerivativeValue y = k * s * p.getDerivativeValue (s * y))
    (tol : K) (n : Nat) (y : K) :
    newtonLoop p tol n (s * y) = (newtonLoop q (tol / s) n y).map (fun r => s * r) := by
  induction n generalizing y with
  | zero => simp [newtonLoop]
  | succ n ih =>
    simp only [newtonLoop, hv, hd]
    have hs0 : s ≠ 0 := ne_of_gt hs
    by_cases h0 : p.getDerivativeValue (s * y) = 0
    · rw [if_pos h0, if_pos (by rw [h0, mul_zero])]; rfl
    · have h0q : k * s * p.getDerivativeValue (s * y) ≠ 0 :=
        mul_ne_zero (mul_ne_zero hk hs0) h0
      rw [if_neg h0, if_neg h0q]
      have e1 : s * (y - k * p.getValue (s * y) / (k * s * p.getDerivativeValue (s * y)))
          = s * y - p.getValue (s * y) / p.getDerivativeValue (s * y) := by
        field_simp
        ring
      have e2 : |y - k * p.getValue (s * y) / (k * s * p.getDerivativeValue (s * y)) - y| < tol / s
          ↔ |s * y - p.getValue (s * y) / p.getDerivativeValue (s * y) - s * y| < tol := by
        rw [← e1, ← mul_sub, abs_mul, abs_of_pos hs, lt_div_iff₀ hs, mul_comm]
      by_cases ht : |s * y - p.getValue (s * y) / p.getDerivativeValue (s * y) - s * y| < tol
      · rw [if_pos ht, if_pos (e2.mpr ht)]
        simp only [Option.map_some']
        rw [e1]
      · rw [if_neg ht, if_neg (fun h => ht (e2.mp h)), ← e1]
        exact ih _

/-- The step polynomial in normal form: with `s = searchRange`, `P(s·y)·dt²/s²` is
`A·y⁴ + (y − g)² − 1` for `A = (tan|d|/L)²·s²·dt²` and `g = cv / s`. -/
theorem stepPolynomial_normal (tan : K → K) (self : SafeCar K) (cv d : K)
    (hdt : 0 < self.dt) (hL : 0 < self.L) (hc : 0 < self.c) (y : K) :
    (normPoly ((tan |d| / self.L) ^ 2 * searchRange self ^ 2 * self.dt ^ 2)
        (cv / searchRange self)).getValue y
      = self.dt ^ 2 / searchRange self ^ 2
          * (stepPolynomial tan self cv d).getValue (searchRange self * y) ∧
    (normPoly ((tan |d| / self.L) ^ 2 * searchRange self ^ 2 * self.dt ^ 2)
        (cv / searchRange self)).getDerivativeValue y
      = self.dt ^ 2 / searchRange self ^ 2 * searchRange self
          * (stepPolynomial tan self cv d).getDerivativeValue (searchRange self * y) := by
  have hs := searchRange_pos self hdt hL hc
  have hs0 : searchRange self ≠ 0 := ne_of_gt hs
  have hdt0 : self.dt ≠ 0 := ne_of_gt hdt
  have hL0 : self.L ≠ 0 := ne_of_gt hL
  have hc0 : self.c ≠ 0 := ne_of_gt hc
  have hcs : self.c ^ 2 / self.L = searchRange self / self.dt := by
    simp only [searchRange]; field_simp; ring
  simp only [normPoly, stepPolynomial, Polynomial.setCoefficients, Polynomial.getValue_eq,
    Polynomial.getDerivativeValue_eq, hcs]
  constructor
  · field_simp
    ring
  · field_simp
    ring

/-- The mirrored step polynomial in normal form. -/
theorem stepPolynomial_mirror_normal (tan : K → K) (self : SafeCar K) (cv d : K)
    (hdt : 0 < self.dt) (hL : 0 < self.L) (hc : 0 < self.c) (y : K) :
    (normPoly ((tan |d| / self.L) ^ 2 * searchRange self ^ 2 * self.dt ^ 2)
        (-cv / searchRange self)).getValue y
      = self.dt ^ 2 / searchRange self ^ 2
          * (stepPolynomial tan self cv d).mirror.getValue (searchRange self * y) ∧
    (normPoly ((tan |d| / self.L) ^ 2 * searchRange self ^ 2 * self.dt ^ 2)
        (-cv / searchRange self)).getDerivativeValue y
      = self.dt ^ 2 / searchRange self ^ 2 * searchRange self
          * (stepPolynomial tan self cv d).mirror.getDerivativeValue (searchRange self * y) := by
  have hs := searchRange_pos self hdt hL hc
  have hs0 : searchRange self ≠ 0 := ne_of_gt hs
  have hdt0 : self.dt ≠ 0 := ne_of_gt hdt
  have hL0 : self.L ≠ 0 := ne_of_gt hL
  have hc0 : self.c ≠ 0 := ne_of_gt hc
  have hcs : self.c ^ 2 / self.L = searchRange self / self.dt := by
    simp only [searchRange]; field_simp; ring
  simp only [normPoly, stepPolynomial, Polynomial.setCoefficients, Polynomial.getValue_eq,
    Polynomial.getDerivativeValue_eq, Polynomial.mirror, hcs]
  constructor
  · field_simp
    ring
  · field_simp
    ring

/-- The normal-form coefficient grows with the tangent of the steering magnitude, and the
normal-form constraint `A·g⁴ ≤ 1` is the safety test `P(cv) ≤ 0`. -/
theorem stepPolynomial_normal_coeff (tan : ℝ → ℝ) (self : SafeCar ℝ) (cv d1 d2 : ℝ)
    (hdt : 0 < self.dt) (hL : 0 < self.L) (hc : 0 < self.c)
    (h0 : 0 ≤ tan |d1|) (h12 : tan |d1| ≤ tan |d2|)
    (hsafe : (stepPolynomial tan self cv d2).getValue cv ≤ 0) :
    0 ≤ (tan |d1| / self.L) ^ 2 * searchRange self ^ 2 * self.dt ^ 2 ∧
      (tan |d1| / self.L) ^ 2 * searchRange self ^ 2 * self.dt ^ 2
        ≤ (tan |d2| / self.L) ^ 2 * searchRange self ^ 2 * self.dt ^ 2 ∧
      (tan |d2| / self.L) ^ 2 * searchRange self ^ 2 * self.dt ^ 2
        * (cv / searchRange self) ^ 4 ≤ 1 := by
  have hs := searchRange_pos self hdt hL hc
  refine ⟨by positivity, ?_, ?_⟩
  · have h1 : tan |d1| / self.L ≤ tan |d2| / self.L := div_le_div_of_nonneg_right h12 hL.le
    have h2 : (tan |d1| / self.L) ^ 2 ≤ (tan |d2| / self.L) ^ 2 :=
      pow_le_pow_left₀ (div_nonneg h0 hL.le) h1 2
    have h3 : 0 ≤ searchRange self ^ 2 := by positivity
    have h4 : 0 ≤ self.dt ^ 2 := by positivity
    exact mul_le_mul_of_nonneg_right (mul_le_mul_of_nonneg_right h2 h3) h4
  · have hn := (stepPolynomial_normal tan self cv d2 hdt hL hc (cv / searchRange self)).1
    rw [normPoly_getValue, mul_div_cancel₀ _ (ne_of_gt hs)] at hn
    have hk : 0 ≤ self.dt ^ 2 / searchRange self ^ 2 := by positivity
    have := mul_nonpos_of_nonneg_of_nonpos hk hsafe
    nlinarith

/-- The upper Newton result does not grow with the tangent of the steering magnitude. -/
theorem newtonLoop_stepPolynomial_upper (tan : ℝ → ℝ) (self : SafeCar ℝ) (cv d1 d2 tol : ℝ)
    (hdt : 0 < self.dt) (hL : 0 < self.L) (hc : 0 < self.c)
    (h0 : 0 ≤ tan |d1|) (h12 : tan |d1| ≤ tan |d2|)
    (hsafe : (stepPolynomial tan self cv d2).getValue cv ≤ 0) (n1 n2 : Nat) (r1 r2 : ℝ)
    (h1 : newtonLoop (stepPolynomial tan self cv d1) tol n1 (cv + searchRange self) = some r1)
    (h2 : newtonLoop (stepPolynomial tan self cv d2) tol n2 (cv + searchRange self) = some r2) :
    r2 ≤ r1 := by
  have hs := searchRange_pos self hdt hL hc
  have hs0 : searchRange self ≠ 0 := ne_of_gt hs
  have hk : self.dt ^ 2 / searchRange self ^ 2 ≠ 0 := by
    have : 0 < self.dt ^ 2 / searchRange self ^ 2 := by positivity
    exact ne_of_gt this
  obtain ⟨hA1, hA12, hA2⟩ := stepPolynomial_normal_coeff tan self cv d1 d2 hdt hL hc h0 h12 hsafe
  have hseed : cv + searchRange self = searchRange self * (cv / searchRange self + 1) := by
    field_simp
  rw [hseed] at h1 h2
  rw [newtonLoop_scale _ _ _ _ hs hk
    (fun y => (stepPolynomial_normal tan self cv d1 hdt hL hc y).1)
    (fun y => (stepPolynomial_normal tan self cv d1 hdt hL hc y).2)] at h1
  rw [newtonLoop_scale _ _ _ _ hs hk
    (fun y => (stepPolynomial_normal tan self cv d2 hdt hL hc y).1)
    (fun y => (stepPolynomial_normal tan self cv d2 hdt hL hc y).2)] at h2
  cases e1 : newtonLoop
      (normPoly ((tan |d1| / self.L) ^ 2 * searchRange self ^ 2 * self.dt ^ 2)
        (cv / searchRange self)) (tol / searchRange self) n1 (cv / searchRange self + 1) with
  | none => rw [e1] at h1; simp at h1
  | some y1 =>
    cases e2 : newtonLoop
        (normPoly ((tan |d2| / self.L) ^ 2 * searchRange self ^ 2 * self.dt ^ 2)
          (cv / searchRange self)) (tol / searchRange self) n2 (cv / searchRange self + 1) with
    | none => rw [e2] at h2; simp at h2
    | some y2 =>
      rw [e1] at h1
      rw [e2] at h2
      simp only [Option.map_some', Option.some.injEq] at h1 h2
      have hy := newtonLoop_normPoly_antitone _ _ _ _ n1 n2 y1 y2 hA1 hA12 hA2 e1 e2
      rw [← h1, ← h2]
      exact mul_le_mul_of_nonneg_left hy hs.le

/-- The lower Newton result does not shrink with the tangent of the steering magnitude. -/
theorem newtonLoop_stepPolynomial_lower (tan : ℝ → ℝ) (self : SafeCar ℝ) (cv d1 d2 tol : ℝ)
    (hdt : 0 < self.dt) (hL : 0 < self.L) (hc : 0 < self.c)
    (h0 : 0 ≤ tan |d1|) (h12 : tan |d1| ≤ tan |d2|)
    (hsafe : (stepPolynomial tan self cv d2).getValue cv ≤ 0) (n1 n2 : Nat) (r1 r2 : ℝ)
    (h1 : newtonLoop (stepPolynomial tan self cv d1) tol n1 (cv - searchRange self) = some r1)
    (h2 : newtonLoop (stepPolynomial tan self cv d2) tol n2 (cv - searchRange self) = some r2) :
    r1 ≤ r2 := by
  have hs := searchRange_pos self hdt hL hc
  have hs0 : searchRange self ≠ 0 := ne_of_gt hs
  have hk : self.dt ^ 2 / searchRange self ^ 2 ≠ 0 := by
    have : 0 < self.dt ^ 2 / searchRange self ^ 2 := by positivity
    exact ne_of_gt this
  obtain ⟨hA1, hA12, hA2⟩ := stepPolynomial_normal_coeff tan self cv d1 d2 hdt hL hc h0 h12 hsafe
  have hA2m : (tan |d2| / self.L) ^ 2 * searchRange self ^ 2 * self.dt ^ 2
      * (-cv / searchRange self) ^ 4 ≤ 1 := by
    have e : (-cv / searchRange self) ^ 4 = (cv / searchRange self) ^ 4 := by
      rw [neg_div]; ring
    rw [e]; exact hA2
  have m1 : newtonLoop (stepPolynomial tan self cv d1).mirror tol n1
      (-(cv - searchRange self)) = some (-r1) := by
    rw [newtonLoop_mirror, h1]; rfl
  have m2 : newtonLoop (stepPolynomial tan self cv d2).mirror tol n2
      (-(cv - searchRange self)) = some (-r2) := by
    rw [newtonLoop_mirror, h2]; rfl
  have hseed : -(cv - searchRange self) = searchRange self * (-cv / searchRange self + 1) := by
    field_simp; ring
  rw [hseed] at m1 m2
  rw [newtonLoop_scale _ _ _ _ hs hk
    (fun y => (stepPolynomial_mirror_normal tan self cv d1 hdt hL hc y).1)
    (fun y => (stepPolynomial_mirror_normal tan self cv d1 hdt hL hc y).2)] at m1
  rw [newtonLoop_scale _ _ _ _ hs hk
    (fun y => (stepPolynomial_mirror_normal tan self cv d2 hdt hL hc y).1)
    (fun y => (stepPolynomial_mirror_normal tan self cv d2 hdt hL hc y).2)] at m2
  cases e1 : newtonLoop
      (normPoly ((tan |d1| / self.L) ^ 2 * searchRange self ^ 2 * self.dt ^ 2)
        (-cv / searchRange self)) (tol / searchRange self) n1 (-cv / searchRange self + 1) with
  | none => rw [e1] at m1; simp at m1
  | some y1 =>
    cases e2 : newtonLoop
        (normPoly ((tan |d2| / self.L) ^ 2 * searchRange self ^ 2 * self.dt ^ 2)
          (-cv / searchRange self)) (tol / searchRange self) n2 (-cv / searchRange self + 1) with
    | none => rw [e2] at m2; simp at m2
    | some y2 =>
      rw [e1] at m1
      rw [e2] at m2
      simp only [Option.map_some', Option.some.injEq] at m1 m2
      have hy := newtonLoop_normPoly_antitone _ _ _ _ n1 n2 y1 y2 hA1 hA12 hA2m e1 e2
      have := mul_le_mul_of_nonneg_left hy hs.le
      rw [m1, m2] at this
      linarith

/-- The tangent of the steering magnitude is nonnegative and monotone below `π / 2`. -/
theorem tan_abs_mono (d1 d2 : ℝ) (hd : |d1| ≤ |d2|) (h2 : |d2| < Real.pi / 2) :
    0 ≤ Real.tan |d1| ∧ Real.tan |d1| ≤ Real.tan |d2| := by
  refine ⟨Real.tan_nonneg_of_nonneg_of_le_pi_div_two (abs_nonneg d1) (by linarith), ?_⟩
  rcases eq_or_lt_of_le hd with h | h
  · rw [h]
  · exact (Real.tan_lt_tan_of_nonneg_of_lt_pi_div_two (abs_nonneg d1) h2 h).le

/-- The width of the single-step bound does not grow with the steering magnitude, on an
instance with `dt, L, c > 0` and `maxDelta < π / 2`. -/
theorem makeVeloBoundNextStep_width_le (self : SafeCar ℝ) (cv tol d1 d2 : ℝ)
    (hdt : 0 < self.dt) (hL : 0 < self.L) (hc : 0 < self.c)
    (hpi : self.maxDelta < Real.pi / 2) (hd : |d1| ≤ |d2|)
    (n1 n2 : Nat) (r1 r2 : veloBound ℝ) (s1 s2 : SafeCar ℝ)
    (h1 : makeVeloBoundNextStep Real.tan self cv d1 tol n1 = some (r1, s1))
    (h2 : makeVeloBoundNextStep Real.tan self cv d2 tol n2 = some (r2, s2)) :
    r2.vMax - r2.vMin ≤ r1.vMax - r1.vMin := by
  obtain ⟨-, c1⟩ := makeVeloBoundNextStep_cases _ _ _ _ _ _ _ _ h1
  obtain ⟨-, c2⟩ := makeVeloBoundNextStep_cases _ _ _ _ _ _ _ _ h2
  have hw1 : 0 ≤ r1.vMax - r1.vMin := by
    rcases c1 with ⟨-, hr⟩ | ⟨-, hs, -, -⟩
    · rw [hr]; simp [dangerBound]
    · have hb := makeVeloBoundNextStep_safe_bounds Real.tan self cv d1 tol n1 hdt hL hc r1 s1 h1 hs
      linarith [hb.1.1, hb.2.1.2]
  rcases c2 with ⟨-, hr2⟩ | ⟨hcond2, -, hmax2, hmin2⟩
  · rw [hr2]
    simpa [dangerBound] using hw1
  push_neg at hcond2
  obtain ⟨h0, h12⟩ := tan_abs_mono d1 d2 hd (lt_of_le_of_lt hcond2.2 hpi)
  rcases c1 with ⟨hcond1, -⟩ | ⟨-, -, hmax1, hmin1⟩
  · exfalso
    rcases hcond1 with hP | hdl
    · rw [gt_iff_lt, stepPolynomial_getValue_self Real.tan self cv d1 (ne_of_gt hdt)] at hP
      have hP2 := hcond2.1
      rw [stepPolynomial_getValue_self Real.tan self cv d2 (ne_of_gt hdt)] at hP2
      have e1 : Real.tan |d1| / self.L ≤ Real.tan |d2| / self.L :=
        div_le_div_of_nonneg_right h12 hL.le
      have e2 : (Real.tan |d1| / self.L) ^ 2 ≤ (Real.tan |d2| / self.L) ^ 2 :=
        pow_le_pow_left₀ (div_nonneg h0 hL.le) e1 2
      have e3 : (0 : ℝ) ≤ cv ^ 4 := by positivity
      have := mul_le_mul_of_nonneg_right e2 e3
      linarith
    · linarith [hcond2.2]
  · have hup := newtonLoop_stepPolynomial_upper Real.tan self cv d1 d2 tol hdt hL hc h0 h12
      hcond2.1 n1 n2 _ _ hmax1 hmax2
    have hlo := newtonLoop_stepPolynomial_lower Real.tan self cv d1 d2 tol hdt hL hc h0 h12
      hcond2.1 n1 n2 _ _ hmin1 hmin2
    linarith

/-- C8: on an instance with `dt, L, c > 0` and `maxDelta < π/2`, for every
`currentVelocity`, every tolerance `> 0` and every two steering angles with `|d1| ≤ |d2|`,
both calls of `makeVeloBoundNextStep` return (within some number `N` of Newton iterations),
and the width `vMax − vMin` returned for `d2` is less than or equal to the width returned
for `d1`. -/
theorem makeVeloBoundNextStep_width_antitone (self : SafeCar ℝ)
    (currentVelocity tolerance d1 d2 : ℝ)
    (hdt : 0 < self.dt) (hL : 0 < self.L) (hc : 0 < self.c)
    (hpi : self.maxDelta < Real.pi / 2) (htol : 0 < tolerance) (hd : |d1| ≤ |d2|) :
    (∃ N : Nat, ∀ n1 n2, N ≤ n1 → N ≤ n2 → ∃ r1 r2,
      makeVeloBoundNextStep Real.tan self currentVelocity d1 tolerance n1
          = some (r1, afterStep Real.tan self currentVelocity d1) ∧
        makeVeloBoundNextStep Real.tan self currentVelocity d2 tolerance n2
          = some (r2, afterStep Real.tan self currentVelocity d2)) ∧
    ∀ (n1 n2 : Nat) (r1 r2 : veloBound ℝ) (s1 s2 : SafeCar ℝ),
      makeVeloBoundNextStep Real.tan self currentVelocity d1 tolerance n1 = some (r1, s1) →
      makeVeloBoundNextStep Real.tan self currentVelocity d2 tolerance n2 = some (r2, s2) →
      r2.vMax - r2.vMin ≤ r1.vMax - r1.vMin := by
  constructor
  · obtain ⟨N, hN⟩ := exists_nat_gt (searchRange self / tolerance)
    rw [div_lt_iff₀ htol] at hN
    refine ⟨N, fun n1 n2 hn1 hn2 => ?_⟩
    have hle1 : (N : ℝ) ≤ (n1 : ℝ) := by exact_mod_cast hn1
    have hle2 : (N : ℝ) ≤ (n2 : ℝ) := by exact_mod_cast hn2
    have hm1 := mul_le_mul_of_nonneg_right hle1 htol.le
    have hm2 := mul_le_mul_of_nonneg_right hle2 htol.le
    obtain ⟨r1, hr1⟩ := makeVeloBoundNextStep_returns Real.tan self currentVelocity d1 tolerance
      n1 hdt hL hc (by linarith)
    obtain ⟨r2, hr2⟩ := makeVeloBoundNextStep_returns Real.tan self currentVelocity d2 tolerance
      n2 hdt hL hc (by linarith)
    exact ⟨r1, r2, hr1, hr2⟩
  · intro n1 n2 r1 r2 s1 s2 h1 h2
    exact makeVeloBoundNextStep_width_le self currentVelocity tolerance d1 d2 hdt hL hc hpi hd
      n1 n2 r1 r2 s1 s2 h1 h2

theorem makeVeloBoundNextStep_width_antitone_witness :
    ∃ r1 r2 : veloBound ℝ,
      makeVeloBoundNextStep Real.tan (defaultCar Real.tan) 1 0 defaultTolerance 1000000000
          = some (r1, afterStep Real.tan (defaultCar Real.tan) 1 0) ∧
        makeVeloBoundNextStep Real.tan (defaultCar Real.tan) 1 (1 / 2) defaultTolerance 1000000000
          = some (r2, afterStep Real.tan (defaultCar Real.tan) 1 (1 / 2)) ∧
        r1.isSafe = true ∧ r2.isSafe = true ∧ |(0 : ℝ)| ≤ |(1 / 2 : ℝ)| ∧
        r2.vMax - r2.vMin ≤ r1.vMax - r1.vMin := by
  have hpi := Real.pi_gt_three
  have hfuel : searchRange (defaultCar Real.tan) < (1000000000 : ℕ) * (defaultTolerance : ℝ) := by
    rw [defaultCar_searchRange, defaultTolerance]; norm_num
  have hd : |(0 : ℝ)| ≤ |(1 / 2 : ℝ)| := by norm_num
  have hhalf : |(1 / 2 : ℝ)| = 1 / 2 := abs_of_pos (by norm_num)
  have hmax : (defaultCar Real.tan).maxDelta < Real.pi / 2 := by
    rw [defaultCar_maxDelta]; linarith
  have htan : 0 ≤ Real.tan |(1 / 2 : ℝ)| ∧ Real.tan |(1 / 2 : ℝ)| ≤ Real.tan |(11 / 10 : ℝ)| :=
    tan_abs_mono (1 / 2) (11 / 10) (by norm_num [abs_of_pos])
      (by rw [abs_of_pos (by norm_num : (0 : ℝ) < 11 / 10)]; linarith)
  rw [abs_of_pos (by norm_num : (0 : ℝ) < 11 / 10)] at htan
  have hs1 : (stepPolynomial Real.tan (defaultCar Real.tan) 1 0).getValue 1 ≤ 0 :=
    stepPolynomial_getValue_self_nonpos Real.tan (defaultCar Real.tan) 1 0
      (defaultCar_dt_pos _).ne.symm (defaultCar_L_pos _)
      (by rw [abs_zero, Real.tan_zero])
      (by rw [abs_zero, Real.tan_zero, defaultCar_c]; norm_num)
  have hs2 : (stepPolynomial Real.tan (defaultCar Real.tan) 1 (1 / 2)).getValue 1 ≤ 0 :=
    stepPolynomial_getValue_self_nonpos Real.tan (defaultCar Real.tan) 1 (1 / 2)
      (defaultCar_dt_pos _).ne.symm (defaultCar_L_pos _) htan.1
      (by rw [defaultCar_c]; linarith [htan.2, tan_default_maxDelta_bounds.2])
  obtain ⟨a1, b1, -, -, h1⟩ := makeVeloBoundNextStep_returns_safe Real.tan (defaultCar Real.tan)
    1 0 defaultTolerance 1000000000 (defaultCar_dt_pos _) (defaultCar_L_pos _)
    (defaultCar_c_pos _) hs1 (by rw [abs_zero]; exact (defaultCar_maxDelta_pos _).le) hfuel
  obtain ⟨a2, b2, -, -, h2⟩ := makeVeloBoundNextStep_returns_safe Real.tan (defaultCar Real.tan)
    1 (1 / 2) defaultTolerance 1000000000 (defaultCar_dt_pos _) (defaultCar_L_pos _)
    (defaultCar_c_pos _) hs2 (by rw [hhalf, defaultCar_maxDelta]; norm_num) hfuel
  exact ⟨_, _, h1, h2, rfl, rfl, hd,
    (makeVeloBoundNextStep_width_antitone (defaultCar Real.tan) 1 defaultTolerance 0 (1 / 2)
      (defaultCar_dt_pos _) (defaultCar_L_pos _) (defaultCar_c_pos _) hmax defaultTolerance_pos
      hd).2 1000000000 1000000000 _ _ _ _ h1 h2⟩

end SafeCar
